import Mathlib

/-!
Seasonal-trend decomposition by LOESS (`chewxy/stl`): embedding and verification.

The Go sources `loess/loess.go`, `stl.go`, `subcycle.go`, `opts.go` and `api.go` are embedded
as pure Lean functions.

Conventions of the embedding:

* `float64` values are exact rationals (`ℚ`): rounding, overflow and the inexactness of the
  decimal literals (`0.99999`, `0.01`, ...) are not modelled.  A floating-point division by
  zero, which in Go yields `NaN` or `±Inf` and lets the run continue, ends the modelled run with
  the outcome `Outcome.nonFinite`.  Every other division of the sources has a divisor that a
  guard of the source makes non-zero.
* Go `int` values are integers (`ℤ`); `int(f)` is truncation towards zero (`truncToInt`) and
  `/` on `int` is `Int.tdiv`.
* slices are lists; an index outside a slice is a run-time panic (`Outcome.panicked`), and so
  is a call of a `nil` function value.
* a mutable struct is passed in and returned; where two slices of the source share their
  backing array the embedding says so (`RetVal.inPlace`, `state`).
* a `for` loop whose counter is advanced by a run-time stride is a recursion on fuel; running
  out of fuel is the outcome `Outcome.diverged`.
* the transforms of `api.go` call `math.Log`, `math.Exp` and `math.Pow`, whose exact values
  are not rational.  Where only the shape of a transform matters these three functions are a
  parameter (`stl.MathFns`); where their values matter the transforms are embedded over the
  reals with the exact functions (`stl.reals`).
-/

/-- How a Go call ends: it returns, panics, never returns, or leaves the rational model. -/
inductive Outcome (α : Type) where
  | ok (a : α)
  | panicked
  | diverged
  | nonFinite
  deriving DecidableEq, Repr

namespace Outcome

/-- Sequencing: the continuation runs only after a normal return. -/
def bind {α β : Type} (o : Outcome α) (f : α → Outcome β) : Outcome β :=
  match o with
  | ok a => f a
  | panicked => panicked
  | diverged => diverged
  | nonFinite => nonFinite

end Outcome

/-- Go `int(f)` for a `float64` value `f`: truncation towards zero. -/
def truncToInt (q : ℚ) : ℤ := if 0 ≤ q then ⌊q⌋ else ⌈q⌉

/-- The values taken by `i` in `for i := left; i <= right; i++` with `float64` bounds. -/
def floatRange (left right : ℚ) : List ℚ :=
  if left ≤ right then (List.range (⌊right - left⌋.toNat + 1)).map (fun (k : ℕ) => left + (k : ℚ))
  else []

/-- The values taken by `j` in `for j := lo; j < hi; j++` with `int` bounds. -/
def intRange (lo hi : ℤ) : List ℤ :=
  (List.range (hi - lo).toNat).map (fun (k : ℕ) => lo + (k : ℤ))

/-- Slice index check: `0 <= j < len`. -/
def inBounds (len : ℕ) (j : ℤ) : Bool := decide (0 ≤ j) && decide (j < (len : ℤ))

/-- Slice read `a[j]`, used after the index check. -/
def getI (a : List ℚ) (j : ℤ) : ℚ := a.getD j.toNat 0

/-- Slice write `a[j] = v`, used after the index check. -/
def setI (a : List ℚ) (j : ℤ) (v : ℚ) : List ℚ := a.set j.toNat v

/-- A loop body run once for each element of `l`, in order; a body that does not return
ends the loop. -/
def forEach {ι σ : Type} (l : List ι) (body : ι → σ → Outcome σ) (st : σ) : Outcome σ :=
  match l with
  | [] => .ok st
  | i :: rest => (body i st).bind (forEach rest body)

/-- The loop `for i := i0; i < bound; i += jump { body; if stop i { break } }`, on fuel. -/
def strideLoop {σ : Type} (body : ℤ → σ → Outcome σ) (stop : ℤ → Bool) (bound jump : ℤ) :
    ℕ → ℤ → σ → Outcome σ
  | 0, _, _ => .diverged
  | fuel + 1, i, st =>
    if i < bound then
      (body i st).bind (fun st1 =>
        if stop i then .ok st1 else strideLoop body stop bound jump fuel (i + jump) st1)
    else .ok st

namespace loess

/-- The errors of package `loess`. -/
inductive Err where
  /-- `errors.Errorf("Lambda %v", lambda)` -/
  | lambdaErr (v : ℚ)
  /-- `errTotal`: "Total <= 0" -/
  | total
  /-- `errors.Errorf("Regression width: %d. Smoothing width %d", ...)` -/
  | widthMismatch (stateWidth width : ℤ)
  /-- `errors.Errorf("Expected the preallocated value to have at least %d elements. ...")` -/
  | shortRetVal (need got : ℕ)
  deriving DecidableEq, Repr

/-- `type State struct`: the regression workspace. -/
structure State where
  width : ℤ
  w : List ℚ
  x : List ℚ
  e : List ℚ
  deriving DecidableEq, Repr

/-- `func New(width int, x []float64) *State` -/
def New (width : ℤ) (x : List ℚ) : State :=
  { width := width, x := x, w := List.replicate x.length 0, e := [] }

/-- `func NewWithExternal(width int, x, e []float64) *State` -/
def NewWithExternal (width : ℤ) (x e : List ℚ) : State :=
  { width := width, w := List.replicate x.length 0, x := x, e := e }

/-- The bandwidth `lambda` of `localWeights`, widened when the width exceeds the series. -/
def bandwidth (s : State) (x left right : ℚ) : ℚ :=
  let lambda := max (x - left) (right - x)
  if s.width > (s.x.length : ℤ) then lambda + ((s.width - (s.x.length : ℤ) : ℤ) : ℚ) / 2
  else lambda

/-- The tricube neighbourhood weight of `localWeights` at position `i`, with the two
stabilising cut-offs; `lambda > 0` here, by the guard of `localWeights`. -/
def tricubeAt (x lambda i : ℚ) : ℚ :=
  let delta := |x - i|
  if delta ≤ 0.00001 * lambda then 1
  else
    let frac := delta / lambda
    let trix := 1 - frac * frac * frac
    trix * trix * trix

/-- One pass of the first loop of `localWeights`: the running `sum` and the weights `W`. -/
def localWeightsStep (x lambda : ℚ) (E : List ℚ) (acc : ℚ × List ℚ) (i : ℚ) : ℚ × List ℚ :=
  let j := truncToInt i
  let delta := |x - i|
  if delta ≤ 0.99999 * lambda then
    let w := tricubeAt x lambda i
    let w := if (E.length : ℤ) > j then w * getI E j else w
    (acc.1 + w, setI acc.2 j w)
  else (acc.1, setI acc.2 j 0)

/-- `func (s *State) localWeights(x, left, right float64) error` -/
def localWeights (s : State) (x left right : ℚ) : Outcome (State × Option Err) :=
  let lambda := bandwidth s x left right
  if lambda ≤ 0 then .ok (s, some (.lambdaErr lambda))
  else if ((floatRange left right).all fun i => inBounds s.w.length (truncToInt i)) then
    let acc := (floatRange left right).foldl (localWeightsStep x lambda s.e) (0, s.w)
    if acc.1 ≤ 0 then .ok ({ s with w := acc.2 }, some .total)
    else
      let W := (floatRange left right).foldl
        (fun W i => setI W (truncToInt i) (getI W (truncToInt i) / acc.1)) acc.2
      .ok ({ s with w := W }, none)
  else .panicked

/-- `func Linear(s *State, x, left, right float64) error` -/
def Linear (s : State) (x left right : ℚ) : Outcome (State × Option Err) :=
  let idx := floatRange left right
  if (idx.all fun i => inBounds s.w.length (truncToInt i)) then
    let mean := idx.foldl (fun mean i => mean + i * getI s.w (truncToInt i)) 0
    let variance := idx.foldl
      (fun variance i => variance + getI s.w (truncToInt i) * (i - mean) * (i - mean)) 0
    let r : ℚ := (((s.x.length : ℤ) - 1 : ℤ) : ℚ)
    let thresh := 0.01 * r
    if variance ≥ thresh * thresh then
      if variance = 0 then
        -- `beta` is a division by zero; the loop below stores it only if it runs
        if idx = [] then .ok (s, none) else .nonFinite
      else
        let beta := (x - mean) / variance
        let W := idx.foldl
          (fun W i => setI W (truncToInt i) (getI W (truncToInt i) * (1 + beta * (i - mean))))
          s.w
        .ok ({ s with w := W }, none)
    else .ok (s, none)
  else .panicked

/-- The four sums `x1 .. x4` of `Quadratic`. -/
def quadraticMoments (W : List ℚ) (idx : List ℚ) : ℚ × ℚ × ℚ × ℚ :=
  idx.foldl (fun m i =>
    let w := getI W (truncToInt i)
    let x1w := i * w
    let x2w := i * x1w
    let x3w := i * x2w
    let x4w := i * x3w
    (m.1 + x1w, m.2.1 + x2w, m.2.2.1 + x3w, m.2.2.2 + x4w)) (0, 0, 0, 0)

/-- `func Quadratic(s *State, x, left, right float64) error`.  The guard of its `for` loop,
`variance > thresh*thresh`, reads two variables that the loop body never assigns: a loop that
is entered is never left. -/
def Quadratic (s : State) (_x left right : ℚ) : Outcome (State × Option Err) :=
  let idx := floatRange left right
  if (idx.all fun i => inBounds s.w.length (truncToInt i)) then
    let m := quadraticMoments s.w idx
    let x1 := m.1
    let x2 := m.2.1
    let x3 := m.2.2.1
    let x4 := m.2.2.2
    let m2 := x2 - x1 * x1
    let m3 := x3 - x2 * x1
    let m4 := x4 - x2 * x2
    let variance := m2 * m4 - m3 * m3
    let r : ℚ := (((s.x.length : ℤ) - 1 : ℤ) : ℚ)
    let thresh := 0.01 * r
    if variance > thresh * thresh then .diverged else .ok (s, none)
  else .panicked

/-- `type WeightUpdate func(s *State, x, left, right float64) error`: the two update
functions of the package, and the `nil` function value. -/
inductive WeightUpdate where
  | linear
  | quadratic
  | nilFn
  deriving DecidableEq, Repr

/-- The call `fn(s, x, left, right)`. -/
def WeightUpdate.call (fn : WeightUpdate) (s : State) (x left right : ℚ) :
    Outcome (State × Option Err) :=
  match fn with
  | .linear => Linear s x left right
  | .quadratic => Quadratic s x left right
  | .nilFn => .panicked

/-- `func Regress(s *State, fn WeightUpdate, x, left, right float64) (retVal float64, err error)` -/
def Regress (s : State) (fn : WeightUpdate) (x left right : ℚ) :
    Outcome (State × ℚ × Option Err) :=
  (localWeights s x left right).bind fun r1 =>
    match r1.2 with
    | some err => .ok (r1.1, 0, some err)
    | none =>
      (fn.call r1.1 x left right).bind fun r2 =>
        match r2.2 with
        | some err => .ok (r2.1, 0, some err)
        | none =>
          let idx := intRange (truncToInt left) (truncToInt right + 1)
          if (idx.all fun i => inBounds r2.1.w.length i && inBounds r2.1.x.length i) then
            .ok (r2.1, idx.foldl (fun retVal i => retVal + getI r2.1.w i * getI r2.1.x i) 0, none)
          else .panicked

/-- The memory `smooth` works on: the regression state and the slice `retVal`. -/
structure Mem where
  s : State
  retVal : List ℚ
  deriving DecidableEq, Repr

/-- The store `retVal[i] = v`.  With `shared`, `retVal` is the very slice `s.x`, and the
store is seen through `s.x` as well. -/
def setRet (shared : Bool) (m : Mem) (i : ℤ) (v : ℚ) : Outcome Mem :=
  if inBounds m.retVal.length i then
    .ok { s := if shared then { m.s with x := setI m.s.x i v } else m.s,
          retVal := setI m.retVal i v }
  else .panicked

/-- The statement repeated in `smooth`:
`if point, err := Regress(s, fn, j, left, right); err == nil { retVal[i] = point }
 else { retVal[i] = x[i] }` with `j = float64(i)`. -/
def regressInto (shared : Bool) (fn : WeightUpdate) (i : ℤ) (left right : ℚ) (m : Mem) :
    Outcome Mem :=
  (Regress m.s fn (i : ℚ) left right).bind fun r =>
    match r.2.2 with
    | none => setRet shared { m with s := r.1 } i r.2.1
    | some _ =>
      if inBounds r.1.x.length i then setRet shared { m with s := r.1 } i (getI r.1.x i)
      else .panicked

/-- The left end of the window in the sparse branch of `smooth`, before its conversion to
`float64`. -/
def sparseLeft (size width half i : ℤ) : ℤ :=
  if i < half - 1 then 0
  else if i ≥ size - half then size - width
  else i - half + 1

/-- The window update at the head of the `jump == 1` loop body of `smooth`:
`if i >= half && int(right) != size-1 { left++; right++ }`. -/
def denseShift (size half : ℤ) (lr : ℚ × ℚ) (i : ℕ) : ℚ × ℚ :=
  if (i : ℤ) ≥ half ∧ truncToInt lr.2 ≠ size - 1 then (lr.1 + 1, lr.2 + 1) else lr

/-- The body of the `jump == 1` loop of `smooth`; the loop state is `(left, right, memory)`. -/
def denseStep (shared : Bool) (fn : WeightUpdate) (size half : ℤ) (i : ℕ)
    (st : ℚ × ℚ × Mem) : Outcome (ℚ × ℚ × Mem) :=
  let lr := denseShift size half (st.1, st.2.1) i
  (regressInto shared fn (i : ℤ) lr.1 lr.2 st.2.2).bind fun m => .ok (lr.1, lr.2, m)

/-- The body of the sparse sampling loop of `smooth`. -/
def sparseStep (shared : Bool) (fn : WeightUpdate) (size width half : ℤ) (i : ℤ)
    (st : ℚ × ℚ × Mem) : Outcome (ℚ × ℚ × Mem) :=
  let left : ℚ := ((sparseLeft size width half i : ℤ) : ℚ)
  let right : ℚ := left + ((width - 1 : ℤ) : ℚ)
  (regressInto shared fn i left right st.2.2).bind fun m => .ok (left, right, m)

/-- The inner interpolation loop
`for j := a + 1; j < b; j++ { retVal[j] = retVal[a] + slope*float64(j-a) }`. -/
def fillBetween (shared : Bool) (a b : ℤ) (slope : ℚ) (m : Mem) : Outcome Mem :=
  forEach (intRange (a + 1) b)
    (fun j m =>
      if inBounds m.retVal.length a then
        setRet shared m j (getI m.retVal a + slope * ((j - a : ℤ) : ℚ))
      else .panicked) m

/-- The body of the interpolation loop of `smooth` over the sampled positions. -/
def interpolateStep (shared : Bool) (jump : ℤ) (i : ℤ) (m : Mem) : Outcome Mem :=
  if inBounds m.retVal.length (i + jump) && inBounds m.retVal.length i then
    if jump = 0 then .nonFinite
    else
      let slope := (getI m.retVal (i + jump) - getI m.retVal i) / (jump : ℚ)
      fillBetween shared i (i + jump) slope m
  else .panicked

/-- The tail of `smooth` for `jump != 1`: the final index and the points before it. -/
def smoothLast (shared : Bool) (fn : WeightUpdate) (size jump : ℤ) (left right : ℚ)
    (m : Mem) : Outcome Mem :=
  let last := size - 1
  if jump = 0 then .panicked -- integer division by zero
  else
    let lastSmoothedPos := (last.tdiv jump) * jump
    if lastSmoothedPos ≠ last then
      (regressInto shared fn last left right m).bind fun m =>
        if lastSmoothedPos ≠ last - 1 then
          if inBounds m.retVal.length last && inBounds m.retVal.length lastSmoothedPos then
            let slope := (getI m.retVal last - getI m.retVal lastSmoothedPos)
              / ((last - lastSmoothedPos : ℤ) : ℚ)
            fillBetween shared lastSmoothedPos last slope m
          else .panicked
        else .ok m
    else .ok m

/-- `func smooth(s *State, width, jump int, fn WeightUpdate, retVal []float64)
([]float64, error)`; `shared` says that `retVal` is the slice `s.x` itself. -/
def smooth (shared : Bool) (s : State) (width jump : ℤ) (fn : WeightUpdate)
    (retVal : List ℚ) : Outcome (State × List ℚ × Option Err) :=
  let size : ℤ := (s.x.length : ℤ)
  if size = 1 then
    if inBounds s.x.length 0 then
      (setRet shared ⟨s, retVal⟩ 0 (getI s.x 0)).bind fun m => .ok (m.s, m.retVal, none)
    else .panicked
  else
    let half := (width + 1).tdiv 2
    let fuel := size.toNat + 1
    let sampled : Outcome (ℚ × ℚ × Mem) :=
      if width ≥ size then
        (strideLoop (fun i m => regressInto shared fn i 0 ((size - 1 : ℤ) : ℚ) m)
          (fun i => decide (i + jump > size)) size jump fuel 0 ⟨s, retVal⟩).bind
          fun m => .ok (0, ((size - 1 : ℤ) : ℚ), m)
      else if jump = 1 then
        forEach (List.range s.x.length) (denseStep shared fn size half)
          (0, ((width - 1 : ℤ) : ℚ), ⟨s, retVal⟩)
      else
        strideLoop (sparseStep shared fn size width half) (fun _ => false) size jump fuel 0
          (-1, -1, ⟨s, retVal⟩)
    sampled.bind fun st =>
      if jump ≠ 1 then
        (strideLoop (interpolateStep shared jump) (fun _ => false) (size - jump) jump fuel 0
          st.2.2).bind fun m =>
          (smoothLast shared fn size jump st.1 st.2.1 m).bind fun m =>
            .ok (m.s, m.retVal, none)
      else .ok (st.2.2.s, st.2.2.retVal, none)

/-- `func Smooth(x []float64, width, jump int, fn WeightUpdate) ([]float64, error)` -/
def Smooth (x : List ℚ) (width jump : ℤ) (fn : WeightUpdate) :
    Outcome (State × List ℚ × Option Err) :=
  let s := New width x
  let retVal := List.replicate x.length (0 : ℚ)
  smooth false s width jump fn retVal

/-- The argument `retVal` of `UnsafeSmooth`: `nil`, a slice of its own, or the slice
`regression.x` itself (as `updateSeasonalAndTrend` passes it). -/
inductive RetVal where
  | nil
  | buf (b : List ℚ)
  | inPlace
  deriving DecidableEq, Repr

/-- `func UnsafeSmooth(regression *State, width, jump int, fn WeightUpdate, retVal []float64)
([]float64, error)`; a returned `nil` slice is `[]`. -/
def UnsafeSmooth (regression : State) (width jump : ℤ) (fn : WeightUpdate) (retVal : RetVal) :
    Outcome (State × List ℚ × Option Err) :=
  if regression.width ≠ width then
    .ok (regression, [], some (.widthMismatch regression.width width))
  else
    let buffer : List ℚ :=
      match retVal with
      | .nil => List.replicate regression.x.length 0
      | .buf b => b
      | .inPlace => regression.x
    if buffer.length < regression.x.length then
      .ok (regression, [], some (.shortRetVal regression.x.length buffer.length))
    else smooth (decide (retVal = .inPlace)) regression width jump fn buffer

end loess

namespace stl

open loess

/-- `type Config struct` -/
structure Config where
  Width : ℤ
  Jump : ℤ
  Fn : WeightUpdate
  deriving DecidableEq, Repr

/-- `func trendWidth(periodicity int, seasonalWidth int) int`.  For `seasonalWidth = 0` the
Go expression is `int(1.5*p/(1-Inf) + 0.5) = int(0.5) = 0`; for every other integer the
divisors `w` and `1 - 1.5/w` are non-zero. -/
def trendWidth (periodicity seasonalWidth : ℤ) : ℤ :=
  let p : ℚ := (periodicity : ℚ)
  let w : ℚ := (seasonalWidth : ℚ)
  if seasonalWidth = 0 then 0 else truncToInt (1.5 * p / (1 - 1.5 / w) + 0.5)

/-- `func DefaultSeasonal(width int) Config` -/
def DefaultSeasonal (width : ℤ) : Config :=
  { Width := width, Jump := truncToInt (0.1 * (width : ℚ)), Fn := .linear }

/-- `func DefaultTrend(periodicity, width int) Config` -/
def DefaultTrend (periodicity width : ℤ) : Config :=
  { Width := trendWidth periodicity width, Jump := truncToInt (0.1 * (width : ℚ)),
    Fn := .linear }

/-- `func DefaultLowPass(periodicity int) Config` -/
def DefaultLowPass (periodicity : ℤ) : Config :=
  { Width := periodicity, Jump := truncToInt (0.1 * (periodicity : ℚ)), Fn := .linear }

/-- The errors a `Result` can carry. -/
inductive Err where
  /-- "Periodicity must be greater than 2" -/
  | periodicity
  /-- "Width must be greater than 1" -/
  | width
  /-- "Outer Iteration: %d, Inner Iteration %d - Failed to smooth subcycles" -/
  | smoothSubcycles (o i : ℤ) (cause : loess.Err)
  /-- "Outer Iteration: %d, Inner Iteration %d - Failed to remove seasonality" -/
  | removeSeasonality (o i : ℤ) (cause : loess.Err)
  /-- "Outer Iteration: %d, Inner Iteration %d - Failed to update seasonal and trend" -/
  | updateSeasonalAndTrend (o i : ℤ) (cause : loess.Err)
  deriving DecidableEq, Repr

/-- `type Result struct`; a `nil` slice is `[]`. -/
structure Result where
  Data : List ℚ
  Trend : List ℚ
  Seasonal : List ℚ
  Resid : List ℚ
  Err : Option Err
  deriving DecidableEq, Repr

/-- `type subcycleState struct`.  The two `tensor.Dense` workspaces are nested lists, filled
with zeros when they are made: `data` has shape `(2, P, L)` and `smoothed` has shape
`(P, L + fwd + bwd)`. -/
structure subcycleState where
  data : List (List (List ℚ))
  smoothed : List (List ℚ)
  periodicity : ℤ
  periods : ℤ
  rem : ℤ
  fwd : ℤ
  bwd : ℤ
  conf : Config
  deriving DecidableEq, Repr

/-- `func newSubcycleState(conf Config, size, periodicity, fwd, bwd int) *subcycleState` -/
def newSubcycleState (conf : Config) (size periodicity fwd bwd : ℤ) : subcycleState :=
  let periods := size.tdiv periodicity
  let rem := size.tmod periodicity
  let cycleLength := if rem = 0 then periods else periods + 1
  let smoothedLength := cycleLength + fwd + bwd
  { data := List.replicate 2
      (List.replicate periodicity.toNat (List.replicate cycleLength.toNat 0)),
    smoothed := List.replicate periodicity.toNat (List.replicate smoothedLength.toNat 0),
    periodicity := periodicity, periods := periods, rem := rem, fwd := fwd, bwd := bwd,
    conf := conf }

/-- The number of samples `setupWorkspace` copies for phase `p`. -/
def phaseLength (s : subcycleState) (p : ℕ) : ℤ :=
  if (p : ℤ) < s.rem then s.periods + 1 else s.periods

/-- The store `xxx[a][p][i] = v` into a three-dimensional view. -/
def set3 (d : List (List (List ℚ))) (a p i : ℕ) (v : ℚ) : Outcome (List (List (List ℚ))) :=
  if a < d.length ∧ p < (d.getD a []).length ∧ i < ((d.getD a []).getD p []).length then
    .ok (d.set a ((d.getD a []).set p (((d.getD a []).getD p []).set i v)))
  else .panicked

/-- The body of the inner loop of `setupWorkspace`. -/
def setupStep (X weights : List ℚ) (periodicity : ℤ) (p i : ℕ)
    (d : List (List (List ℚ))) : Outcome (List (List (List ℚ))) :=
  let k : ℤ := (i : ℤ) * periodicity + (p : ℤ)
  if inBounds X.length k then
    (set3 d 0 p i (getI X k)).bind fun d =>
      if weights.length > 0 then
        if inBounds weights.length k then set3 d 1 p i (getI weights k) else .panicked
      else .ok d
  else .panicked

/-- `func (s *subcycleState) setupWorkspace(X, weights []float64)` -/
def setupWorkspace (s : subcycleState) (X weights : List ℚ) : Outcome subcycleState :=
  (forEach (List.range s.periodicity.toNat)
    (fun p d =>
      forEach (List.range (phaseLength s p).toNat) (setupStep X weights s.periodicity p) d)
    s.data).bind fun d => .ok { s with data := d }

/-- The statement of `do` that stores an extrapolated point:
`if err != nil { smoothed[at] = smoothed[from] } else { smoothed[at] = point }`. -/
def extrapolateInto (l : State) (x left right : ℚ) (at_ src : ℤ) (smoothed : List ℚ) :
    Outcome (State × List ℚ) :=
  (Regress l .linear x left right).bind fun r =>
    match r.2.2 with
    | some _ =>
      if inBounds smoothed.length src && inBounds smoothed.length at_ then
        .ok (r.1, setI smoothed at_ (getI smoothed src))
      else .panicked
    | none =>
      if inBounds smoothed.length at_ then .ok (r.1, setI smoothed at_ r.2.1) else .panicked

/-- `func (s *subcycleState) do(weights, data, smoothed []float64)`: returns the row
`smoothed` as the call leaves it. -/
def subcycleDo (s : subcycleState) (weights data smoothed : List ℚ) : Outcome (List ℚ) :=
  let cycleLength : ℚ := (data.length : ℚ)
  let l := NewWithExternal s.conf.Width data weights
  if smoothed.length < 1 then .panicked -- smoothed[1:]
  else
    (UnsafeSmooth l s.conf.Width s.conf.Jump .linear (.buf (smoothed.drop 1))).bind fun r =>
      match r.2.2 with
      | some _ => .panicked -- panic(err)
      | none =>
        let smoothed := smoothed.take 1 ++ r.2.1
        let width : ℚ := (s.conf.Width : ℚ)
        let left : ℚ := 0
        let right : ℚ := min (cycleLength - 1) (left + width - 1)
        let leftVal := s.bwd
        (forEach (intRange 1 (s.bwd + 1))
          (fun i st =>
            extrapolateInto st.1 (-(i : ℚ)) left right (leftVal - i) leftVal st.2)
          (r.1, smoothed)).bind fun st =>
          let right : ℚ := cycleLength - 1
          let left : ℚ := max 0 (right - width + 1)
          let rightVal := s.bwd + truncToInt right
          (forEach (intRange 1 (s.fwd + 1))
            (fun i st =>
              extrapolateInto st.1 (right + (i : ℚ)) left right (rightVal + i) rightVal st.2)
            st).bind fun st => .ok st.2

/-- `func (s *subcycleState) computeSmoothedSubSeries() (err error)`; the two `Native`
views of the tensors always exist, so the error is always `nil`. -/
def computeSmoothedSubSeries (s : subcycleState) : Outcome (subcycleState × Option loess.Err) :=
  let plane0 := s.data.getD 0 []
  let plane1 := s.data.getD 1 []
  (forEach (List.range plane0.length)
    (fun p (rows : List (List ℚ)) =>
      if p < plane1.length ∧ p < rows.length then
        (subcycleDo s (plane1.getD p []) (plane0.getD p []) (rows.getD p [])).bind fun row =>
          .ok (rows.set p row)
      else .panicked)
    s.smoothed).bind fun rows => .ok ({ s with smoothed := rows }, none)

/-- `func (s *subcycleState) smoothSeasonal(X []float64, weights []float64, retVal []float64)
error`: returns the state and `retVal` after `copy(retVal, s.smoothed.Data())`. -/
def smoothSeasonal (s : subcycleState) (X weights retVal : List ℚ) :
    Outcome (subcycleState × List ℚ × Option loess.Err) :=
  (setupWorkspace s X weights).bind fun s =>
    (computeSmoothedSubSeries s).bind fun r =>
      match r.2 with
      | some err => .ok (r.1, retVal, some err)
      | none =>
        let flat := r.1.smoothed.flatten
        .ok (r.1, flat.take retVal.length ++ retVal.drop flat.length, none)

/-- `func ma(data []float64, window int) (retVal []float64)` -/
def ma (data : List ℚ) (window : ℤ) : Outcome (List ℚ) :=
  let retSize : ℤ := (data.length : ℤ) - window + 1
  if retSize < 0 then .panicked -- make
  else if window < 0 ∨ window > (data.length : ℤ) then .panicked -- data[0:window]
  else if retSize = 0 then .panicked -- retVal[0]
  else if window = 0 then .nonFinite -- 0 / 0
  else
    let w : ℚ := (window : ℚ)
    let sum := (data.take window.toNat).foldl (fun sum v => sum + v) 0
    let retVal := setI (List.replicate retSize.toNat 0) 0 (sum / w)
    let acc := (intRange 1 retSize).foldl
      (fun (acc : ℚ × ℤ × ℤ × List ℚ) i =>
        let sum := acc.1 + (getI data acc.2.2.1 - getI data acc.2.1)
        (sum, acc.2.1 + 1, acc.2.2.1 + 1, setI acc.2.2.2 i (sum / w)))
      (sum, 0, window, retVal)
    .ok acc.2.2.2

/-- `type state struct`.  The LOESS state `sstate` is made from the slices `Trend` and
`weights` themselves: the embedding keeps its own fields (`sstateWidth`, `sstateW`) and reads
its `x` and `e` from `Trend` and `weights`. -/
structure state where
  Data : List ℚ
  Trend : List ℚ
  Seasonal : List ℚ
  Resid : List ℚ
  Err : Option Err
  weights : List ℚ
  periodicity : ℤ
  width : ℤ
  smoothFn : WeightUpdate
  sConf : Config
  tConf : Config
  lConf : Config
  innerIter : ℤ
  robustIter : ℤ
  detrend : List ℚ
  extendedSeasonal : List ℚ
  deseasonalized : List ℚ
  sstateWidth : ℤ
  sstateW : List ℚ
  scstate : subcycleState
  deriving DecidableEq, Repr

/-- The embedded `Result` of a `state`. -/
def state.Result (s : state) : Result :=
  { Data := s.Data, Trend := s.Trend, Seasonal := s.Seasonal, Resid := s.Resid, Err := s.Err }

/-- `type Opt func(*state)`: the five options of `opts.go`. -/
inductive Opt where
  | WithSeasonalConfig (conf : Config)
  | WithTrendConfig (conf : Config)
  | WithLowpassConfig (conf : Config)
  | WithRobustIter (n : ℤ)
  | WithIter (n : ℤ)
  deriving DecidableEq, Repr

/-- The call `o(s)` of an option. -/
def Opt.apply (o : Opt) (s : state) : state :=
  match o with
  | .WithSeasonalConfig conf => { s with sConf := conf }
  | .WithTrendConfig conf => { s with tConf := conf }
  | .WithLowpassConfig conf => { s with lConf := conf }
  | .WithRobustIter n => { s with robustIter := n }
  | .WithIter n => { s with innerIter := n }

/-- `func newState(data []float64, periodicity, width int, opts ...Opt) *state` -/
def newState (data : List ℚ) (periodicity width : ℤ) (opts : List Opt) : state :=
  let n := data.length
  let s : state :=
    { Data := data, Trend := List.replicate n 0, Seasonal := List.replicate n 0,
      Resid := List.replicate n 0, Err := none,
      weights := List.replicate n 1,
      periodicity := periodicity, width := width, smoothFn := .linear,
      sConf := DefaultSeasonal width, tConf := DefaultTrend periodicity width,
      lConf := DefaultLowPass periodicity,
      innerIter := 2, robustIter := 0,
      detrend := List.replicate n 0,
      extendedSeasonal := List.replicate (n + 2 * periodicity.toNat) 0,
      deseasonalized := [],
      sstateWidth := (DefaultTrend periodicity width).Width,
      sstateW := List.replicate n 0,
      scstate := newSubcycleState (DefaultSeasonal width) (n : ℤ) periodicity 1 1 }
  opts.foldl (fun s o => o.apply s) s

/-- The loop `for i := 0; i < n; i++ { a[i] = f(i) }`. -/
def writePrefix (n : ℕ) (f : ℕ → ℚ) (a : List ℚ) : List ℚ :=
  (List.range n).map f ++ a.drop n

/-- `func updateResiduals(r *Result)` -/
def updateResiduals (r : Result) : Outcome Result :=
  let n := r.Data.length
  if n ≤ r.Resid.length ∧ n ≤ r.Seasonal.length ∧ n ≤ r.Trend.length then
    .ok { r with
      Resid := writePrefix n
        (fun i => r.Data.getD i 0 - r.Seasonal.getD i 0 - r.Trend.getD i 0) r.Resid }
  else .panicked

/-- The robustness weight `updateWeights` gives to the absolute residual `a`. -/
def bisquare (mad6 a : ℚ) : ℚ :=
  if a ≤ 0.001 * mad6 then 1
  else if a ≤ 0.999 * mad6 then
    let h := a / mad6
    let w := 1 - h * h
    w * w
  else 0

/-- `func (s *state) updateWeights()`; `sort.Float64s` is `List.insertionSort`. -/
def state.updateWeights (s : state) : Outcome state :=
  let n := s.Data.length
  if n ≤ s.Resid.length ∧ n ≤ s.Seasonal.length ∧ n ≤ s.Trend.length ∧ n ≤ s.weights.length
  then
    let Resid := writePrefix n
      (fun i => s.Data.getD i 0 - s.Seasonal.getD i 0 - s.Trend.getD i 0) s.Resid
    let weights := writePrefix n (fun i => |Resid.getD i 0|) s.weights
    let sorted := weights.insertionSort (fun a b => a ≤ b)
    let med0 : ℤ := ((n : ℤ) + 1).tdiv 2 - 1
    let med1 : ℤ := (n : ℤ) - med0 - 1
    if inBounds sorted.length med0 && inBounds sorted.length med1 then
      let mad6 := 6 * (getI sorted med0 + getI sorted med1)
      .ok { s with
        Resid := Resid,
        weights := writePrefix n (fun i => bisquare mad6 |Resid.getD i 0|) sorted }
    else .panicked
  else .panicked

/-- `func (s *state) doDetrend()` -/
def state.doDetrend (s : state) : Outcome state :=
  let n := s.Data.length
  if n ≤ s.detrend.length ∧ n ≤ s.Trend.length then
    .ok { s with
      detrend := writePrefix n (fun i => s.Data.getD i 0 - s.Trend.getD i 0) s.detrend }
  else .panicked

/-- `func (s *state) smoothSubcycles(useWeights bool) error` -/
def state.smoothSubcycles (s : state) (useWeights : Bool) : Outcome (state × Option loess.Err) :=
  let weights : List ℚ := if useWeights then s.weights else []
  (smoothSeasonal s.scstate s.detrend weights s.extendedSeasonal).bind fun r =>
    .ok ({ s with scstate := r.1, extendedSeasonal := r.2.1 }, r.2.2)

/-- `func (s *state) removeSeasonality() (err error)` -/
def state.removeSeasonality (s : state) : Outcome (state × Option loess.Err) :=
  (ma s.extendedSeasonal s.periodicity).bind fun m1 =>
    (ma m1 s.periodicity).bind fun m2 =>
      (ma m2 3).bind fun passes =>
        (Smooth passes s.lConf.Width s.lConf.Jump s.lConf.Fn).bind fun r =>
          .ok ({ s with deseasonalized := r.2.1 }, r.2.2)

/-- `func (s *state) updateSeasonalAndTrend(useWeights bool) (err error)` -/
def state.updateSeasonalAndTrend (s : state) (_useWeights : Bool) :
    Outcome (state × Option loess.Err) :=
  let n := s.Seasonal.length
  if n = 0 ∨ (inBounds s.extendedSeasonal.length (s.periodicity + 1)
      && decide (n ≤ s.deseasonalized.length) && decide (n ≤ s.Trend.length)
      && decide (n ≤ s.Data.length)) then
    let Seasonal := writePrefix n
      (fun i => getI s.extendedSeasonal (s.periodicity + 1) - s.deseasonalized.getD i 0)
      s.Seasonal
    let Trend := writePrefix n (fun i => s.Data.getD i 0 - Seasonal.getD i 0) s.Trend
    let sstate : State := { width := s.sstateWidth, w := s.sstateW, x := Trend, e := s.weights }
    (UnsafeSmooth sstate s.tConf.Width s.tConf.Jump s.tConf.Fn .inPlace).bind fun r =>
      .ok ({ s with Seasonal := Seasonal, Trend := r.2.1, sstateW := r.1.w }, r.2.2)
  else .panicked

/-- `type ModelType struct`: the two transforms work in place on the slice they are given
and return it. -/
structure ModelType where
  Fwd : List ℚ → List ℚ
  Bwd : List ℚ → List ℚ

/-- `func Additive() ModelType` -/
def Additive : ModelType := { Fwd := fun a => a, Bwd := fun a => a }

/-- The three functions of Go's standard package `math` that `api.go` calls.  They are not
code of this repository and their exact values are not rational, so the rational model
takes them as a parameter, about which nothing is assumed. -/
structure MathFns where
  Log : ℚ → ℚ
  Exp : ℚ → ℚ
  Pow : ℚ → ℚ → ℚ

/-- `func Multiplicative() ModelType` -/
def Multiplicative (M : MathFns) : ModelType :=
  { Fwd := fun a => a.map M.Log, Bwd := fun a => a.map M.Exp }

/-- `func UnsafeTransform(lambda float64) ModelType`; a negative `lambda` panics. -/
def UnsafeTransform (M : MathFns) (lambda : ℚ) : Outcome ModelType :=
  if lambda = 1 then .ok (Multiplicative M)
  else if lambda = 0 then .ok Additive
  else if lambda < 0 then .panicked
  else
    .ok { Fwd := fun a => a.map (fun v => (M.Pow v lambda - 1) / lambda),
          Bwd := fun a => a.map (fun v => M.Pow (v * lambda + 1) (1 / lambda)) }

/-- One pass of the inner loop of `Decompose`; a failing step stores its error in `Err`,
after which `Decompose` returns. -/
def innerPass (o i : ℤ) (useResidualWeights : Bool) (s : state) : Outcome state :=
  s.doDetrend.bind fun s =>
    (s.smoothSubcycles useResidualWeights).bind fun r =>
      match r.2 with
      | some err => .ok { r.1 with Err := some (.smoothSubcycles o i err) }
      | none =>
        r.1.removeSeasonality.bind fun r =>
          match r.2 with
          | some err => .ok { r.1 with Err := some (.removeSeasonality o i err) }
          | none =>
            (r.1.updateSeasonalAndTrend useResidualWeights).bind fun r =>
              match r.2 with
              | some err => .ok { r.1 with Err := some (.updateSeasonalAndTrend o i err) }
              | none => .ok r.1

/-- One pass of the outer loop of `Decompose`: the inner loop, then `updateWeights`.  A
state whose `Err` is set has already been returned. -/
def outerPass (o : ℤ) (s : state) : Outcome state :=
  if s.Err.isSome then .ok s
  else
    (forEach (intRange 0 s.innerIter)
      (fun i s => if s.Err.isSome then .ok s else innerPass o i (decide (o > 0)) s) s).bind
      fun s => if s.Err.isSome then .ok s else s.updateWeights

/-- `func Decompose(X []float64, periodicity, width int, m ModelType, opts ...Opt) Result`.
The second component is the content of the caller's slice `X` when the call returns. -/
def Decompose (X : List ℚ) (periodicity width : ℤ) (m : ModelType) (opts : List Opt) :
    Outcome (Result × List ℚ) :=
  if periodicity < 2 then
    .ok ({ Data := [], Trend := [], Seasonal := [], Resid := [], Err := some .periodicity }, X)
  else if width < 1 then
    .ok ({ Data := [], Trend := [], Seasonal := [], Resid := [], Err := some .width }, X)
  else
    let bc := m.Fwd
    let ibc := m.Bwd
    let X := bc X
    let s := newState X periodicity width opts
    (forEach (intRange 0 (s.robustIter + 1)) outerPass s).bind fun s =>
      if s.Err.isSome then .ok (s.Result, s.Data)
      else
        (updateResiduals s.Result).bind fun r =>
          let Data := ibc r.Data
          .ok ({ Data := Data, Seasonal := ibc r.Seasonal, Trend := ibc r.Trend,
                 Resid := ibc r.Resid, Err := r.Err }, Data)

end stl

/-! ## Predicates used in the statements -/

namespace loess

/-- What a call leaves untouched in a regression state: everything but the content of `w`. -/
def State.Frame (s s1 : State) : Prop :=
  s1.x = s.x ∧ s1.e = s.e ∧ s1.width = s.width ∧ s1.w.length = s.w.length

/-- The facts about its memory that `smooth` keeps from start to end: the lengths, the
external weights and the width; the series itself unless `retVal` is that series. -/
def MemInv (shared : Bool) (s0 : State) (L : ℕ) (m : Mem) : Prop :=
  m.retVal.length = L ∧ m.s.e = s0.e ∧ m.s.width = s0.width ∧ m.s.w.length = s0.w.length ∧
    m.s.x.length = s0.x.length ∧ (shared = false → m.s.x = s0.x) ∧
    (shared = true → m.retVal = m.s.x)

end loess

namespace stl

/-- The lengths `Decompose` keeps in its state: the three buffers always, the trend as long
as no error is stored. -/
def state.Sized (n : ℕ) (s : state) : Prop :=
  s.Data.length = n ∧ s.Seasonal.length = n ∧ s.Resid.length = n ∧
    (s.Err = none → s.Trend.length = n)

end stl

namespace loess

/-- The value that the statement `regressInto` stores at index `i`: the regression value, or
the raw value `x[i]` when the regression reports an error. -/
def pointOrRaw (s : State) (fn : WeightUpdate) (i : ℤ) (left right : ℚ) : ℚ :=
  match Regress s fn (i : ℚ) left right with
  | .ok (_, point, none) => point
  | .ok (s1, _, some _) => getI s1.x i
  | _ => 0

end loess

namespace loess

/-- The weight that the first loop of `localWeights` stores for position `i`: the tricube
weight times the external weight inside the bandwidth, zero outside. -/
def rawWeight (x lambda : ℚ) (E : List ℚ) (i : ℚ) : ℚ :=
  if |x - i| ≤ 0.99999 * lambda then
    if (E.length : ℤ) > truncToInt i then tricubeAt x lambda i * getI E (truncToInt i)
    else tricubeAt x lambda i
  else 0

/-- The sum of `f` over the integer window `[l, r]`. -/
def windowSum (l r : ℤ) (f : ℤ → ℚ) : ℚ := ((intRange l (r + 1)).map f).sum

/-- The sum of the raw weights over the window `[l, r]`: the variable `sum` of
`localWeights`. -/
def rawTotal (s : State) (x : ℚ) (l r : ℤ) : ℚ :=
  windowSum l r (fun z => rawWeight x (bandwidth s x (l : ℚ) (r : ℚ)) s.e (z : ℚ))

/-- The weight `localWeights` leaves at position `z` of the window when it succeeds. -/
def normWeight (s : State) (x : ℚ) (l r : ℤ) (z : ℤ) : ℚ :=
  rawWeight x (bandwidth s x (l : ℚ) (r : ℚ)) s.e (z : ℚ) / rawTotal s x l r

/-- The error `localWeights` reports on the window `[l, r]`. -/
def localErr (s : State) (x : ℚ) (l r : ℤ) : Option Err :=
  if bandwidth s x (l : ℚ) (r : ℚ) ≤ 0 then some (.lambdaErr (bandwidth s x (l : ℚ) (r : ℚ)))
  else if rawTotal s x l r ≤ 0 then some .total
  else none

/-- The weighted mean of the positions of the window under the normalised weights: the
variable `mean` of `Linear`. -/
def weightedMean (s : State) (x : ℚ) (l r : ℤ) : ℚ :=
  windowSum l r (fun z => (z : ℚ) * normWeight s x l r z)

/-- The weighted variance of the positions of the window: the variable `variance` of
`Linear`. -/
def weightedVariance (s : State) (x : ℚ) (l r : ℤ) : ℚ :=
  windowSum l r (fun z =>
    normWeight s x l r z * ((z : ℚ) - weightedMean s x l r) * ((z : ℚ) - weightedMean s x l r))

/-- The weights `Linear` leaves on the window, given the normalised weights. -/
def linearWeight (s : State) (x : ℚ) (l r : ℤ) (z : ℤ) : ℚ :=
  let thresh : ℚ := 0.01 * (((s.x.length : ℤ) - 1 : ℤ) : ℚ)
  if weightedVariance s x l r ≥ thresh * thresh then
    normWeight s x l r z *
      (1 + (x - weightedMean s x l r) / weightedVariance s x l r
        * ((z : ℚ) - weightedMean s x l r))
  else normWeight s x l r z

/-- The value `Regress` returns with `Linear` on the window `[l, r]` when `localWeights`
succeeds. -/
def linearFit (s : State) (x : ℚ) (l r : ℤ) : ℚ :=
  windowSum l r (fun z => linearWeight s x l r z * getI s.x z)

end loess

namespace loess

/-- The window of the `jump == 1` branch of `smooth` at index `i`: the window updates of the
iterations `0, ..., i`, run from the initial window `[0, width - 1]`. -/
def denseWindow (size width : ℤ) (i : ℕ) : ℚ × ℚ :=
  (List.range (i + 1)).foldl (denseShift size ((width + 1).tdiv 2)) (0, ((width - 1 : ℤ) : ℚ))

/-- The window of the sparse branch of `smooth` at the sampled index `i`. -/
def sparseWindow (size width : ℤ) (i : ℤ) : ℚ × ℚ :=
  (((sparseLeft size width ((width + 1).tdiv 2) i : ℤ) : ℚ),
    ((sparseLeft size width ((width + 1).tdiv 2) i : ℤ) : ℚ) + ((width - 1 : ℤ) : ℚ))

/-- The window `smooth` regresses over at an exactly computed index `i` of a series of `size`
points: the whole series when `width >= size`; the sliding window when `jump == 1`; else the
window of the sampled index, which for a final index off the stride is the last sampled one. -/
def smoothWindow (size width jump : ℤ) (i : ℕ) : ℚ × ℚ :=
  if width ≥ size then (0, ((size - 1 : ℤ) : ℚ))
  else if jump = 1 then denseWindow size width i
  else if jump ∣ (i : ℤ) then sparseWindow size width (i : ℤ)
  else sparseWindow size width (((size - 1).tdiv jump) * jump)

end loess

namespace stl

/-- The arithmetic mean of `data[i], ..., data[i + window - 1]`, written as the sum of these
`window` values divided by `window`: the direct windowed mean. -/
def windowedMean (data : List ℚ) (window i : ℕ) : ℚ :=
  ((List.range window).map (fun (k : ℕ) => data.getD (i + k) 0)).sum / (window : ℚ)

/-- The absolute residuals `|Data[i] - Seasonal[i] - Trend[i]|` that `updateWeights` stores
in `weights` and sorts. -/
def state.absResiduals (s : state) : List ℚ :=
  (List.range s.Data.length).map
    (fun (i : ℕ) => |s.Data.getD i 0 - s.Seasonal.getD i 0 - s.Trend.getD i 0|)

/-- The variable `mad6` of `updateWeights`, on a state whose `weights` is as long as
`Data`. -/
def state.mad6 (s : state) : ℚ :=
  let n := s.Data.length
  let sorted := s.absResiduals.insertionSort (fun a b => a ≤ b)
  let med0 : ℤ := ((n : ℤ) + 1).tdiv 2 - 1
  let med1 : ℤ := (n : ℤ) - med0 - 1
  6 * (getI sorted med0 + getI sorted med1)

end stl

namespace loess

/-- The neighbourhood weight `k(i)` of a position `i` for the abscissa `x` and the bandwidth
`lambda`, in the three cases of the specification: full weight close to `x`, no weight at the
edge of the bandwidth and beyond, the tricube of the scaled distance between. -/
def kernelWeight (x lambda : ℚ) (i : ℤ) : ℚ :=
  if |x - (i : ℚ)| ≤ 0.00001 * lambda then 1
  else if |x - (i : ℚ)| > 0.99999 * lambda then 0
  else (1 - (|x - (i : ℚ)| / lambda) ^ 3) ^ 3

/-- The external weight `e(i)` of a position: the entry of `E`, and 1 where none is
supplied. -/
def externalWeight (E : List ℚ) (i : ℤ) : ℚ := if i < (E.length : ℤ) then getI E i else 1

/-- The left end `min(max(0, i - (width+1)/2 + 1), size - width)` of the window of index `i`
when the width is below the size. -/
def windowLeft (size width i : ℤ) : ℤ := min (max 0 (i - (width + 1).tdiv 2 + 1)) (size - width)

end loess

namespace stl

/-- The median of a sorted sequence: the middle element, or the mean of the two middle
elements when the length is even. -/
def median (sorted : List ℚ) : ℚ :=
  if sorted.length % 2 = 1 then sorted.getD (sorted.length / 2) 0
  else (sorted.getD (sorted.length / 2 - 1) 0 + sorted.getD (sorted.length / 2) 0) / 2

end stl

namespace stl.reals

/-- `type ModelType struct` over the real numbers.  `math.Log`, `math.Exp` and `math.Pow` take
rational arguments to values that are not rational, so the transforms that call them are
embedded over the reals, with the exact functions `Real.log`, `Real.exp` and the real power
in their place; these definitions are not executable. -/
structure ModelType where
  Fwd : List ℝ → List ℝ
  Bwd : List ℝ → List ℝ

/-- `func Additive() ModelType` -/
def Additive : ModelType := { Fwd := fun a => a, Bwd := fun a => a }

/-- `func Multiplicative() ModelType` -/
noncomputable def Multiplicative : ModelType :=
  { Fwd := fun a => a.map Real.log, Bwd := fun a => a.map Real.exp }

/-- `func UnsafeTransform(lambda float64) ModelType`; a negative `lambda` panics. -/
noncomputable def UnsafeTransform (lambda : ℝ) : Outcome ModelType :=
  if lambda = 1 then .ok Multiplicative
  else if lambda = 0 then .ok Additive
  else if lambda < 0 then .panicked
  else
    .ok { Fwd := fun a => a.map (fun v => (v ^ lambda - 1) / lambda),
          Bwd := fun a => a.map (fun v => (v * lambda + 1) ^ (1 / lambda)) }

end stl.reals

/-! ## Loops and outcomes -/

namespace Outcome

@[simp] theorem bind_ok {α β : Type} (a : α) (f : α → Outcome β) : (ok a).bind f = f a := rfl
@[simp] theorem bind_panicked {α β : Type} (f : α → Outcome β) :
    (panicked : Outcome α).bind f = panicked := rfl
@[simp] theorem bind_diverged {α β : Type} (f : α → Outcome β) :
    (diverged : Outcome α).bind f = diverged := rfl
@[simp] theorem bind_nonFinite {α β : Type} (f : α → Outcome β) :
    (nonFinite : Outcome α).bind f = nonFinite := rfl

theorem bind_eq_ok {α β : Type} {o : Outcome α} {f : α → Outcome β} {b : β} :
    o.bind f = ok b ↔ ∃ a, o = ok a ∧ f a = ok b := by
  cases o <;> simp [bind]

end Outcome

/-- Partial correctness of `forEach`: an invariant of the body is an invariant of the loop. -/
theorem forEach_inv {ι σ : Type} (Inv : σ → Prop) (body : ι → σ → Outcome σ)
    (hbody : ∀ i st st1, Inv st → body i st = .ok st1 → Inv st1) :
    ∀ (l : List ι) (st st1 : σ), Inv st → forEach l body st = .ok st1 → Inv st1 := by
  intro l
  induction l with
  | nil => intro st st1 h he; simp [forEach] at he; subst he; exact h
  | cons i rest ih =>
    intro st st1 h he
    simp only [forEach, Outcome.bind_eq_ok] at he
    obtain ⟨a, ha, hr⟩ := he
    exact ih a st1 (hbody i st a h ha) hr

/-- Partial correctness of `strideLoop`. -/
theorem strideLoop_inv {σ : Type} (Inv : σ → Prop) (body : ℤ → σ → Outcome σ)
    (stop : ℤ → Bool) (bound jump : ℤ)
    (hbody : ∀ i st st1, Inv st → body i st = .ok st1 → Inv st1) :
    ∀ (fuel : ℕ) (i : ℤ) (st st1 : σ), Inv st →
      strideLoop body stop bound jump fuel i st = .ok st1 → Inv st1 := by
  intro fuel
  induction fuel with
  | zero => intro i st st1 _ he; simp [strideLoop] at he
  | succ n ih =>
    intro i st st1 h he
    simp only [strideLoop] at he
    split at he
    · simp only [Outcome.bind_eq_ok] at he
      obtain ⟨a, ha, hr⟩ := he
      split at hr
      · simp at hr; subst hr; exact hbody i st a h ha
      · exact ih _ a st1 (hbody i st a h ha) hr
    · simp at he; subst he; exact h

@[simp] theorem setI_length (a : List ℚ) (j : ℤ) (v : ℚ) : (setI a j v).length = a.length := by
  simp [setI]

theorem foldl_setI_length {ι : Type} (idx : List ι) (g : ι → ℤ) (h : List ℚ → ι → ℚ) :
    ∀ W : List ℚ, (idx.foldl (fun W i => setI W (g i) (h W i)) W).length = W.length := by
  induction idx with
  | nil => intro W; rfl
  | cons i rest ih => intro W; simp [List.foldl_cons, ih]

namespace loess

theorem State.Frame.refl (s : State) : State.Frame s s := ⟨rfl, rfl, rfl, rfl⟩

theorem State.Frame.trans {a b c : State} (h1 : State.Frame a b) (h2 : State.Frame b c) :
    State.Frame a c :=
  ⟨h2.1.trans h1.1, h2.2.1.trans h1.2.1, h2.2.2.1.trans h1.2.2.1, h2.2.2.2.trans h1.2.2.2⟩

theorem localWeightsStep_length (x lambda : ℚ) (E : List ℚ) (idx : List ℚ) :
    ∀ acc : ℚ × List ℚ,
      (idx.foldl (localWeightsStep x lambda E) acc).2.length = acc.2.length := by
  induction idx with
  | nil => intro acc; rfl
  | cons i rest ih =>
    intro acc
    rw [List.foldl_cons, ih]
    simp only [localWeightsStep]
    split <;> simp

theorem localWeights_frame {s s1 : State} {x left right : ℚ} {e : Option Err}
    (h : localWeights s x left right = .ok (s1, e)) : State.Frame s s1 := by
  unfold localWeights at h
  simp only at h
  split at h
  · simp at h; rw [← h.1]; exact State.Frame.refl s
  · split at h
    · split at h
      · simp at h; rw [← h.1]
        exact ⟨rfl, rfl, rfl, localWeightsStep_length _ _ _ _ _⟩
      · simp at h; rw [← h.1]
        refine ⟨rfl, rfl, rfl, ?_⟩
        simp only
        rw [foldl_setI_length (floatRange left right) (fun i => truncToInt i)
          (fun W i => getI W (truncToInt i) / _)]
        exact localWeightsStep_length _ _ _ _ _
    · simp at h

theorem Linear_frame {s s1 : State} {x left right : ℚ} {e : Option Err}
    (h : Linear s x left right = .ok (s1, e)) : State.Frame s s1 ∧ e = none := by
  unfold Linear at h
  simp only at h
  split at h
  · split at h
    · split at h
      · split at h
        · simp at h; rw [← h.1]; exact ⟨State.Frame.refl s, h.2.symm⟩
        · simp at h
      · simp at h; rw [← h.1]
        refine ⟨⟨rfl, rfl, rfl, ?_⟩, h.2.symm⟩
        simp only
        rw [foldl_setI_length (floatRange left right) (fun i => truncToInt i)
          (fun W i => getI W (truncToInt i) * _)]
    · simp at h; rw [← h.1]; exact ⟨State.Frame.refl s, h.2.symm⟩
  · simp at h

theorem Quadratic_frame {s s1 : State} {x left right : ℚ} {e : Option Err}
    (h : Quadratic s x left right = .ok (s1, e)) : s1 = s ∧ e = none := by
  unfold Quadratic at h
  simp only at h
  split at h
  · split at h
    · simp at h
    · simp at h; exact ⟨h.1.symm, h.2.symm⟩
  · simp at h

theorem call_frame {fn : WeightUpdate} {s s1 : State} {x left right : ℚ} {e : Option Err}
    (h : fn.call s x left right = .ok (s1, e)) : State.Frame s s1 ∧ e = none := by
  cases fn with
  | linear => exact Linear_frame h
  | quadratic =>
    obtain ⟨h1, h2⟩ := @Quadratic_frame s s1 x left right e h
    rw [h1]; exact ⟨State.Frame.refl s, h2⟩
  | nilFn => simp [WeightUpdate.call] at h

theorem Regress_frame {fn : WeightUpdate} {s s1 : State} {x left right v : ℚ}
    {e : Option Err} (h : Regress s fn x left right = .ok (s1, v, e)) : State.Frame s s1 := by
  unfold Regress at h
  simp only [Outcome.bind_eq_ok] at h
  obtain ⟨r1, h1, h⟩ := h
  obtain ⟨s2, e2⟩ := r1
  have f1 := localWeights_frame h1
  cases e2 with
  | some err => simp at h; rw [← h.1]; exact f1
  | none =>
    simp only [Outcome.bind_eq_ok] at h
    obtain ⟨r2, h2, h⟩ := h
    obtain ⟨s3, e3⟩ := r2
    have f2 := (call_frame h2).1
    cases e3 with
    | some err => simp at h; rw [← h.1]; exact f1.trans f2
    | none =>
      simp only at h
      split at h
      · simp at h; rw [← h.1]; exact f1.trans f2
      · simp at h

end loess

/-! ## What `smooth` keeps -/

namespace loess

theorem setRet_inv {shared : Bool} {s0 : State} {L : ℕ} {m m1 : Mem} {i : ℤ} {v : ℚ}
    (h : MemInv shared s0 L m) (he : setRet shared m i v = .ok m1) : MemInv shared s0 L m1 := by
  unfold setRet at he
  split at he
  · simp at he
    subst he
    obtain ⟨h1, h2, h3, h4, h5, h6, h7⟩ := h
    cases shared with
    | false => exact ⟨by simp [h1], h2, h3, h4, h5, fun _ => h6 rfl, fun hc => by simp at hc⟩
    | true =>
      refine ⟨by simp [h1], h2, h3, h4, by simp [h5], fun hc => by simp at hc, fun _ => ?_⟩
      simp [h7 rfl]
  · simp at he

theorem MemInv.of_frame {shared : Bool} {s0 : State} {L : ℕ} {m : Mem} {s1 : State}
    (h : MemInv shared s0 L m) (f : State.Frame m.s s1) :
    MemInv shared s0 L { m with s := s1 } := by
  obtain ⟨h1, h2, h3, h4, h5, h6, h7⟩ := h
  obtain ⟨f1, f2, f3, f4⟩ := f
  exact ⟨h1, f2.trans h2, f3.trans h3, f4.trans h4, by simp [f1, h5],
    fun hc => by simp [f1, h6 hc], fun hc => by simp [f1, h7 hc]⟩

theorem regressInto_inv {shared : Bool} {fn : WeightUpdate} {s0 : State} {L : ℕ} {m m1 : Mem}
    {i : ℤ} {left right : ℚ}
    (h : MemInv shared s0 L m) (he : regressInto shared fn i left right m = .ok m1) :
    MemInv shared s0 L m1 := by
  unfold regressInto at he
  simp only [Outcome.bind_eq_ok] at he
  obtain ⟨⟨s1, v, e⟩, hr, he⟩ := he
  have f := Regress_frame hr
  cases e with
  | none => exact setRet_inv (h.of_frame f) he
  | some err =>
    simp only at he
    split at he
    · exact setRet_inv (h.of_frame f) he
    · simp at he

theorem fillBetween_inv {shared : Bool} {s0 : State} {L : ℕ} {m m1 : Mem} {a b : ℤ}
    {slope : ℚ} (h : MemInv shared s0 L m) (he : fillBetween shared a b slope m = .ok m1) :
    MemInv shared s0 L m1 := by
  unfold fillBetween at he
  refine forEach_inv (MemInv shared s0 L) _ ?_ _ m m1 h he
  intro j st st1 hst hb
  simp only at hb
  split at hb
  · exact setRet_inv hst hb
  · simp at hb

theorem interpolateStep_inv {shared : Bool} {s0 : State} {L : ℕ} {m m1 : Mem} {jump i : ℤ}
    (h : MemInv shared s0 L m) (he : interpolateStep shared jump i m = .ok m1) :
    MemInv shared s0 L m1 := by
  unfold interpolateStep at he
  split at he
  · split at he
    · simp at he
    · exact fillBetween_inv h he
  · simp at he

theorem smoothLast_inv {shared : Bool} {fn : WeightUpdate} {s0 : State} {L : ℕ} {m m1 : Mem}
    {size jump : ℤ} {left right : ℚ}
    (h : MemInv shared s0 L m) (he : smoothLast shared fn size jump left right m = .ok m1) :
    MemInv shared s0 L m1 := by
  unfold smoothLast at he
  simp only at he
  split at he
  · simp at he
  · split at he
    · simp only [Outcome.bind_eq_ok] at he
      obtain ⟨m2, h2, he⟩ := he
      have i2 := regressInto_inv h h2
      split at he
      · split at he
        · exact fillBetween_inv i2 he
        · simp at he
      · simp at he; subst he; exact i2
    · simp at he; subst he; exact h

theorem denseStep_inv {shared : Bool} {fn : WeightUpdate} {s0 : State} {L : ℕ}
    {size half : ℤ} {i : ℕ} {st st1 : ℚ × ℚ × Mem}
    (h : MemInv shared s0 L st.2.2) (he : denseStep shared fn size half i st = .ok st1) :
    MemInv shared s0 L st1.2.2 := by
  unfold denseStep at he
  simp only [Outcome.bind_eq_ok] at he
  obtain ⟨m2, h2, he⟩ := he
  simp at he; subst he
  exact regressInto_inv h h2

theorem sparseStep_inv {shared : Bool} {fn : WeightUpdate} {s0 : State} {L : ℕ}
    {size width half i : ℤ} {st st1 : ℚ × ℚ × Mem}
    (h : MemInv shared s0 L st.2.2)
    (he : sparseStep shared fn size width half i st = .ok st1) :
    MemInv shared s0 L st1.2.2 := by
  unfold sparseStep at he
  simp only [Outcome.bind_eq_ok] at he
  obtain ⟨m2, h2, he⟩ := he
  simp at he; subst he
  exact regressInto_inv h h2

/-- Whatever `smooth` returns: the error is `nil`, and the memory is as `MemInv` says. -/
theorem smooth_inv {shared : Bool} {s s1 : State} {width jump : ℤ} {fn : WeightUpdate}
    {retVal out : List ℚ} {e : Option Err}
    (hsh : shared = true → retVal = s.x)
    (he : smooth shared s width jump fn retVal = .ok (s1, out, e)) :
    e = none ∧ MemInv shared s retVal.length ⟨s1, out⟩ := by
  have h0 : MemInv shared s retVal.length ⟨s, retVal⟩ :=
    ⟨rfl, rfl, rfl, rfl, rfl, fun _ => rfl, hsh⟩
  unfold smooth at he
  simp only at he
  split at he
  · split at he
    · simp only [Outcome.bind_eq_ok] at he
      obtain ⟨m, hm, he⟩ := he
      simp at he
      obtain ⟨rfl, rfl, rfl⟩ := he
      exact ⟨rfl, setRet_inv h0 hm⟩
    · simp at he
  · simp only [Outcome.bind_eq_ok] at he
    obtain ⟨st, hst, he⟩ := he
    have hs : MemInv shared s retVal.length st.2.2 := by
      split at hst
      · simp only [Outcome.bind_eq_ok] at hst
        obtain ⟨m, hm, hst⟩ := hst
        simp at hst; subst hst
        exact strideLoop_inv (MemInv shared s retVal.length) _ _ _ _
          (fun i st st1 hi hb => regressInto_inv hi hb) _ _ _ _ h0 hm
      · split at hst
        · exact forEach_inv (fun st : ℚ × ℚ × Mem => MemInv shared s retVal.length st.2.2) _
            (fun i st st1 hi hb => denseStep_inv hi hb) _ _ _ h0 hst
        · exact strideLoop_inv (fun st : ℚ × ℚ × Mem => MemInv shared s retVal.length st.2.2)
            _ _ _ _ (fun i st st1 hi hb => sparseStep_inv hi hb) _ _ _ _ h0 hst
    split at he
    · simp only [Outcome.bind_eq_ok] at he
      obtain ⟨m, hm, m2, hm2, he⟩ := he
      simp at he
      obtain ⟨rfl, rfl, rfl⟩ := he
      have hi := strideLoop_inv (MemInv shared s retVal.length) _ _ _ _
          (fun i st st1 hi hb => interpolateStep_inv hi hb) _ _ _ _ hs hm
      exact ⟨rfl, smoothLast_inv hi hm2⟩
    · simp at he
      obtain ⟨rfl, rfl, rfl⟩ := he
      exact ⟨rfl, hs⟩

end loess

/-! ## `Decompose`: lengths, residuals, argument checks -/

namespace stl

open loess

theorem writePrefix_length {n : ℕ} {f : ℕ → ℚ} {a : List ℚ} (h : n ≤ a.length) :
    (writePrefix n f a).length = a.length := by
  simp [writePrefix]; omega

theorem writePrefix_getD {n : ℕ} {f : ℕ → ℚ} {a : List ℚ} {i : ℕ} (h : i < n) :
    (writePrefix n f a).getD i 0 = f i := by
  simp [writePrefix, List.getD_eq_getElem?_getD, List.getElem?_append_left, h]

theorem Opt.apply_sized {n : ℕ} (o : Opt) {s : state} (h : s.Sized n) : (o.apply s).Sized n := by
  cases o <;> exact h

theorem foldl_apply_sized {n : ℕ} (opts : List Opt) :
    ∀ s : state, s.Sized n → (opts.foldl (fun s o => o.apply s) s).Sized n := by
  induction opts with
  | nil => intro s h; exact h
  | cons o rest ih => intro s h; exact ih _ (Opt.apply_sized o h)

theorem newState_sized (data : List ℚ) (periodicity width : ℤ) (opts : List Opt) :
    (newState data periodicity width opts).Sized data.length := by
  unfold newState
  exact foldl_apply_sized opts _ ⟨rfl, by simp, by simp, fun _ => by simp⟩

theorem updateSeasonalAndTrend_sized {n : ℕ} {s s1 : state} {u : Bool} {e : Option loess.Err}
    (h : s.Sized n) (hs : s.Err = none)
    (he : s.updateSeasonalAndTrend u = .ok (s1, e)) :
    s1.Data.length = n ∧ s1.Seasonal.length = n ∧ s1.Resid.length = n ∧ s1.Err = none ∧
      (e = none → s1.Trend.length = n) := by
  obtain ⟨h1, h2, h3, h4⟩ := h
  have h4 := h4 hs
  unfold state.updateSeasonalAndTrend at he
  simp only at he
  split at he
  · rename_i hc
    simp only [Outcome.bind_eq_ok] at he
    obtain ⟨⟨st, out, e1⟩, hu, he⟩ := he
    simp at he
    obtain ⟨rfl, rfl⟩ := he
    refine ⟨h1, ?_, h3, hs, ?_⟩
    · simp only; rw [writePrefix_length le_rfl]; exact h2
    · intro hn
      subst hn
      unfold UnsafeSmooth at hu
      split at hu
      · simp at hu
      · simp only at hu
        split at hu
        · simp at hu
        · have := (smooth_inv (by simp) hu).2.1
          simp at this
          rw [this, writePrefix_length (by omega)]
          exact h4
  · simp at he

theorem innerPass_sized {n : ℕ} {o i : ℤ} {u : Bool} {s s1 : state}
    (h : s.Sized n) (hs : s.Err = none) (he : innerPass o i u s = .ok s1) : s1.Sized n := by
  unfold innerPass at he
  simp only [Outcome.bind_eq_ok] at he
  obtain ⟨sa, ha, ⟨sb, eb⟩, hb, he⟩ := he
  have hsa : sa.Sized n ∧ sa.Err = none := by
    unfold state.doDetrend at ha
    simp only at ha
    split at ha
    · simp at ha; subst ha; exact ⟨h, hs⟩
    · simp at ha
  have hsb : sb.Sized n ∧ sb.Err = none := by
    unfold state.smoothSubcycles at hb
    simp only [Outcome.bind_eq_ok] at hb
    obtain ⟨r, _, hb⟩ := hb
    simp at hb
    obtain ⟨rfl, _⟩ := hb
    exact hsa
  cases eb with
  | some err =>
    simp at he; subst he
    exact ⟨hsb.1.1, hsb.1.2.1, hsb.1.2.2.1, fun hc => by simp at hc⟩
  | none =>
    simp only [Outcome.bind_eq_ok] at he
    obtain ⟨⟨sc, ec⟩, hc, he⟩ := he
    have hsc : sc.Sized n ∧ sc.Err = none := by
      unfold state.removeSeasonality at hc
      simp only [Outcome.bind_eq_ok] at hc
      obtain ⟨_, _, _, _, _, _, r, _, hc⟩ := hc
      simp at hc
      obtain ⟨rfl, _⟩ := hc
      exact hsb
    cases ec with
    | some err =>
      simp at he; subst he
      exact ⟨hsc.1.1, hsc.1.2.1, hsc.1.2.2.1, fun hc => by simp at hc⟩
    | none =>
      simp only [Outcome.bind_eq_ok] at he
      obtain ⟨⟨sd, ed⟩, hd, he⟩ := he
      obtain ⟨d1, d2, d3, d4, d5⟩ := updateSeasonalAndTrend_sized hsc.1 hsc.2 hd
      cases ed with
      | some err =>
        simp at he; subst he
        exact ⟨d1, d2, d3, fun hc => by simp at hc⟩
      | none =>
        simp at he; subst he
        exact ⟨d1, d2, d3, fun _ => d5 rfl⟩

theorem updateWeights_sized {n : ℕ} {s s1 : state} (h : s.Sized n)
    (he : s.updateWeights = .ok s1) : s1.Sized n := by
  obtain ⟨h1, h2, h3, h4⟩ := h
  unfold state.updateWeights at he
  simp only at he
  split at he
  · rename_i hc
    split at he
    · simp at he; subst he
      exact ⟨h1, h2, by simp only; rw [writePrefix_length hc.1]; exact h3, h4⟩
    · simp at he
  · simp at he

theorem outerPass_sized {n : ℕ} {o : ℤ} {s s1 : state} (h : s.Sized n)
    (he : outerPass o s = .ok s1) : s1.Sized n := by
  unfold outerPass at he
  split at he
  · simp at he; subst he; exact h
  · simp only [Outcome.bind_eq_ok] at he
    obtain ⟨sa, ha, he⟩ := he
    have hsa : sa.Sized n := by
      refine forEach_inv (state.Sized n) _ ?_ _ _ _ h ha
      intro i st st1 hst hb
      simp only at hb
      split at hb
      · simp at hb; subst hb; exact hst
      · rename_i hn
        exact innerPass_sized hst (by simpa using hn) hb
    split at he
    · simp at he; subst he; exact hsa
    · exact updateWeights_sized hsa he

end stl

/-- C1: whenever `Decompose` with the additive model returns a `Result` without error, the four
series of the result have the length of the input and the residual is what is left of the
data once the seasonal and the trend component are taken away. -/
theorem Decompose_additive_adds_up (X : List ℚ) (periodicity width : ℤ) (opts : List stl.Opt)
    (r : stl.Result) (X1 : List ℚ)
    (hret : stl.Decompose X periodicity width stl.Additive opts = .ok (r, X1))
    (herr : r.Err = none) :
    2 ≤ periodicity ∧ 1 ≤ width ∧
    r.Data.length = X.length ∧ r.Trend.length = X.length ∧
      r.Seasonal.length = X.length ∧ r.Resid.length = X.length ∧
      ∀ i, i < X.length →
        r.Resid.getD i 0 = r.Data.getD i 0 - r.Seasonal.getD i 0 - r.Trend.getD i 0 := by
  unfold stl.Decompose at hret
  split at hret
  · simp at hret; rw [← hret.1] at herr; simp at herr
  · split at hret
    · simp at hret; rw [← hret.1] at herr; simp at herr
    · refine ⟨by omega, by omega, ?_⟩
      simp only [Outcome.bind_eq_ok, stl.Additive] at hret
      obtain ⟨s, hs, hret⟩ := hret
      have hsz : s.Sized X.length :=
        forEach_inv (stl.state.Sized X.length) _ (fun i st st1 h hb => stl.outerPass_sized h hb)
          _ _ _ (stl.newState_sized X periodicity width opts) hs
      split at hret
      · simp at hret; rw [← hret.1] at herr
        rename_i hc
        simp [stl.state.Result] at herr
        simp [herr] at hc
      · rename_i hc
        have hE : s.Err = none := by simpa using hc
        obtain ⟨h1, h2, h3, h4⟩ := hsz
        have h4 := h4 hE
        simp only [Outcome.bind_eq_ok] at hret
        obtain ⟨r0, hr0, hret⟩ := hret
        unfold stl.updateResiduals at hr0
        simp only [stl.state.Result] at hr0
        split at hr0
        · simp at hr0 hret
          subst hr0
          obtain ⟨rfl, _⟩ := hret
          simp only
          refine ⟨h1, h4, h2, ?_, ?_⟩
          · rw [stl.writePrefix_length (by omega)]; exact h3
          · intro i hi
            rw [stl.writePrefix_getD (by omega)]
            simp [List.getD_eq_getElem?_getD]
        · simp at hr0

/-- C1 witness: an additive decomposition of four points with period 2 that runs one full
inner pass and returns without error. -/
theorem Decompose_additive_adds_up_witness :
    (2 : ℤ) ≤ 2 ∧ (1 : ℤ) ≤ 10 ∧
    ([1, 2, 3, 4] : List ℚ).length = 4 ∧
    ([(281769691 : ℚ) / 1006524980, (1732753359003 : ℚ) / 1205816926040,
      (3688762088588179 : ℚ) / 1444568677395920,
      (339910103913803635959511 : ℚ) / 90874653695284676880100] : List ℚ).length = 4 ∧
    ([(3 : ℚ) / 4, (1 : ℚ) / 2, (1 : ℚ) / 2, (1 : ℚ) / 4] : List ℚ).length = 4 ∧
    ([(-15069223 : ℚ) / 503262490, (75972030057 : ℚ) / 1205816926040,
      (-77340395098379 : ℚ) / 1444568677395920,
      (217461860878475585216 : ℚ) / 22718663423821169220025] : List ℚ).length = 4 ∧
    ∀ i, i < 4 →
      ([(-15069223 : ℚ) / 503262490, (75972030057 : ℚ) / 1205816926040,
        (-77340395098379 : ℚ) / 1444568677395920,
        (217461860878475585216 : ℚ) / 22718663423821169220025] : List ℚ).getD i 0 =
      ([1, 2, 3, 4] : List ℚ).getD i 0 -
        ([(3 : ℚ) / 4, (1 : ℚ) / 2, (1 : ℚ) / 2, (1 : ℚ) / 4] : List ℚ).getD i 0 -
        ([(281769691 : ℚ) / 1006524980, (1732753359003 : ℚ) / 1205816926040,
          (3688762088588179 : ℚ) / 1444568677395920,
          (339910103913803635959511 : ℚ) / 90874653695284676880100] : List ℚ).getD i 0 :=
  Decompose_additive_adds_up [1, 2, 3, 4] 2 10
    [.WithLowpassConfig ⟨2, 1, .linear⟩, .WithIter 1]
    { Data := [1, 2, 3, 4],
      Trend := [(281769691 : ℚ) / 1006524980, (1732753359003 : ℚ) / 1205816926040,
        (3688762088588179 : ℚ) / 1444568677395920,
        (339910103913803635959511 : ℚ) / 90874653695284676880100],
      Seasonal := [(3 : ℚ) / 4, (1 : ℚ) / 2, (1 : ℚ) / 2, (1 : ℚ) / 4],
      Resid := [(-15069223 : ℚ) / 503262490, (75972030057 : ℚ) / 1205816926040,
        (-77340395098379 : ℚ) / 1444568677395920,
        (217461860878475585216 : ℚ) / 22718663423821169220025],
      Err := none }
    [1, 2, 3, 4] (by decide!) rfl

/-- C2: with `periodicity < 2` or `width < 1`, `Decompose` returns at once a `Result` that
carries an error and four empty series, whatever the model and the options are; the forward
transform of the model is not run and the caller's series is as it was. -/
theorem Decompose_rejects_bad_arguments (X : List ℚ) (periodicity width : ℤ)
    (m : stl.ModelType) (opts : List stl.Opt) (h : periodicity < 2 ∨ width < 1) :
    stl.Decompose X periodicity width m opts =
      .ok ({ Data := [], Trend := [], Seasonal := [], Resid := [],
             Err := some (if periodicity < 2 then .periodicity else .width) }, X) := by
  unfold stl.Decompose
  by_cases hp : periodicity < 2
  · simp [hp]
  · have hw : width < 1 := by omega
    simp [hp, hw]

/-- C2 witness: periodicity 1 is rejected, and a forward transform that would overwrite the
series has left it alone. -/
theorem Decompose_rejects_bad_arguments_witness :
    stl.Decompose [3, 1, 2] 1 5 { Fwd := fun a => a.map (fun _ => 0), Bwd := fun a => a } [] =
      .ok ({ Data := [], Trend := [], Seasonal := [], Resid := [],
             Err := some (if (1 : ℤ) < 2 then .periodicity else .width) }, [3, 1, 2]) :=
  Decompose_rejects_bad_arguments [3, 1, 2] 1 5 _ [] (Or.inl (by decide))

/-! ## Integer windows: `localWeights`, `Linear` and `Regress` in closed form -/

open loess stl

@[simp] theorem truncToInt_intCast (z : ℤ) : truncToInt (z : ℚ) = z := by
  unfold truncToInt
  split <;> simp

theorem floatRange_intCast (l r : ℤ) :
    floatRange (l : ℚ) (r : ℚ) = (intRange l (r + 1)).map (fun (z : ℤ) => (z : ℚ)) := by
  unfold floatRange intRange
  by_cases h : l ≤ r
  · have h1 : (l : ℚ) ≤ (r : ℚ) := by exact_mod_cast h
    have h2 : ⌊(r : ℚ) - (l : ℚ)⌋ = r - l := by
      rw [← Int.cast_sub, Int.floor_intCast]
    have h3 : (r - l).toNat + 1 = (r + 1 - l).toNat := by omega
    simp only [h1, if_true, h2, h3, List.map_map]
    apply List.map_congr_left
    intro k _
    simp
  · have h1 : ¬ (l : ℚ) ≤ (r : ℚ) := by exact_mod_cast h
    have h3 : (r + 1 - l).toNat = 0 := by omega
    simp [h1, h3]

theorem mem_intRange {lo hi z : ℤ} : z ∈ intRange lo hi ↔ lo ≤ z ∧ z < hi := by
  unfold intRange
  simp only [List.mem_map, List.mem_range]
  constructor
  · rintro ⟨k, hk, rfl⟩; omega
  · rintro ⟨h1, h2⟩; exact ⟨(z - lo).toNat, by omega, by omega⟩

theorem floatRange_all_inBounds {n : ℕ} {l r : ℤ} (h : r < l ∨ (0 ≤ l ∧ r < n)) :
    (floatRange (l : ℚ) (r : ℚ)).all (fun i => inBounds n (truncToInt i)) = true := by
  rw [floatRange_intCast]
  simp only [List.all_eq_true, List.mem_map, mem_intRange, inBounds, Bool.and_eq_true,
    decide_eq_true_eq]
  rintro q ⟨z, hz, rfl⟩
  rw [truncToInt_intCast]
  omega

theorem getI_setI {W : List ℚ} {z j : ℤ} {v : ℚ} (hz : 0 ≤ z) (hj : 0 ≤ j) :
    getI (setI W z v) j = if z = j ∧ z < W.length then v else getI W j := by
  unfold getI setI
  rw [List.getD_eq_getElem?_getD, List.getElem?_set, List.getD_eq_getElem?_getD]
  by_cases h : z = j
  · subst h
    by_cases h2 : z < W.length
    · have : z.toNat < W.length := by omega
      simp [h2, this]
    · have : ¬ z.toNat < W.length := by omega
      have hn : W[z.toNat]? = none := List.getElem?_eq_none (by omega)
      simp [h2, this, hn]
  · have : z.toNat ≠ j.toNat := by omega
    simp [h, this]

theorem intRange_nodup (lo hi : ℤ) : (intRange lo hi).Nodup := by
  unfold intRange
  apply List.Nodup.map _ (List.nodup_range _)
  intro a b h
  simpa using h

/-- A loop that rewrites `W[z]` from its old value, once for each `z` of a list without
repetition, changes exactly these positions. -/
theorem foldl_setI_getI (f : ℤ → ℚ → ℚ) (idx : List ℤ) (hnd : idx.Nodup) :
    ∀ W : List ℚ, (∀ z ∈ idx, 0 ≤ z ∧ z < W.length) → ∀ j : ℤ, 0 ≤ j →
      getI (idx.foldl (fun W z => setI W z (f z (getI W z))) W) j =
        if j ∈ idx then f j (getI W j) else getI W j := by
  induction idx with
  | nil => intro W _ j _; simp
  | cons z rest ih =>
    intro W hb j hj
    rw [List.nodup_cons] at hnd
    have hz := hb z (List.mem_cons_self _ _)
    rw [List.foldl_cons, ih hnd.2 _ (fun y hy => by
      have := hb y (List.mem_cons_of_mem _ hy)
      simpa using this) j hj]
    rw [getI_setI hz.1 hj]
    by_cases hjr : j ∈ rest
    · have hne : z ≠ j := fun h => hnd.1 (h ▸ hjr)
      simp [hjr, hne]
    · by_cases hjz : z = j
      · subst hjz
        simp [hjr, hz.2]
      · have : j ≠ z := fun h => hjz h.symm
        simp [hjr, hjz, this]

theorem foldl_add_eq_sum {ι : Type} (g : ι → ℚ) (idx : List ι) :
    ∀ a : ℚ, idx.foldl (fun acc i => acc + g i) a = a + (idx.map g).sum := by
  induction idx with
  | nil => intro a; simp
  | cons i rest ih => intro a; simp [List.foldl_cons, ih, add_assoc]

theorem foldl_setI_const_getI (g : ℤ → ℚ) (idx : List ℤ) (hnd : idx.Nodup) (W : List ℚ)
    (hb : ∀ z ∈ idx, 0 ≤ z ∧ z < W.length) (j : ℤ) (hj : 0 ≤ j) :
    getI (idx.foldl (fun W z => setI W z (g z)) W) j = if j ∈ idx then g j else getI W j :=
  foldl_setI_getI (fun z _ => g z) idx hnd W hb j hj

namespace loess

theorem windowSum_congr {l r : ℤ} {f g : ℤ → ℚ} (h : ∀ z, l ≤ z → z ≤ r → f z = g z) :
    windowSum l r f = windowSum l r g := by
  unfold windowSum
  congr 1
  apply List.map_congr_left
  intro z hz
  rw [mem_intRange] at hz
  exact h z hz.1 (by omega)

theorem localWeightsStep_foldl (x lambda : ℚ) (E : List ℚ) (idx : List ℚ) :
    ∀ acc : ℚ × List ℚ, idx.foldl (localWeightsStep x lambda E) acc =
      (acc.1 + (idx.map (rawWeight x lambda E)).sum,
        idx.foldl (fun W i => setI W (truncToInt i) (rawWeight x lambda E i)) acc.2) := by
  induction idx with
  | nil => intro acc; simp
  | cons i rest ih =>
    intro acc
    rw [List.foldl_cons, ih]
    simp only [localWeightsStep, rawWeight, List.map_cons, List.sum_cons, List.foldl_cons]
    split
    · split <;> simp [add_assoc]
    · simp

/-- The first loop of `localWeights` on an integer window: the total and the weights. -/
theorem localWeights_loop (s : State) (x : ℚ) (l r : ℤ) :
    (floatRange (l : ℚ) (r : ℚ)).foldl
        (localWeightsStep x (bandwidth s x (l : ℚ) (r : ℚ)) s.e) (0, s.w) =
      (rawTotal s x l r,
        (intRange l (r + 1)).foldl
          (fun W z => setI W z (rawWeight x (bandwidth s x (l : ℚ) (r : ℚ)) s.e (z : ℚ)))
          s.w) := by
  rw [localWeightsStep_foldl, floatRange_intCast, List.foldl_map, List.map_map]
  simp only [zero_add, truncToInt_intCast, rawTotal, windowSum]
  rfl

/-- What `localWeights` does on a window that is empty or inside the weight buffer: the error
it reports, and the weights it leaves on the window when it reports none. -/
theorem localWeights_spec (s : State) (x : ℚ) (l r : ℤ)
    (hw : r < l ∨ (0 ≤ l ∧ r < (s.w.length : ℤ))) :
    ∃ s1, localWeights s x (l : ℚ) (r : ℚ) = .ok (s1, localErr s x l r) ∧ State.Frame s s1 ∧
      (localErr s x l r = none →
        ∀ z, l ≤ z → z ≤ r → getI s1.w z = normWeight s x l r z) := by
  unfold localWeights localErr
  simp only
  by_cases h1 : bandwidth s x (l : ℚ) (r : ℚ) ≤ 0
  · simp only [h1, if_true]
    exact ⟨s, rfl, State.Frame.refl s, fun hc => by simp at hc⟩
  · simp only [h1, if_false]
    rw [if_pos (floatRange_all_inBounds hw), localWeights_loop]
    simp only
    by_cases h2 : rawTotal s x l r ≤ 0
    · simp only [h2, if_true]
      refine ⟨_, rfl, ⟨rfl, rfl, rfl, ?_⟩, fun hc => by simp at hc⟩
      exact foldl_setI_length _ (fun z => z) (fun _ z => rawWeight x _ s.e (z : ℚ)) _
    · simp only [h2, if_false]
      refine ⟨_, rfl, ⟨rfl, rfl, rfl, ?_⟩, fun _ z hz1 hz2 => ?_⟩
      · simp only
        rw [foldl_setI_length (floatRange (l : ℚ) (r : ℚ)) (fun i => truncToInt i)
          (fun W i => getI W (truncToInt i) / rawTotal s x l r)]
        exact foldl_setI_length _ (fun z => z) (fun _ z => rawWeight x _ s.e (z : ℚ)) _
      · have hin : 0 ≤ l ∧ r < (s.w.length : ℤ) := by omega
        simp only
        rw [floatRange_intCast, List.foldl_map]
        simp only [truncToInt_intCast]
        have hlen : ((intRange l (r + 1)).foldl
            (fun W z => setI W z (rawWeight x (bandwidth s x (l : ℚ) (r : ℚ)) s.e (z : ℚ)))
            s.w).length = s.w.length :=
          foldl_setI_length _ (fun z => z) (fun _ z => rawWeight x _ s.e (z : ℚ)) _
        have hm : z ∈ intRange l (r + 1) := by rw [mem_intRange]; omega
        rw [foldl_setI_getI (fun _ old => old / rawTotal s x l r) _ (intRange_nodup _ _) _
          (fun y hy => by rw [mem_intRange] at hy; rw [hlen]; omega) z (by omega)]
        rw [foldl_setI_const_getI _ _ (intRange_nodup _ _) _
          (fun y hy => by rw [mem_intRange] at hy; omega) z (by omega)]
        simp only [hm, if_true, normWeight]

end loess

namespace loess

theorem thresh_sq_pos {n : ℕ} (hn : n ≠ 1) :
    0 < (0.01 * (((n : ℤ) - 1 : ℤ) : ℚ)) * (0.01 * (((n : ℤ) - 1 : ℤ) : ℚ)) := by
  have hne : (((n : ℤ) - 1 : ℤ) : ℚ) ≠ 0 := by
    have : (n : ℤ) - 1 ≠ 0 := by omega
    exact_mod_cast this
  exact mul_self_pos.mpr (mul_ne_zero (by norm_num) hne)

/-- What `Linear` does to weights that `localWeights` has just normalised. -/
theorem Linear_spec {s s1 : State} {x : ℚ} {l r : ℤ} (hf : State.Frame s s1)
    (hw : r < l ∨ (0 ≤ l ∧ r < (s1.w.length : ℤ))) (hn : s.x.length ≠ 1)
    (hv : ∀ z, l ≤ z → z ≤ r → getI s1.w z = normWeight s x l r z) :
    ∃ s2, Linear s1 x (l : ℚ) (r : ℚ) = .ok (s2, none) ∧ State.Frame s1 s2 ∧
      ∀ z, l ≤ z → z ≤ r → getI s2.w z = linearWeight s x l r z := by
  have hmean : (floatRange (l : ℚ) (r : ℚ)).foldl
      (fun mean i => mean + i * getI s1.w (truncToInt i)) 0 = weightedMean s x l r := by
    rw [floatRange_intCast, List.foldl_map]
    simp only [truncToInt_intCast]
    rw [foldl_add_eq_sum (fun z : ℤ => (z : ℚ) * getI s1.w z), zero_add]
    exact windowSum_congr (fun z h1 h2 => by rw [hv z h1 h2])
  have hvar : (floatRange (l : ℚ) (r : ℚ)).foldl
      (fun variance i => variance + getI s1.w (truncToInt i) * (i - weightedMean s x l r)
        * (i - weightedMean s x l r)) 0 = weightedVariance s x l r := by
    rw [floatRange_intCast, List.foldl_map]
    simp only [truncToInt_intCast]
    rw [foldl_add_eq_sum (fun z : ℤ => getI s1.w z * ((z : ℚ) - weightedMean s x l r)
      * ((z : ℚ) - weightedMean s x l r)), zero_add]
    exact windowSum_congr (fun z h1 h2 => by rw [hv z h1 h2])
  have hx : s1.x.length = s.x.length := by rw [hf.1]
  unfold Linear
  simp only
  rw [if_pos (floatRange_all_inBounds hw), hmean, hvar, hx]
  by_cases hge : weightedVariance s x l r ≥
      (0.01 * (((s.x.length : ℤ) - 1 : ℤ) : ℚ)) * (0.01 * (((s.x.length : ℤ) - 1 : ℤ) : ℚ))
  · have hpos : 0 < weightedVariance s x l r := lt_of_lt_of_le (thresh_sq_pos hn) hge
    rw [if_pos hge, if_neg (ne_of_gt hpos)]
    refine ⟨_, rfl, ⟨rfl, rfl, rfl, ?_⟩, fun z hz1 hz2 => ?_⟩
    · exact foldl_setI_length _ (fun i => truncToInt i)
        (fun W i => getI W (truncToInt i) * (1 + (x - weightedMean s x l r)
          / weightedVariance s x l r * (i - weightedMean s x l r))) _
    · simp only
      rw [floatRange_intCast, List.foldl_map]
      simp only [truncToInt_intCast]
      have hm : z ∈ intRange l (r + 1) := by rw [mem_intRange]; omega
      rw [foldl_setI_getI (fun z old => old * (1 + (x - weightedMean s x l r)
          / weightedVariance s x l r * ((z : ℚ) - weightedMean s x l r))) _
        (intRange_nodup _ _) _ (fun y hy => by rw [mem_intRange] at hy; omega) z (by omega)]
      simp only [hm, if_true, linearWeight, hge, hv z hz1 hz2]
  · rw [if_neg hge]
    refine ⟨_, rfl, State.Frame.refl _, fun z hz1 hz2 => ?_⟩
    simp only [linearWeight, hge, if_false, hv z hz1 hz2]

/-- `Regress` with `Linear` on a window that is empty or inside the series: it returns, the
error is the one of `localWeights`, and the value is `linearFit`, whatever the weight buffer
held before. -/
theorem Regress_linear_spec (s : State) (x : ℚ) (l r : ℤ) (hlen : s.w.length = s.x.length)
    (hw : r < l ∨ (0 ≤ l ∧ r < (s.x.length : ℤ))) (hn : s.x.length ≠ 1) :
    ∃ s1, State.Frame s s1 ∧
      Regress s .linear x (l : ℚ) (r : ℚ) =
        .ok (s1, if localErr s x l r = none then linearFit s x l r else 0, localErr s x l r) := by
  obtain ⟨s1, h1, f1, hv1⟩ := localWeights_spec s x l r (by rw [hlen]; exact hw)
  unfold Regress
  rw [h1]
  simp only [Outcome.bind_ok]
  cases he : localErr s x l r with
  | some err => exact ⟨s1, f1, by simp⟩
  | none =>
    obtain ⟨s2, h2, f2, hv2⟩ := Linear_spec (x := x) f1 (by rw [f1.2.2.2, hlen]; exact hw) hn
      (hv1 he)
    simp only [WeightUpdate.call, h2, Outcome.bind_ok, truncToInt_intCast]
    have e1 : s2.w.length = s.x.length := by rw [f2.2.2.2, f1.2.2.2, hlen]
    have e2 : s2.x = s.x := by rw [f2.1, f1.1]
    have hb : ((intRange l (r + 1)).all fun i =>
        inBounds s2.w.length i && inBounds s2.x.length i) = true := by
      simp only [List.all_eq_true, mem_intRange, inBounds, Bool.and_eq_true, decide_eq_true_eq,
        e1, e2]
      intro z hz
      omega
    rw [if_pos hb]
    refine ⟨s2, f1.trans f2, ?_⟩
    simp only [if_true]
    rw [foldl_add_eq_sum (fun z : ℤ => getI s2.w z * getI s2.x z), zero_add]
    congr 3
    unfold linearFit
    exact windowSum_congr (fun z h1 h2 => by rw [hv2 z h1 h2, e2])

end loess

/-! ## The weights sum to one; `Linear` is weighted least squares -/

namespace loess

theorem windowSum_linear (l r : ℤ) (a b : ℚ) (f g : ℤ → ℚ) :
    windowSum l r (fun z => a * f z + b * g z) = a * windowSum l r f + b * windowSum l r g := by
  unfold windowSum
  induction intRange l (r + 1) with
  | nil => simp
  | cons z rest ih => simp only [List.map_cons, List.sum_cons, ih]; ring

theorem windowSum_div (l r : ℤ) (c : ℚ) (f : ℤ → ℚ) :
    windowSum l r (fun z => f z / c) = windowSum l r f / c := by
  have h := windowSum_linear l r c⁻¹ 0 f f
  simp only [zero_mul, add_zero] at h
  rw [div_eq_inv_mul, ← h]
  exact windowSum_congr (fun z _ _ => by rw [div_eq_inv_mul])

/-- The normalised weights of a window sum to one. -/
theorem normWeight_sum {s : State} {x : ℚ} {l r : ℤ} (h : localErr s x l r = none) :
    windowSum l r (normWeight s x l r) = 1 := by
  have hS : rawTotal s x l r ≠ 0 := by
    unfold localErr at h
    split at h
    · simp at h
    · split at h
      · simp at h
      · rename_i h2; exact ne_of_gt (not_le.mp h2)
  unfold normWeight
  rw [windowSum_div]
  exact div_self hS

/-- A call of `localWeights` that succeeds on a non-empty window did not leave the weight
buffer. -/
theorem localWeights_ok_inBounds {s s1 : State} {x : ℚ} {l r : ℤ} (hlr : l ≤ r)
    (hok : localWeights s x (l : ℚ) (r : ℚ) = .ok (s1, none)) :
    0 ≤ l ∧ r < (s.w.length : ℤ) := by
  unfold localWeights at hok
  simp only at hok
  split at hok
  · simp at hok
  · split at hok
    · rename_i hall
      rw [floatRange_intCast] at hall
      simp only [List.all_eq_true, List.mem_map, mem_intRange, inBounds, Bool.and_eq_true,
        decide_eq_true_eq] at hall
      have h1 := hall (l : ℚ) ⟨l, ⟨le_refl l, by omega⟩, rfl⟩
      have h2 := hall (r : ℚ) ⟨r, ⟨hlr, by omega⟩, rfl⟩
      rw [truncToInt_intCast] at h1 h2
      omega
    · simp at hok

/-- The weights of a successful `localWeights` are the normalised weights. -/
theorem localWeights_ok_weights {s s1 : State} {x : ℚ} {l r : ℤ} (hlr : l ≤ r)
    (hok : localWeights s x (l : ℚ) (r : ℚ) = .ok (s1, none)) :
    localErr s x l r = none ∧ ∀ z, l ≤ z → z ≤ r → getI s1.w z = normWeight s x l r z := by
  obtain ⟨s2, h2, _, hv⟩ := localWeights_spec s x l r (Or.inr (localWeights_ok_inBounds hlr hok))
  rw [hok] at h2
  simp only [Outcome.ok.injEq, Prod.mk.injEq] at h2
  obtain ⟨rfl, he⟩ := h2
  exact ⟨he.symm, hv he.symm⟩

end loess

/-- C8: when `localWeights` succeeds on a window `[left, right]`, the weights it leaves on
that window sum to exactly one.  (A call that succeeds has stayed inside the weight buffer, so
the bounds `0 ≤ left` and `right < N` need not be assumed.) -/
theorem localWeights_weights_sum_to_one (s s1 : State) (x : ℚ) (left right : ℤ)
    (hlr : left ≤ right)
    (hok : localWeights s x (left : ℚ) (right : ℚ) = .ok (s1, none)) :
    windowSum left right (fun z => getI s1.w z) = 1 := by
  obtain ⟨he, hv⟩ := localWeights_ok_weights hlr hok
  rw [windowSum_congr hv]
  exact normWeight_sum he

namespace loess

theorem windowSum_linear3 (l r : ℤ) (a b c : ℚ) (f g h : ℤ → ℚ) :
    windowSum l r (fun z => a * f z + b * g z + c * h z)
      = a * windowSum l r f + b * windowSum l r g + c * windowSum l r h := by
  unfold windowSum
  induction intRange l (r + 1) with
  | nil => simp
  | cons z rest ih => simp only [List.map_cons, List.sum_cons, ih]; ring

/-- The value of `Regress` with `Linear`, rewritten: the weighted mean of the series plus the
slope correction, or the weighted mean alone when the variance is under the threshold. -/
theorem linearFit_eq {s : State} {x : ℚ} {l r : ℤ} (h : localErr s x l r = none) :
    linearFit s x l r =
      if weightedVariance s x l r ≥
          (0.01 * (((s.x.length : ℤ) - 1 : ℤ) : ℚ)) * (0.01 * (((s.x.length : ℤ) - 1 : ℤ) : ℚ))
      then
        windowSum l r (fun z => normWeight s x l r z * getI s.x z)
          + (x - weightedMean s x l r)
            * windowSum l r (fun z => normWeight s x l r z * ((z : ℚ) - weightedMean s x l r)
                * (getI s.x z - windowSum l r (fun z => normWeight s x l r z * getI s.x z)))
            / weightedVariance s x l r
      else windowSum l r (fun z => normWeight s x l r z * getI s.x z) := by
  have hA := normWeight_sum h
  have hB : windowSum l r (fun z => normWeight s x l r z * (z : ℚ)) = weightedMean s x l r := by
    unfold weightedMean
    exact windowSum_congr (fun z _ _ => by ring)
  unfold linearFit linearWeight
  simp only
  split
  · -- slope correction
    have e1 : windowSum l r (fun z => normWeight s x l r z *
          (1 + (x - weightedMean s x l r) / weightedVariance s x l r
            * ((z : ℚ) - weightedMean s x l r)) * getI s.x z)
        = 1 * windowSum l r (fun z => normWeight s x l r z * getI s.x z)
          + ((x - weightedMean s x l r) / weightedVariance s x l r)
            * windowSum l r (fun z => normWeight s x l r z * ((z : ℚ) - weightedMean s x l r)
                * getI s.x z) := by
      rw [← windowSum_linear]
      exact windowSum_congr (fun z _ _ => by ring)
    have e2 : windowSum l r (fun z => normWeight s x l r z * ((z : ℚ) - weightedMean s x l r))
        = 0 := by
      have : windowSum l r (fun z => normWeight s x l r z * ((z : ℚ) - weightedMean s x l r))
          = 1 * windowSum l r (fun z => normWeight s x l r z * (z : ℚ))
            + (-weightedMean s x l r) * windowSum l r (normWeight s x l r) := by
        rw [← windowSum_linear]
        exact windowSum_congr (fun z _ _ => by ring)
      rw [this, hA, hB]; ring
    have e3 : ∀ Y : ℚ, windowSum l r (fun z => normWeight s x l r z
          * ((z : ℚ) - weightedMean s x l r) * (getI s.x z - Y))
        = windowSum l r (fun z => normWeight s x l r z * ((z : ℚ) - weightedMean s x l r)
            * getI s.x z) := by
      intro Y
      have : windowSum l r (fun z => normWeight s x l r z
            * ((z : ℚ) - weightedMean s x l r) * (getI s.x z - Y))
          = 1 * windowSum l r (fun z => normWeight s x l r z * ((z : ℚ) - weightedMean s x l r)
              * getI s.x z)
            + (-Y) * windowSum l r (fun z => normWeight s x l r z
              * ((z : ℚ) - weightedMean s x l r)) := by
        rw [← windowSum_linear]
        exact windowSum_congr (fun z _ _ => by ring)
      rw [this, e2]; ring
    rw [e1, e3]; ring
  · rfl

/-- On a series that is `a + b*z` on the window, the value of `Regress` with `Linear` is
`a + b*x` once the variance passes the threshold. -/
theorem linearFit_affine {s : State} {x a b : ℚ} {l r : ℤ} (h : localErr s x l r = none)
    (hn : s.x.length ≠ 1)
    (hX : ∀ z, l ≤ z → z ≤ r → getI s.x z = a + b * (z : ℚ))
    (hge : weightedVariance s x l r ≥
      (0.01 * (((s.x.length : ℤ) - 1 : ℤ) : ℚ)) * (0.01 * (((s.x.length : ℤ) - 1 : ℤ) : ℚ))) :
    linearFit s x l r = a + b * x := by
  have hA := normWeight_sum h
  have hv : weightedVariance s x l r ≠ 0 := ne_of_gt (lt_of_lt_of_le (thresh_sq_pos hn) hge)
  unfold linearFit linearWeight
  simp only [hge, if_true]
  have hV : windowSum l r (fun z => normWeight s x l r z * ((z : ℚ) - weightedMean s x l r)
      * ((z : ℚ) - weightedMean s x l r)) = weightedVariance s x l r := rfl
  have e1 : windowSum l r (fun z => normWeight s x l r z *
        (1 + (x - weightedMean s x l r) / weightedVariance s x l r
          * ((z : ℚ) - weightedMean s x l r)) * getI s.x z)
      = (a + b * weightedMean s x l r) * windowSum l r (normWeight s x l r)
        + (b * ((x - weightedMean s x l r) / weightedVariance s x l r))
          * windowSum l r (fun z => normWeight s x l r z * ((z : ℚ) - weightedMean s x l r)
              * ((z : ℚ) - weightedMean s x l r))
        + (b + (a + b * weightedMean s x l r)
            * ((x - weightedMean s x l r) / weightedVariance s x l r))
          * windowSum l r (fun z => normWeight s x l r z * ((z : ℚ) - weightedMean s x l r)) := by
    rw [← windowSum_linear3]
    exact windowSum_congr (fun z h1 h2 => by rw [hX z h1 h2]; ring)
  have e2 : windowSum l r (fun z => normWeight s x l r z * ((z : ℚ) - weightedMean s x l r))
      = 0 := by
    have hB : windowSum l r (fun z => normWeight s x l r z * (z : ℚ)) = weightedMean s x l r := by
      unfold weightedMean
      exact windowSum_congr (fun z _ _ => by ring)
    have : windowSum l r (fun z => normWeight s x l r z * ((z : ℚ) - weightedMean s x l r))
        = 1 * windowSum l r (fun z => normWeight s x l r z * (z : ℚ))
          + (-weightedMean s x l r) * windowSum l r (normWeight s x l r) := by
      rw [← windowSum_linear]
      exact windowSum_congr (fun z _ _ => by ring)
    rw [this, hA, hB]; ring
  rw [e1, e2, hA, hV]
  field_simp
  ring

end loess

/-- C10: `Regress` with the `Linear` kernel is weighted linear regression.  On a series of
length at least two and a window on which `localWeights` succeeds with weights `w`, put
`m = Σ w z · z`, `v = Σ w z · (z - m)²` and `ybar = Σ w z · X z`.  If `v ≥ (0.01·(N-1))²` then
`Regress` returns `ybar + (x - m) · Σ w z · (z - m) · (X z - ybar) / v`, which is `a + b·x`
for a series `X z = a + b·z`; otherwise it returns `ybar`. -/
theorem Regress_linear_is_weighted_least_squares (s s1 : State) (x : ℚ) (left right : ℤ)
    (hN : 2 ≤ s.x.length) (hlen : s.w.length = s.x.length)
    (hlr : left ≤ right) (hr : right < (s.x.length : ℤ))
    (hok : localWeights s x (left : ℚ) (right : ℚ) = .ok (s1, none)) :
    let w : ℤ → ℚ := fun z => getI s1.w z
    let m : ℚ := windowSum left right (fun z => w z * (z : ℚ))
    let v : ℚ := windowSum left right (fun z => w z * ((z : ℚ) - m) ^ 2)
    let ybar : ℚ := windowSum left right (fun z => w z * getI s.x z)
    let thresh : ℚ := 0.01 * ((s.x.length : ℚ) - 1)
    ∃ s2,
      Regress s .linear x (left : ℚ) (right : ℚ) =
        .ok (s2,
          if v ≥ thresh ^ 2 then
            ybar + (x - m)
              * windowSum left right (fun z => w z * ((z : ℚ) - m) * (getI s.x z - ybar)) / v
          else ybar,
          none) ∧
      ∀ a b : ℚ, (∀ z, left ≤ z → z ≤ right → getI s.x z = a + b * (z : ℚ)) → v ≥ thresh ^ 2 →
        Regress s .linear x (left : ℚ) (right : ℚ) = .ok (s2, a + b * x, none) := by
  intro w m v ybar thresh
  obtain ⟨he, hv⟩ := localWeights_ok_weights hlr hok
  have hb := localWeights_ok_inBounds hlr hok
  have hn : s.x.length ≠ 1 := by omega
  obtain ⟨s2, _, hreg⟩ := Regress_linear_spec s x left right hlen (Or.inr ⟨hb.1, hr⟩) hn
  simp only [he, if_true] at hreg
  have hm : m = weightedMean s x left right :=
    windowSum_congr (fun z h1 h2 => by simp only [w]; rw [hv z h1 h2]; ring)
  have hvv : v = weightedVariance s x left right :=
    windowSum_congr (fun z h1 h2 => by simp only [w]; rw [hv z h1 h2, hm]; ring)
  have hy : ybar = windowSum left right (fun z => normWeight s x left right z * getI s.x z) :=
    windowSum_congr (fun z h1 h2 => by simp only [w]; rw [hv z h1 h2])
  have ht : thresh ^ 2 =
      (0.01 * (((s.x.length : ℤ) - 1 : ℤ) : ℚ)) * (0.01 * (((s.x.length : ℤ) - 1 : ℤ) : ℚ)) := by
    simp only [thresh]; push_cast; ring
  have hc : windowSum left right (fun z => w z * ((z : ℚ) - m) * (getI s.x z - ybar)) =
      windowSum left right (fun z => normWeight s x left right z
        * ((z : ℚ) - weightedMean s x left right)
        * (getI s.x z - windowSum left right
            (fun z => normWeight s x left right z * getI s.x z))) :=
    windowSum_congr (fun z h1 h2 => by simp only [w]; rw [hv z h1 h2, hm, hy])
  refine ⟨s2, ?_, ?_⟩
  · rw [hreg, linearFit_eq he, hc, ht, hvv, hm, hy]
  · intro a b hX hge
    rw [hreg, linearFit_affine he hn hX (by rw [← hvv, ← ht]; exact hge)]

/-- C8 witness: the three weights that `localWeights` leaves for the series `[1, 3, 5]` with
width 5 at `x = 1`. -/
theorem localWeights_weights_sum_to_one_witness :
    windowSum 0 2
      (fun z => getI [(343 : ℚ) / 1198, (256 : ℚ) / 599, (343 : ℚ) / 1198] z) = 1 :=
  localWeights_weights_sum_to_one (New 5 [1, 3, 5])
    { width := 5, w := [(343 : ℚ) / 1198, (256 : ℚ) / 599, (343 : ℚ) / 1198], x := [1, 3, 5],
      e := [] }
    1 0 2 (by decide) (by decide!)

/-- C10 witness: on the series `1 + 2·z` with width 5, the regression at `x = 1/2` over the
window `[0, 2]` passes the variance threshold and returns `1 + 2·(1/2)`. -/
theorem Regress_linear_is_weighted_least_squares_witness :
    ∃ s2, Regress (New 5 [1, 3, 5]) .linear (1 / 2) ((0 : ℤ) : ℚ) ((2 : ℤ) : ℚ) =
      .ok (s2, 1 + 2 * (1 / 2), none) := by
  obtain ⟨s2, _, h⟩ := Regress_linear_is_weighted_least_squares (New 5 [1, 3, 5])
    { width := 5, w := [(238328 : ℚ) / 594305, (238328 : ℚ) / 594305, (117649 : ℚ) / 594305],
      x := [1, 3, 5], e := [] }
    (1 / 2) 0 2 (by decide) (by decide) (by decide) (by decide) (by decide!)
  refine ⟨s2, h 1 2 ?_ ?_⟩
  · intro z h1 h2
    interval_cases z <;> decide!
  · decide!

/-! ## A series that is constant on the window -/

namespace loess

theorem linearFit_const {s : State} {x c : ℚ} {l r : ℤ} (h : localErr s x l r = none)
    (hn : s.x.length ≠ 1) (hX : ∀ z, l ≤ z → z ≤ r → getI s.x z = c) :
    linearFit s x l r = c := by
  by_cases hge : weightedVariance s x l r ≥
      (0.01 * (((s.x.length : ℤ) - 1 : ℤ) : ℚ)) * (0.01 * (((s.x.length : ℤ) - 1 : ℤ) : ℚ))
  · have := linearFit_affine (x := x) (a := c) (b := 0) h hn
      (fun z h1 h2 => by rw [hX z h1 h2]; ring) hge
    rw [this]; ring
  · unfold linearFit linearWeight
    simp only [hge, if_false]
    have e : windowSum l r (fun z => normWeight s x l r z * getI s.x z)
        = c * windowSum l r (normWeight s x l r) + 0 * windowSum l r (normWeight s x l r) := by
      rw [← windowSum_linear]
      exact windowSum_congr (fun z h1 h2 => by rw [hX z h1 h2]; ring)
    rw [e, normWeight_sum h]; ring

/-- The part of C9 that the code keeps, `Linear`: on a series of at least two points that is
constant on the window, a regression that succeeds returns the constant. -/
theorem Regress_linear_constant (s s2 : State) (x c v : ℚ) (left right : ℤ)
    (hN : 2 ≤ s.x.length) (hlen : s.w.length = s.x.length)
    (h0 : 0 ≤ left) (hr : right < (s.x.length : ℤ))
    (hX : ∀ z, left ≤ z → z ≤ right → getI s.x z = c)
    (hok : Regress s .linear x (left : ℚ) (right : ℚ) = .ok (s2, v, none)) : v = c := by
  have hn : s.x.length ≠ 1 := by omega
  obtain ⟨s3, _, hreg⟩ := Regress_linear_spec s x left right hlen (Or.inr ⟨h0, hr⟩) hn
  rw [hok] at hreg
  simp only [Outcome.ok.injEq, Prod.mk.injEq] at hreg
  obtain ⟨_, hv, he⟩ := hreg
  rw [← he] at hv
  simp only [if_true] at hv
  rw [hv]
  exact linearFit_const he.symm hn hX

/-- The part of C9 that the code keeps, `Quadratic`: whenever `Regress` returns with this
kernel, the weights are the normalised ones, and on a series that is constant on the window
the value is the constant. -/
theorem Regress_quadratic_constant (s s2 : State) (x c v : ℚ) (left right : ℤ)
    (hlr : left ≤ right)
    (hX : ∀ z, left ≤ z → z ≤ right → getI s.x z = c)
    (hok : Regress s .quadratic x (left : ℚ) (right : ℚ) = .ok (s2, v, none)) : v = c := by
  unfold Regress at hok
  simp only [Outcome.bind_eq_ok] at hok
  obtain ⟨⟨s1, e1⟩, h1, hok⟩ := hok
  cases e1 with
  | some err => simp at hok
  | none =>
    simp only [Outcome.bind_eq_ok] at hok
    obtain ⟨⟨s3, e3⟩, h3, hok⟩ := hok
    obtain ⟨rfl, rfl⟩ := @Quadratic_frame s1 s3 x (left : ℚ) (right : ℚ) e3 h3
    obtain ⟨he, hv⟩ := localWeights_ok_weights hlr h1
    have f1 := localWeights_frame h1
    simp only [truncToInt_intCast] at hok
    split at hok
    · simp only [Outcome.ok.injEq, Prod.mk.injEq] at hok
      obtain ⟨_, hval, _⟩ := hok
      rw [← hval, foldl_add_eq_sum (fun z : ℤ => getI s3.w z * getI s3.x z), zero_add]
      have e : windowSum left right (fun z => getI s3.w z * getI s3.x z)
          = c * windowSum left right (normWeight s x left right)
            + 0 * windowSum left right (normWeight s x left right) := by
        rw [← windowSum_linear]
        exact windowSum_congr (fun z h1 h2 => by rw [hv z h1 h2, f1.1, hX z h1 h2]; ring)
      show windowSum left right (fun z => getI s3.w z * getI s3.x z) = c
      rw [e, normWeight_sum he]; ring
    · simp at hok

end loess

/-- C9, at the input where the code fails: a series of one point held in a state of width 2.
The variance is `0`, the threshold `0.01·(N-1)` is `0` as well, the guard
`variance >= thresh*thresh` lets the update run and `beta` is `0/0`: in Go the weight becomes
`NaN` and `Regress` returns `NaN` with a `nil` error, not the constant `5`. -/
theorem Regress_linear_single_point_not_constant :
    localWeights (New 2 [5]) 0 ((0 : ℤ) : ℚ) ((0 : ℤ) : ℚ)
        = .ok ({ width := 2, w := [1], x := [5], e := [] }, none) ∧
      Regress (New 2 [5]) .linear 0 ((0 : ℤ) : ℚ) ((0 : ℤ) : ℚ) = .nonFinite := by
  constructor <;> decide!

/-! ## Loops that return -/

theorem Outcome.bind_assoc {α β γ : Type} (o : Outcome α) (f : α → Outcome β)
    (g : β → Outcome γ) : (o.bind f).bind g = o.bind (fun a => (f a).bind g) := by
  cases o <;> rfl

theorem forEach_append {ι σ : Type} (body : ι → σ → Outcome σ) (l1 l2 : List ι) :
    ∀ st : σ, forEach (l1 ++ l2) body st = (forEach l1 body st).bind (forEach l2 body) := by
  induction l1 with
  | nil => intro st; simp [forEach]
  | cons i rest ih =>
    intro st
    simp only [List.cons_append, forEach, Outcome.bind_assoc]
    congr 1
    funext a
    exact ih a

theorem forEach_map {ι κ σ : Type} (f : κ → ι) (body : ι → σ → Outcome σ) (l : List κ) :
    ∀ st : σ, forEach (l.map f) body st = forEach l (fun k => body (f k)) st := by
  induction l with
  | nil => intro st; rfl
  | cons k rest ih =>
    intro st
    simp only [List.map_cons, forEach]
    congr 1
    funext a
    exact ih a

/-- Total correctness of a loop over `0, 1, ..., n-1`: a body that returns and re-establishes
the invariant at the next index makes the loop return with the invariant at `n`. -/
theorem forEach_range_total {σ : Type} (Inv : ℕ → σ → Prop) (body : ℕ → σ → Outcome σ)
    (n : ℕ)
    (hbody : ∀ i st, i < n → Inv i st → ∃ st1, body i st = .ok st1 ∧ Inv (i + 1) st1)
    (st : σ) (h0 : Inv 0 st) :
    ∃ st1, forEach (List.range n) body st = .ok st1 ∧ Inv n st1 := by
  induction n with
  | zero => exact ⟨st, rfl, h0⟩
  | succ k ih =>
    obtain ⟨st1, h1, i1⟩ := ih (fun i st hi => hbody i st (by omega))
    obtain ⟨st2, h2, i2⟩ := hbody k st1 (by omega) i1
    refine ⟨st2, ?_, i2⟩
    rw [List.range_succ, forEach_append, h1]
    simp [forEach, h2]

/-- Total correctness of `strideLoop` with a positive stride: with fuel for every index
below the bound the loop returns, at an index that has reached the bound. -/
theorem strideLoop_total {σ : Type} (Inv : ℤ → σ → Prop) (body : ℤ → σ → Outcome σ)
    (stop : ℤ → Bool) (bound jump : ℤ) (hj : 0 < jump)
    (hstop : ∀ i, stop i = true → bound ≤ i + jump)
    (hbody : ∀ i st, i < bound → Inv i st → ∃ st1, body i st = .ok st1 ∧ Inv (i + jump) st1) :
    ∀ (fuel : ℕ) (i : ℤ) (st : σ), (bound - i).toNat < fuel → Inv i st →
      ∃ st1 i1, strideLoop body stop bound jump fuel i st = .ok st1 ∧ Inv i1 st1 ∧
        bound ≤ i1 ∧ (i1 = i ∨ (i < bound ∧ i1 < bound + jump)) := by
  intro fuel
  induction fuel with
  | zero => intro i st hf; omega
  | succ n ih =>
    intro i st hf hi
    simp only [strideLoop]
    by_cases hlt : i < bound
    · obtain ⟨st1, h1, i1⟩ := hbody i st hlt hi
      rw [if_pos hlt, h1, Outcome.bind_ok]
      by_cases hs : stop i = true
      · rw [if_pos hs]
        exact ⟨st1, i + jump, rfl, i1, hstop i hs, Or.inr ⟨hlt, by omega⟩⟩
      · rw [if_neg hs]
        obtain ⟨st2, i2, h2, inv2, hb, hc⟩ := ih (i + jump) st1 (by omega) i1
        refine ⟨st2, i2, h2, inv2, hb, Or.inr ⟨hlt, ?_⟩⟩
        rcases hc with hc | hc
        · omega
        · omega
    · rw [if_neg hlt]
      exact ⟨st, i, rfl, hi, by omega, Or.inl rfl⟩

/-! ## `smooth` with `Linear`: it returns, and what it stores at the sampled positions -/

namespace loess

theorem localErr_frame {s s1 : State} (f : State.Frame s s1) (x : ℚ) (l r : ℤ) :
    localErr s1 x l r = localErr s x l r := by
  obtain ⟨hx, he, hw, _⟩ := f
  cases s; cases s1
  simp only at hx he hw
  subst hx he hw
  rfl

theorem linearFit_frame {s s1 : State} (f : State.Frame s s1) (x : ℚ) (l r : ℤ) :
    linearFit s1 x l r = linearFit s x l r := by
  obtain ⟨hx, he, hw, _⟩ := f
  cases s; cases s1
  simp only at hx he hw
  subst hx he hw
  rfl

/-- The value stored at an exactly computed index, with `Linear`: the fitted value, or the
raw value when `localWeights` reports an error. -/
theorem pointOrRaw_linear (s : State) (i l r : ℤ) (hlen : s.w.length = s.x.length)
    (hw : r < l ∨ (0 ≤ l ∧ r < (s.x.length : ℤ))) (hn : s.x.length ≠ 1) :
    pointOrRaw s .linear i (l : ℚ) (r : ℚ) =
      if localErr s (i : ℚ) l r = none then linearFit s (i : ℚ) l r else getI s.x i := by
  obtain ⟨s1, f, h⟩ := Regress_linear_spec s (i : ℚ) l r hlen hw hn
  unfold pointOrRaw
  rw [h]
  cases he : localErr s (i : ℚ) l r with
  | none => simp
  | some err => simp [f.1]

/-- The value stored at an exactly computed index does not depend on what the weight buffer
held before the call. -/
theorem pointOrRaw_frame {s s1 : State} (f : State.Frame s s1) (i l r : ℤ)
    (hlen : s.w.length = s.x.length)
    (hw : r < l ∨ (0 ≤ l ∧ r < (s.x.length : ℤ))) (hn : s.x.length ≠ 1) :
    pointOrRaw s1 .linear i (l : ℚ) (r : ℚ) = pointOrRaw s .linear i (l : ℚ) (r : ℚ) := by
  rw [pointOrRaw_linear s i l r hlen hw hn,
    pointOrRaw_linear s1 i l r (by rw [f.2.2.2, f.1, hlen]) (by rw [f.1]; exact hw)
      (by rw [f.1]; exact hn),
    localErr_frame f, linearFit_frame f, f.1]

/-- The statement `regressInto` with `Linear`, at an index of the series and on a window that
is empty or inside the series: it returns and stores `pointOrRaw`. -/
theorem regressInto_linear_spec {shared : Bool} {s0 : State} {L : ℕ} {m : Mem} {i l r : ℤ}
    (h : MemInv shared s0 L m) (hlen : s0.w.length = s0.x.length) (hn : s0.x.length ≠ 1)
    (hL : s0.x.length ≤ L) (hi : 0 ≤ i ∧ i < (s0.x.length : ℤ))
    (hw : r < l ∨ (0 ≤ l ∧ r < (s0.x.length : ℤ))) :
    ∃ m1, regressInto shared .linear i (l : ℚ) (r : ℚ) m = .ok m1 ∧ MemInv shared s0 L m1 ∧
      m1.retVal = setI m.retVal i (pointOrRaw m.s .linear i (l : ℚ) (r : ℚ)) := by
  obtain ⟨h1, h2, h3, h4, h5, h6, h7⟩ := h
  have hlen1 : m.s.w.length = m.s.x.length := by rw [h4, h5, hlen]
  obtain ⟨s1, f, hreg⟩ := Regress_linear_spec m.s (i : ℚ) l r hlen1 (by rw [h5]; exact hw)
    (by rw [h5]; exact hn)
  have hinv : MemInv shared s0 L m := ⟨h1, h2, h3, h4, h5, h6, h7⟩
  have hb : inBounds m.retVal.length i = true := by
    simp only [inBounds, Bool.and_eq_true, decide_eq_true_eq]; omega
  have hres : ∃ m1, regressInto shared .linear i (l : ℚ) (r : ℚ) m = .ok m1 ∧
      m1.retVal = setI m.retVal i (pointOrRaw m.s .linear i (l : ℚ) (r : ℚ)) := by
    unfold regressInto pointOrRaw
    rw [hreg]
    simp only [Outcome.bind_ok]
    cases he : localErr m.s (i : ℚ) l r with
    | none =>
      simp only [setRet, hb, if_true]
      exact ⟨_, rfl, rfl⟩
    | some err =>
      have hbx : inBounds s1.x.length i = true := by
        simp only [inBounds, Bool.and_eq_true, decide_eq_true_eq, f.1, h5]; omega
      simp only [hbx, if_true, setRet, hb]
      exact ⟨_, rfl, rfl⟩
  obtain ⟨m1, hm1, hv⟩ := hres
  exact ⟨m1, hm1, regressInto_inv hinv hm1, hv⟩

end loess

namespace loess

theorem setRet_spec {shared : Bool} {m : Mem} {i : ℤ} {v : ℚ}
    (hb : 0 ≤ i ∧ i < (m.retVal.length : ℤ)) :
    ∃ m1, setRet shared m i v = .ok m1 ∧ m1.retVal = setI m.retVal i v := by
  have : inBounds m.retVal.length i = true := by
    simp only [inBounds, Bool.and_eq_true, decide_eq_true_eq]; omega
  unfold setRet
  rw [if_pos this]
  exact ⟨_, rfl, rfl⟩

/-- The inner interpolation loop returns and writes only strictly between `a` and `b`. -/
theorem fillBetween_spec {shared : Bool} {s0 : State} {L : ℕ} {m : Mem} {a b : ℤ} {slope : ℚ}
    (h : MemInv shared s0 L m) (ha : 0 ≤ a) (hb : b ≤ (L : ℤ)) :
    ∃ m1, fillBetween shared a b slope m = .ok m1 ∧ MemInv shared s0 L m1 ∧
      ∀ k : ℤ, 0 ≤ k → (k ≤ a ∨ b ≤ k) → getI m1.retVal k = getI m.retVal k := by
  unfold fillBetween intRange
  rw [forEach_map]
  exact forEach_range_total
    (fun _ m1 => MemInv shared s0 L m1 ∧
      ∀ k : ℤ, 0 ≤ k → (k ≤ a ∨ b ≤ k) → getI m1.retVal k = getI m.retVal k)
    _ _
    (fun t st ht hst => by
      obtain ⟨hinv, hfr⟩ := hst
      have hlen : st.retVal.length = L := hinv.1
      have hba : inBounds st.retVal.length a = true := by
        simp only [inBounds, Bool.and_eq_true, decide_eq_true_eq]; omega
      obtain ⟨m1, hm1, hv⟩ := @setRet_spec shared st (a + 1 + (t : ℤ))
        (getI st.retVal a + slope * ((a + 1 + (t : ℤ) - a : ℤ) : ℚ)) (by omega)
      refine ⟨m1, ?_, setRet_inv hinv hm1, fun k hk hout => ?_⟩
      · simp only [hba, if_true]; exact hm1
      · rw [hv, getI_setI (by omega) hk, if_neg (by omega)]
        exact hfr k hk hout)
    m ⟨h, fun _ _ _ => rfl⟩

/-- One step of the interpolation loop returns and writes only strictly between two
neighbouring sampled positions. -/
theorem interpolateStep_spec {shared : Bool} {s0 : State} {L : ℕ} {m : Mem} {jump i : ℤ}
    (h : MemInv shared s0 L m) (hj : 0 < jump) (hi : 0 ≤ i) (hb : i + jump < (L : ℤ)) :
    ∃ m1, interpolateStep shared jump i m = .ok m1 ∧ MemInv shared s0 L m1 ∧
      ∀ k : ℤ, 0 ≤ k → (k ≤ i ∨ i + jump ≤ k) → getI m1.retVal k = getI m.retVal k := by
  have hlen : m.retVal.length = L := h.1
  have hb1 : (inBounds m.retVal.length (i + jump) && inBounds m.retVal.length i) = true := by
    simp only [inBounds, Bool.and_eq_true, decide_eq_true_eq]; omega
  unfold interpolateStep
  rw [if_pos hb1, if_neg (by omega)]
  exact fillBetween_spec h hi (by omega)

end loess

theorem dvd_gap {j a b : ℤ} (ha : j ∣ a) (hb : j ∣ b) (hab : a < b) :
    a + j ≤ b := by
  have h1 : j ∣ b - a := Int.dvd_sub hb ha
  have h2 : j ≤ b - a := Int.le_of_dvd (by omega) h1
  omega

/-- The position `(last / jump) * jump` of `smooth`: the last sampled index. -/
theorem lastSmoothedPos_spec {n jump : ℤ} (hn : 0 ≤ n) (hj : 0 < jump) :
    jump ∣ n.tdiv jump * jump ∧ 0 ≤ n.tdiv jump * jump ∧ n.tdiv jump * jump ≤ n ∧
      n < n.tdiv jump * jump + jump := by
  rw [Int.tdiv_eq_ediv hn (le_of_lt hj)]
  refine ⟨Dvd.intro_left _ rfl, ?_, Int.ediv_mul_le n (ne_of_gt hj), ?_⟩
  · exact mul_nonneg (Int.ediv_nonneg hn (le_of_lt hj)) (le_of_lt hj)
  · have := Int.lt_ediv_add_one_mul_self n hj
    linarith

theorem lastSmoothedPos_eq {n jump q : ℤ} (hn : 0 ≤ n) (hj : 0 < jump) (hq : jump ∣ q)
    (h1 : q ≤ n) (h2 : n < q + jump) : n.tdiv jump * jump = q := by
  obtain ⟨d1, _, d3, d4⟩ := lastSmoothedPos_spec hn hj
  by_contra hne
  rcases lt_or_gt_of_ne hne with h | h
  · have := dvd_gap d1 hq h; omega
  · have := dvd_gap hq d1 h; omega

namespace loess

theorem MemInv.frame {s0 : State} {L : ℕ} {m : Mem} (h : MemInv false s0 L m) :
    State.Frame s0 m.s :=
  ⟨h.2.2.2.2.2.1 rfl, h.2.1, h.2.2.1, h.2.2.2.1⟩

/-- The interpolation loop of `smooth` returns and leaves the sampled positions alone. -/
theorem interpolate_spec {shared : Bool} {s0 : State} {L : ℕ} {m : Mem} {size jump : ℤ}
    (h : MemInv shared s0 L m) (hj : 0 < jump) (hL : size ≤ (L : ℤ)) :
    ∃ m1, strideLoop (interpolateStep shared jump) (fun _ => false) (size - jump) jump
        (size.toNat + 1) 0 m = .ok m1 ∧ MemInv shared s0 L m1 ∧
      ∀ k : ℤ, 0 ≤ k → jump ∣ k → getI m1.retVal k = getI m.retVal k := by
  obtain ⟨m1, i1, h1, ⟨_, _, hinv, hval⟩, _, _⟩ :=
    strideLoop_total
      (fun i m1 => 0 ≤ i ∧ jump ∣ i ∧ MemInv shared s0 L m1 ∧
        ∀ k : ℤ, 0 ≤ k → jump ∣ k → getI m1.retVal k = getI m.retVal k)
      (interpolateStep shared jump) (fun _ => false) (size - jump) jump hj
      (fun i hs => by simp at hs)
      (fun i st hlt hst => by
        obtain ⟨hi0, hid, hinv, hval⟩ := hst
        obtain ⟨m2, hm2, hinv2, hfr⟩ := interpolateStep_spec hinv hj hi0 (by omega)
        refine ⟨m2, hm2, by omega, Dvd.dvd.add hid (dvd_refl _), hinv2, fun k hk hkd => ?_⟩
        rw [hfr k hk ?_, hval k hk hkd]
        by_cases hle : k ≤ i
        · exact Or.inl hle
        · exact Or.inr (dvd_gap hid hkd (by omega)))
      (size.toNat + 1) 0 m (by omega) ⟨le_refl 0, dvd_zero _, h, fun _ _ _ => rfl⟩
  exact ⟨m1, h1, hinv, hval⟩

/-- The tail of `smooth` with `Linear`: it returns, leaves the sampled positions alone, and
when the stride has missed the final index it stores there the value of a regression over the
window it is given. -/
theorem smoothLast_spec {shared : Bool} {s0 : State} {L : ℕ} {m : Mem} {jump l r : ℤ}
    (h : MemInv shared s0 L m) (hlen : s0.w.length = s0.x.length) (hn : 2 ≤ s0.x.length)
    (hL : s0.x.length ≤ L) (hj : 0 < jump)
    (hw : r < l ∨ (0 ≤ l ∧ r < (s0.x.length : ℤ))) :
    ∃ m1, smoothLast shared .linear (s0.x.length : ℤ) jump (l : ℚ) (r : ℚ) m = .ok m1 ∧
      MemInv shared s0 L m1 ∧
      (∀ k : ℤ, 0 ≤ k → jump ∣ k → getI m1.retVal k = getI m.retVal k) ∧
      (¬ jump ∣ ((s0.x.length : ℤ) - 1) →
        getI m1.retVal ((s0.x.length : ℤ) - 1)
          = pointOrRaw m.s .linear ((s0.x.length : ℤ) - 1) (l : ℚ) (r : ℚ)) := by
  obtain ⟨d1, d2, d3, d4⟩ := @lastSmoothedPos_spec ((s0.x.length : ℤ) - 1) jump (by omega) hj
  unfold smoothLast
  simp only
  rw [if_neg (by omega)]
  by_cases hp : ((s0.x.length : ℤ) - 1).tdiv jump * jump = (s0.x.length : ℤ) - 1
  · rw [if_neg (by simpa using hp)]
    exact ⟨m, rfl, h, fun _ _ _ => rfl, fun hnd => absurd (hp ▸ d1) hnd⟩
  · rw [if_pos hp]
    obtain ⟨m1, hm1, hinv1, hv1⟩ := regressInto_linear_spec (i := (s0.x.length : ℤ) - 1) h hlen
      (by omega) hL (by omega) hw
    rw [hm1, Outcome.bind_ok]
    have hlen1 : m1.retVal.length = L := hinv1.1
    have hlen0 : m.retVal.length = L := h.1
    have hlast : getI m1.retVal ((s0.x.length : ℤ) - 1)
        = pointOrRaw m.s .linear ((s0.x.length : ℤ) - 1) (l : ℚ) (r : ℚ) := by
      rw [hv1, getI_setI (by omega) (by omega), if_pos ⟨rfl, by omega⟩]
    have hkeep : ∀ k : ℤ, 0 ≤ k → jump ∣ k → getI m1.retVal k = getI m.retVal k := by
      intro k hk hkd
      rw [hv1, getI_setI (by omega) hk, if_neg]
      rintro ⟨rfl, _⟩
      exact hp (lastSmoothedPos_eq (by omega) hj hkd (le_refl _) (by omega))
    by_cases hp1 : ((s0.x.length : ℤ) - 1).tdiv jump * jump = (s0.x.length : ℤ) - 1 - 1
    · rw [if_neg (by simpa using hp1)]
      exact ⟨m1, rfl, hinv1, hkeep, fun _ => hlast⟩
    · rw [if_pos hp1]
      have hb : (inBounds m1.retVal.length ((s0.x.length : ℤ) - 1) &&
          inBounds m1.retVal.length (((s0.x.length : ℤ) - 1).tdiv jump * jump)) = true := by
        simp only [inBounds, Bool.and_eq_true, decide_eq_true_eq]; omega
      rw [if_pos hb]
      obtain ⟨m2, hm2, hinv2, hfr⟩ := @fillBetween_spec _ _ _ _ _ _
        ((getI m1.retVal ((s0.x.length : ℤ) - 1)
          - getI m1.retVal (((s0.x.length : ℤ) - 1).tdiv jump * jump))
          / ((((s0.x.length : ℤ) - 1) - ((s0.x.length : ℤ) - 1).tdiv jump * jump : ℤ) : ℚ))
        hinv1 d2 (show (s0.x.length : ℤ) - 1 ≤ (L : ℤ) by omega)
      refine ⟨m2, hm2, hinv2, fun k hk hkd => ?_, fun _ => ?_⟩
      · rw [hfr k hk ?_, hkeep k hk hkd]
        by_cases hle : k ≤ ((s0.x.length : ℤ) - 1).tdiv jump * jump
        · exact Or.inl hle
        · exact Or.inr (by have := dvd_gap d1 hkd (by omega); omega)
      · rw [hfr _ (by omega) (Or.inr (le_refl _)), hlast]

end loess

namespace loess

/-- A sampling loop of `smooth` with `Linear`: a stride loop whose body is `regressInto` at
the index, over a window `win i` that is empty or inside the series.  The loop returns; every
sampled position holds the value of its regression; `Extra` is what the body hands on. -/
theorem sample_spec {σ : Type} {shared : Bool} {s0 : State} {L : ℕ} {jump : ℤ}
    (mem : σ → Mem) (body : ℤ → σ → Outcome σ) (stop : ℤ → Bool) (win : ℤ → ℤ × ℤ)
    (Extra : ℤ → σ → Prop)
    (hlen : s0.w.length = s0.x.length) (hn : 2 ≤ s0.x.length) (hL : s0.x.length ≤ L)
    (hj : 0 < jump)
    (hstop : ∀ i, stop i = true → (s0.x.length : ℤ) ≤ i + jump)
    (hwin : ∀ i, 0 ≤ i → i < (s0.x.length : ℤ) →
      (win i).2 < (win i).1 ∨ (0 ≤ (win i).1 ∧ (win i).2 < (s0.x.length : ℤ)))
    (hbody : ∀ i st m1, 0 ≤ i → i < (s0.x.length : ℤ) →
      regressInto shared .linear i ((win i).1 : ℚ) ((win i).2 : ℚ) (mem st) = .ok m1 →
      ∃ st1, body i st = .ok st1 ∧ mem st1 = m1 ∧ Extra (i + jump) st1)
    (st : σ) (h : MemInv shared s0 L (mem st)) (hE : Extra 0 st) :
    ∃ st1 i1, strideLoop body stop (s0.x.length : ℤ) jump ((s0.x.length : ℤ).toNat + 1) 0 st
        = .ok st1 ∧ MemInv shared s0 L (mem st1) ∧ Extra i1 st1 ∧
      jump ∣ i1 ∧ (s0.x.length : ℤ) ≤ i1 ∧ i1 < (s0.x.length : ℤ) + jump ∧
      (shared = false → ∀ k : ℤ, 0 ≤ k → k < (s0.x.length : ℤ) → jump ∣ k →
        getI (mem st1).retVal k = pointOrRaw s0 .linear k ((win k).1 : ℚ) ((win k).2 : ℚ)) := by
  obtain ⟨st1, i1, h1, ⟨_, hd, hinv, hE1, hval⟩, hb, hc⟩ :=
    strideLoop_total
      (fun i st1 => 0 ≤ i ∧ jump ∣ i ∧ MemInv shared s0 L (mem st1) ∧ Extra i st1 ∧
        (shared = false → ∀ k : ℤ, 0 ≤ k → k < i → jump ∣ k →
          getI (mem st1).retVal k = pointOrRaw s0 .linear k ((win k).1 : ℚ) ((win k).2 : ℚ)))
      body stop (s0.x.length : ℤ) jump hj hstop
      (fun i st hlt hst => by
        obtain ⟨hi0, hid, hinv, _, hval⟩ := hst
        obtain ⟨m1, hm1, hinv1, hv1⟩ := regressInto_linear_spec (i := i) hinv hlen (by omega) hL
          ⟨hi0, hlt⟩ (hwin i hi0 hlt)
        obtain ⟨st1, hb1, hmem, hE1⟩ := hbody i st m1 hi0 hlt hm1
        refine ⟨st1, hb1, by omega, Dvd.dvd.add hid (dvd_refl _), hmem ▸ hinv1, hE1,
          fun hsh k hk hki hkd => ?_⟩
        subst hsh
        have hlen0 : (mem st).retVal.length = L := hinv.1
        rw [hmem, hv1, getI_setI hi0 hk]
        by_cases hik : i = k
        · subst hik
          rw [if_pos ⟨rfl, by omega⟩]
          exact pointOrRaw_frame hinv.frame i _ _ hlen (hwin i hi0 hlt) (by omega)
        · rw [if_neg (fun hc => hik hc.1)]
          refine hval rfl k hk ?_ hkd
          by_contra hge
          have := dvd_gap hid hkd (by omega)
          omega)
      ((s0.x.length : ℤ).toNat + 1) 0 st (by omega)
      ⟨le_refl 0, dvd_zero _, h, hE, fun _ k hk hk0 _ => by omega⟩
  refine ⟨st1, i1, h1, hinv, hE1, hd, hb, by omega, fun hsh k hk hkn hkd => ?_⟩
  exact hval hsh k hk (by omega) hkd

end loess

namespace loess

theorem denseWindow_succ (size width : ℤ) (i : ℕ) :
    denseWindow size width i =
      denseShift size ((width + 1).tdiv 2)
        ((List.range i).foldl (denseShift size ((width + 1).tdiv 2))
          (0, ((width - 1 : ℤ) : ℚ))) i := by
  unfold denseWindow
  rw [List.range_succ, List.foldl_append]
  rfl

/-- The window update of the `jump == 1` loop keeps an integer window of `width` positions
that ends inside the series. -/
theorem denseShift_valid {size width half lz : ℤ} {i : ℕ} (h0 : 0 ≤ lz)
    (h1 : lz + width - 1 ≤ size - 1) :
    ∃ lz1 : ℤ, denseShift size half ((lz : ℚ), ((lz + width - 1 : ℤ) : ℚ)) i
        = ((lz1 : ℚ), ((lz1 + width - 1 : ℤ) : ℚ)) ∧ 0 ≤ lz1 ∧ lz1 + width - 1 ≤ size - 1 := by
  unfold denseShift
  simp only [truncToInt_intCast]
  split
  · rename_i hc
    refine ⟨lz + 1, ?_, by omega, by omega⟩
    simp only [Prod.mk.injEq]
    constructor <;> push_cast <;> ring
  · exact ⟨lz, rfl, h0, h1⟩

/-- The `jump == 1` loop of `smooth` with `Linear`: it returns, and every position holds the
value of the regression over the window the loop has reached there. -/
theorem dense_spec {shared : Bool} {s0 : State} {L : ℕ} {m : Mem} {width : ℤ}
    (h : MemInv shared s0 L m) (hlen : s0.w.length = s0.x.length) (hn : 2 ≤ s0.x.length)
    (hL : s0.x.length ≤ L) (hwd : width < (s0.x.length : ℤ)) :
    ∃ st1, forEach (List.range s0.x.length)
        (denseStep shared .linear (s0.x.length : ℤ) ((width + 1).tdiv 2))
        (0, ((width - 1 : ℤ) : ℚ), m) = .ok st1 ∧ MemInv shared s0 L st1.2.2 ∧
      (shared = false → ∀ k : ℕ, k < s0.x.length →
        getI st1.2.2.retVal (k : ℤ) = pointOrRaw s0 .linear (k : ℤ)
          (denseWindow (s0.x.length : ℤ) width k).1 (denseWindow (s0.x.length : ℤ) width k).2) := by
  obtain ⟨st1, h1, _, _, hinv, hval⟩ :=
    forEach_range_total
      (fun i (st : ℚ × ℚ × Mem) =>
        (∃ lz : ℤ, st.1 = (lz : ℚ) ∧ st.2.1 = ((lz + width - 1 : ℤ) : ℚ) ∧ 0 ≤ lz ∧
          lz + width - 1 ≤ (s0.x.length : ℤ) - 1) ∧
        (st.1, st.2.1) = (List.range i).foldl
          (denseShift (s0.x.length : ℤ) ((width + 1).tdiv 2)) (0, ((width - 1 : ℤ) : ℚ)) ∧
        MemInv shared s0 L st.2.2 ∧
        (shared = false → ∀ k : ℕ, k < i →
          getI st.2.2.retVal (k : ℤ) = pointOrRaw s0 .linear (k : ℤ)
            (denseWindow (s0.x.length : ℤ) width k).1
            (denseWindow (s0.x.length : ℤ) width k).2))
      (denseStep shared .linear (s0.x.length : ℤ) ((width + 1).tdiv 2)) s0.x.length
      (fun i st hi hst => by
        obtain ⟨⟨lz, hl1, hl2, hl3, hl4⟩, hfold, hinv, hval⟩ := hst
        obtain ⟨lz1, hsh, hz1, hz2⟩ := @denseShift_valid (s0.x.length : ℤ) width
          ((width + 1).tdiv 2) lz i hl3 hl4
        have hwin : denseWindow (s0.x.length : ℤ) width i
            = ((lz1 : ℚ), ((lz1 + width - 1 : ℤ) : ℚ)) := by
          rw [denseWindow_succ, ← hfold, hl1, hl2, hsh]
        have hvalid : lz1 + width - 1 < lz1 ∨ (0 ≤ lz1 ∧ lz1 + width - 1 < (s0.x.length : ℤ)) := by
          omega
        obtain ⟨m1, hm1, hinv1, hv1⟩ := regressInto_linear_spec (i := (i : ℤ)) hinv hlen
          (by omega) hL (by omega) hvalid
        refine ⟨((lz1 : ℚ), ((lz1 + width - 1 : ℤ) : ℚ), m1), ?_, ⟨lz1, rfl, rfl, hz1, hz2⟩, ?_,
          hinv1, fun hs k hk => ?_⟩
        · unfold denseStep
          simp only
          rw [hl1, hl2, hsh]
          simp only [hm1, Outcome.bind_ok]
        · exact hwin.symm
        · subst hs
          have hlen0 : st.2.2.retVal.length = L := hinv.1
          simp only
          rw [hv1, getI_setI (by omega) (by omega)]
          by_cases hik : (i : ℤ) = (k : ℤ)
          · have hik2 : i = k := by omega
            subst hik2
            rw [if_pos ⟨rfl, by omega⟩, hwin]
            exact pointOrRaw_frame hinv.frame _ _ _ hlen hvalid (by omega)
          · rw [if_neg (fun hc => hik hc.1)]
            exact hval rfl k (by omega))
      (0, ((width - 1 : ℤ) : ℚ), m)
      ⟨⟨0, by simp, by simp, le_refl 0, by omega⟩, rfl, h, fun _ k hk => by omega⟩
  exact ⟨st1, h1, hinv, hval⟩

end loess

namespace loess

theorem sparse_valid {size width i : ℤ} (hwd : width < size) :
    sparseLeft size width ((width + 1).tdiv 2) i + (width - 1)
        < sparseLeft size width ((width + 1).tdiv 2) i ∨
      (0 ≤ sparseLeft size width ((width + 1).tdiv 2) i ∧
        sparseLeft size width ((width + 1).tdiv 2) i + (width - 1) < size) := by
  by_cases hw : width ≤ 0
  · left; omega
  · right
    have hh : (width + 1).tdiv 2 = (width + 1) / 2 := Int.tdiv_eq_ediv (by omega) (by omega)
    rw [hh]
    unfold sparseLeft
    split
    · omega
    · split <;> omega

theorem getI_natCast (a : List ℚ) (i : ℕ) : getI a (i : ℤ) = a.getD i 0 := by
  simp [getI]

/-- A final index that the stride has missed is regressed over the window of the last sampled
index. -/
theorem smoothWindow_last {n : ℕ} {width jump : ℤ} (hn : 2 ≤ n) (hj : 0 < jump)
    (hnd : ¬ jump ∣ ((n : ℤ) - 1)) :
    smoothWindow (n : ℤ) width jump (n - 1)
      = smoothWindow (n : ℤ) width jump (((n : ℤ) - 1).tdiv jump * jump).toNat := by
  obtain ⟨d1, d2, _, _⟩ := @lastSmoothedPos_spec ((n : ℤ) - 1) jump (by omega) hj
  have hc : (((n - 1 : ℕ) : ℕ) : ℤ) = (n : ℤ) - 1 := by omega
  have hp : (((((n : ℤ) - 1).tdiv jump * jump).toNat : ℕ) : ℤ)
      = ((n : ℤ) - 1).tdiv jump * jump := Int.toNat_of_nonneg d2
  have hj1 : jump ≠ 1 := fun h => hnd (by rw [h]; exact one_dvd _)
  unfold smoothWindow
  rw [hc, hp]
  simp only [hj1, hnd, d1, if_true, if_false]

/-- The sampling part of `smooth` with `Linear`, for the three forms it takes. -/
theorem smooth_sampled_spec {shared : Bool} {s : State} {width jump : ℤ} {retVal : List ℚ}
    (hlen : s.w.length = s.x.length) (hn : 2 ≤ s.x.length) (hL : s.x.length ≤ retVal.length)
    (hj : 0 < jump) (hsh : shared = true → retVal = s.x) :
    ∃ st : ℚ × ℚ × Mem,
      (if width ≥ (s.x.length : ℤ) then
        (strideLoop (fun i m => regressInto shared .linear i 0 (((s.x.length : ℤ) - 1 : ℤ) : ℚ) m)
          (fun i => decide (i + jump > (s.x.length : ℤ))) (s.x.length : ℤ) jump
          ((s.x.length : ℤ).toNat + 1) 0 ⟨s, retVal⟩).bind
          fun m => Outcome.ok ((0 : ℚ), (((s.x.length : ℤ) - 1 : ℤ) : ℚ), m)
      else if jump = 1 then
        forEach (List.range s.x.length)
          (denseStep shared .linear (s.x.length : ℤ) ((width + 1).tdiv 2))
          (0, ((width - 1 : ℤ) : ℚ), ⟨s, retVal⟩)
      else
        strideLoop (sparseStep shared .linear (s.x.length : ℤ) width ((width + 1).tdiv 2))
          (fun _ => false) (s.x.length : ℤ) jump ((s.x.length : ℤ).toNat + 1) 0
          (-1, -1, ⟨s, retVal⟩)) = .ok st ∧
      MemInv shared s retVal.length st.2.2 ∧
      (jump ≠ 1 → ∃ l r : ℤ, st.1 = (l : ℚ) ∧ st.2.1 = (r : ℚ) ∧
        (r < l ∨ (0 ≤ l ∧ r < (s.x.length : ℤ))) ∧
        ((l : ℚ), (r : ℚ)) = smoothWindow (s.x.length : ℤ) width jump
          (((s.x.length : ℤ) - 1).tdiv jump * jump).toNat) ∧
      (shared = false → ∀ k : ℕ, k < s.x.length → jump ∣ (k : ℤ) →
        getI st.2.2.retVal (k : ℤ) = pointOrRaw s .linear (k : ℤ)
          (smoothWindow (s.x.length : ℤ) width jump k).1
          (smoothWindow (s.x.length : ℤ) width jump k).2) := by
  have h0 : MemInv shared s retVal.length ⟨s, retVal⟩ :=
    ⟨rfl, rfl, rfl, rfl, rfl, fun _ => rfl, hsh⟩
  obtain ⟨d1, d2, d3, d4⟩ := @lastSmoothedPos_spec ((s.x.length : ℤ) - 1) jump (by omega) hj
  have hp : (((((s.x.length : ℤ) - 1).tdiv jump * jump).toNat : ℕ) : ℤ)
      = ((s.x.length : ℤ) - 1).tdiv jump * jump := Int.toNat_of_nonneg d2
  by_cases hw : width ≥ (s.x.length : ℤ)
  · rw [if_pos hw]
    obtain ⟨m1, i1, hm1, hinv, _, _, _, _, hval⟩ :=
      @sample_spec _ shared s retVal.length jump
        (fun m : Mem => m)
        (fun i m => regressInto shared .linear i 0 (((s.x.length : ℤ) - 1 : ℤ) : ℚ) m)
        (fun i => decide (i + jump > (s.x.length : ℤ)))
        (fun _ => ((0 : ℤ), (s.x.length : ℤ) - 1)) (fun _ _ => True)
        hlen hn hL hj (fun i hs => by simp at hs; omega)
        (fun i _ _ => Or.inr ⟨le_refl 0, by dsimp only; omega⟩)
        (fun i st m1 _ _ hr => ⟨m1, by simpa using hr, rfl, trivial⟩)
        ⟨s, retVal⟩ h0 trivial
    rw [hm1, Outcome.bind_ok]
    refine ⟨_, rfl, hinv, fun _ => ⟨0, (s.x.length : ℤ) - 1, by simp, rfl,
      Or.inr ⟨le_refl 0, by omega⟩, ?_⟩, fun hs k hk hkd => ?_⟩
    · simp [smoothWindow, hw]
    · have := hval hs (k : ℤ) (by omega) (by omega) hkd
      simp only [smoothWindow, hw, if_true]
      simpa using this
  · rw [if_neg hw]
    by_cases hj1 : jump = 1
    · rw [if_pos hj1]
      obtain ⟨st1, hst1, hinv, hval⟩ := @dense_spec shared _ _ _ width h0 hlen
        hn hL (by omega)
      refine ⟨st1, hst1, hinv, fun hc => absurd hj1 hc, fun hs k hk _ => ?_⟩
      simp only [smoothWindow, hw, hj1, if_true, if_false]
      exact hval hs k hk
    · rw [if_neg hj1]
      obtain ⟨st1, i1, hst1, hinv, hE, hd, hge, hlt, hval⟩ :=
        @sample_spec _ shared s retVal.length jump
          (fun st : ℚ × ℚ × Mem => st.2.2)
          (sparseStep shared .linear (s.x.length : ℤ) width ((width + 1).tdiv 2))
          (fun _ => false)
          (fun i => (sparseLeft (s.x.length : ℤ) width ((width + 1).tdiv 2) i,
            sparseLeft (s.x.length : ℤ) width ((width + 1).tdiv 2) i + (width - 1)))
          (fun i st => i = 0 ∨
            (st.1 = ((sparseLeft (s.x.length : ℤ) width ((width + 1).tdiv 2) (i - jump) : ℤ) : ℚ) ∧
              st.2.1 = ((sparseLeft (s.x.length : ℤ) width ((width + 1).tdiv 2) (i - jump)
                + (width - 1) : ℤ) : ℚ)))
          hlen hn hL hj (fun i hs => by simp at hs)
          (fun i _ _ => sparse_valid (by omega))
          (fun i st m1 _ _ hr => by
            refine ⟨(((sparseLeft (s.x.length : ℤ) width ((width + 1).tdiv 2) i : ℤ) : ℚ),
              ((sparseLeft (s.x.length : ℤ) width ((width + 1).tdiv 2) i + (width - 1) : ℤ) : ℚ),
              m1), ?_, rfl, Or.inr ⟨by simp, by simp⟩⟩
            unfold sparseStep
            simp only
            have hc : ((sparseLeft (s.x.length : ℤ) width ((width + 1).tdiv 2) i : ℤ) : ℚ)
                + ((width - 1 : ℤ) : ℚ)
                = ((sparseLeft (s.x.length : ℤ) width ((width + 1).tdiv 2) i + (width - 1) : ℤ) : ℚ) := by
              push_cast; ring
            rw [hc]
            simp only at hr
            rw [hr, Outcome.bind_ok])
          (-1, -1, ⟨s, retVal⟩) h0 (Or.inl rfl)
      have hi1 : i1 - jump = ((s.x.length : ℤ) - 1).tdiv jump * jump :=
        (lastSmoothedPos_eq (by omega) hj (Dvd.dvd.sub hd (dvd_refl _)) (by omega)
          (by omega)).symm
      refine ⟨st1, hst1, hinv, fun _ => ?_, fun hs k hk hkd => ?_⟩
      · rcases hE with hE | ⟨hE1, hE2⟩
        · omega
        · rw [hi1] at hE1 hE2
          refine ⟨_, _, hE1, hE2, sparse_valid (by omega), ?_⟩
          unfold smoothWindow
          rw [hp]
          simp only [hw, hj1, d1, if_true, if_false, sparseWindow]
          push_cast
          rfl
      · have := hval hs (k : ℤ) (by omega) (by omega) hkd
        simp only [smoothWindow, hw, hj1, hkd, if_true, if_false, sparseWindow]
        simp only at this
        rw [this]
        push_cast
        rfl

/-- `smooth` with `Linear` on a non-empty series and a stride of at least one: it returns,
without error, and every exactly computed position (the multiples of `jump` and the final
index) holds the value of the regression over `smoothWindow`, or the raw value where that
regression reports an error. -/
theorem smooth_linear_spec {shared : Bool} {s : State} {width jump : ℤ} {retVal : List ℚ}
    (hlen : s.w.length = s.x.length) (hne : s.x.length ≠ 0) (hL : s.x.length ≤ retVal.length)
    (hj : 0 < jump) (hsh : shared = true → retVal = s.x) :
    ∃ s1 out, smooth shared s width jump .linear retVal = .ok (s1, out, none) ∧
      MemInv shared s retVal.length ⟨s1, out⟩ ∧
      (shared = false → ∀ i : ℕ, i < s.x.length → (jump ∣ (i : ℤ) ∨ i + 1 = s.x.length) →
        getI out (i : ℤ) =
          if s.x.length = 1 then getI s.x (i : ℤ)
          else pointOrRaw s .linear (i : ℤ)
            (smoothWindow (s.x.length : ℤ) width jump i).1
            (smoothWindow (s.x.length : ℤ) width jump i).2) := by
  have h0 : MemInv shared s retVal.length ⟨s, retVal⟩ :=
    ⟨rfl, rfl, rfl, rfl, rfl, fun _ => rfl, hsh⟩
  unfold smooth
  simp only
  by_cases h1 : s.x.length = 1
  · -- a single point is copied
    have hb : inBounds s.x.length 0 = true := by
      simp only [inBounds, Bool.and_eq_true, decide_eq_true_eq]; omega
    obtain ⟨m1, hm1, hv⟩ := @setRet_spec shared ⟨s, retVal⟩ 0 (getI s.x 0)
      (by show (0 : ℤ) ≤ 0 ∧ (0 : ℤ) < (retVal.length : ℤ); omega)
    rw [if_pos (by omega), if_pos hb, hm1, Outcome.bind_ok]
    refine ⟨m1.s, m1.retVal, rfl, setRet_inv h0 hm1, fun _ i hi _ => ?_⟩
    have hi0 : i = 0 := by omega
    subst hi0
    simp only [hv, h1, if_true]
    rw [Nat.cast_zero, getI_setI (le_refl 0) (le_refl 0), if_pos ⟨rfl, by omega⟩]
  · rw [if_neg (by omega)]
    have hn : 2 ≤ s.x.length := by omega
    obtain ⟨st, hst, hinv, hwin, hval⟩ := @smooth_sampled_spec shared _ width _ _
      hlen hn hL hj hsh
    rw [hst, Outcome.bind_ok]
    by_cases hj1 : jump = 1
    · rw [if_neg (by simpa using hj1)]
      refine ⟨_, _, rfl, hinv, fun hs i hi _ => ?_⟩
      rw [if_neg h1]
      exact hval hs i hi (by rw [hj1]; exact one_dvd _)
    · rw [if_pos hj1]
      obtain ⟨l, r, hl, hr, hvalid, hlw⟩ := hwin hj1
      obtain ⟨m1, hm1, hinv1, hkeep1⟩ := @interpolate_spec _ _ _ _ (s.x.length : ℤ) _ hinv hj
        (by omega)
      rw [hm1, Outcome.bind_ok, hl, hr]
      obtain ⟨m2, hm2, hinv2, hkeep2, hlast⟩ := @smoothLast_spec _ _ _ _ jump _ _ hinv1 hlen hn hL hj
        hvalid
      rw [hm2, Outcome.bind_ok]
      refine ⟨_, _, rfl, hinv2, fun hs i hi hex => ?_⟩
      rw [if_neg h1]
      by_cases hd : jump ∣ (i : ℤ)
      · rw [hkeep2 _ (by omega) hd, hkeep1 _ (by omega) hd]
        exact hval hs i hi hd
      · have hil : (i : ℤ) = (s.x.length : ℤ) - 1 := by
          rcases hex with hex | hex
          · exact absurd hex hd
          · omega
        have hi' : i = s.x.length - 1 := by omega
        have hnd : ¬ jump ∣ ((s.x.length : ℤ) - 1) := hil ▸ hd
        subst hs
        rw [hil, hlast hnd, pointOrRaw_frame hinv1.frame _ _ _ hlen hvalid (by omega), hi',
          smoothWindow_last hn hj hnd, ← hlw]

end loess

/-! ## The entry points `Smooth` and `UnsafeSmooth`; inputs on which the code fails -/

namespace loess

theorem New_lengths (width : ℤ) (x : List ℚ) : (New width x).w.length = (New width x).x.length := by
  simp [New]

/-- `Smooth` with `Linear` on a non-empty series and a stride of at least one. -/
theorem Smooth_linear_spec (x : List ℚ) (width jump : ℤ) (hx : x ≠ []) (hj : 1 ≤ jump) :
    ∃ s1 out, Smooth x width jump .linear = .ok (s1, out, none) ∧ out.length = x.length ∧
      ∀ i : ℕ, i < x.length → (jump ∣ (i : ℤ) ∨ i + 1 = x.length) →
        out.getD i 0 =
          if x.length = 1 then x.getD i 0
          else pointOrRaw (New width x) .linear (i : ℤ)
            (smoothWindow (x.length : ℤ) width jump i).1
            (smoothWindow (x.length : ℤ) width jump i).2 := by
  have hne : x.length ≠ 0 := by simpa using hx
  obtain ⟨s1, out, h1, hinv, hval⟩ := @smooth_linear_spec false (New width x)
    width jump (List.replicate x.length (0 : ℚ))
    (New_lengths width x) hne (by simp [New]) (by omega) (fun hc => by simp at hc)
  refine ⟨s1, out, h1, ?_, fun i hi hex => ?_⟩
  · have := hinv.1
    simpa using this
  · have := hval rfl i hi hex
    rw [getI_natCast, getI_natCast] at this
    exact this

end loess

/-- C5: on a non-empty series, with any width and a stride of at least one, `Smooth` and
`UnsafeSmooth` on a state made by `New` with a fresh buffer of the length of the series both
return, without error, the same sequence, of the length of the series. -/
theorem Smooth_and_UnsafeSmooth_agree (a : List ℚ) (width jump : ℤ) (ha : a ≠ [])
    (hj : 1 ≤ jump) :
    ∃ s1 out, Smooth a width jump .linear = .ok (s1, out, none) ∧
      UnsafeSmooth (New width a) width jump .linear (.buf (List.replicate a.length 0))
        = .ok (s1, out, none) ∧
      out.length = a.length := by
  obtain ⟨s1, out, h1, h2, _⟩ := Smooth_linear_spec a width jump ha hj
  refine ⟨s1, out, h1, ?_, h2⟩
  rw [← h1]
  simp [UnsafeSmooth, loess.Smooth, New]

/-- C5 witness: the two entry points on four points with width 3 and stride 2. -/
theorem Smooth_and_UnsafeSmooth_agree_witness :
    ∃ s1 out, Smooth [1, 2, 4, 3] 3 2 .linear = .ok (s1, out, none) ∧
      UnsafeSmooth (New 3 [1, 2, 4, 3]) 3 2 .linear
        (.buf (List.replicate ([1, 2, 4, 3] : List ℚ).length 0)) = .ok (s1, out, none) ∧
      out.length = ([1, 2, 4, 3] : List ℚ).length :=
  Smooth_and_UnsafeSmooth_agree [1, 2, 4, 3] 3 2 (by decide) (by decide)

/-- C6: on a non-empty series with a stride of at least one and any width, a local
regression that fails never fails the smooth.  `Smooth` with `Linear` returns with a `nil`
error; at every exactly computed index (a multiple of `jump`, or the final index) the output
is the raw value `x[i]` if `Regress` over the window of that index reports an error, and the
value of `Regress` otherwise.  Whatever the kernel, a result that `Smooth` returns carries no
error. -/
theorem Smooth_point_failure_falls_back (x : List ℚ) (width jump : ℤ) (hx : x ≠ [])
    (hj : 1 ≤ jump) :
    (∀ fn s1 out e, Smooth x width jump fn = .ok (s1, out, e) → e = none) ∧
    ∃ s1 out, Smooth x width jump .linear = .ok (s1, out, none) ∧ out.length = x.length ∧
      ∀ i : ℕ, i < x.length → (jump ∣ (i : ℤ) ∨ i + 1 = x.length) →
        (∀ s2 v e, Regress (New width x) .linear ((i : ℤ) : ℚ)
            (smoothWindow (x.length : ℤ) width jump i).1
            (smoothWindow (x.length : ℤ) width jump i).2 = .ok (s2, v, some e) →
          out.getD i 0 = x.getD i 0) ∧
        (x.length ≠ 1 → ∀ s2 v, Regress (New width x) .linear ((i : ℤ) : ℚ)
            (smoothWindow (x.length : ℤ) width jump i).1
            (smoothWindow (x.length : ℤ) width jump i).2 = .ok (s2, v, none) →
          out.getD i 0 = v) := by
  refine ⟨fun fn s1 out e h => (smooth_inv (fun hc => by simp at hc) h).1, ?_⟩
  obtain ⟨s1, out, h1, h2, hval⟩ := Smooth_linear_spec x width jump hx hj
  refine ⟨s1, out, h1, h2, fun i hi hex => ⟨fun s2 v e hr => ?_, fun hn s2 v hr => ?_⟩⟩
  · rw [hval i hi hex]
    split
    · rfl
    · have hf := Regress_frame hr
      unfold pointOrRaw
      rw [hr]
      simp only
      rw [hf.1, getI_natCast]
      rfl
  · rw [hval i hi hex, if_neg hn]
    unfold pointOrRaw
    rw [hr]

/-- C6 witness: with width 0 every regression of `[1, 2, 4, 3]` fails, with stride 2 the
indices 0, 2 and 3 are exactly computed, and the smooth still returns. -/
theorem Smooth_point_failure_falls_back_witness :
    ∃ s1 out, Smooth [1, 2, 4, 3] 0 2 .linear = .ok (s1, out, none) ∧
      out.length = ([1, 2, 4, 3] : List ℚ).length := by
  obtain ⟨_, s1, out, h1, h2, _⟩ :=
    Smooth_point_failure_falls_back [1, 2, 4, 3] 0 2 (by decide) (by decide)
  exact ⟨s1, out, h1, h2⟩

/-- C7: `UnsafeSmooth` on a non-empty series with a stride of at least one.  Whatever the
kernel, it returns an error exactly when the width kept in the state differs from the
requested width or a buffer is passed that is shorter than the series, and an error comes
with no result.  With a `nil` buffer and matching widths, a zero-filled buffer of the length
of the series is handed to `smooth`; every result has that length, and with `Linear` the call
returns one. -/
theorem UnsafeSmooth_error_iff (s : State) (width jump : ℤ) (retVal : RetVal)
    (hx : s.x ≠ []) (hj : 1 ≤ jump) (hlen : s.w.length = s.x.length) :
    (∀ fn, (∃ s1 out e, UnsafeSmooth s width jump fn retVal = .ok (s1, out, some e)) ↔
      (s.width ≠ width ∨ ∃ b, retVal = .buf b ∧ b.length < s.x.length)) ∧
    (∀ fn s1 out e, UnsafeSmooth s width jump fn retVal = .ok (s1, out, some e) → out = []) ∧
    (s.width = width →
      (∀ fn, UnsafeSmooth s width jump fn .nil
        = smooth false s width jump fn (List.replicate s.x.length 0)) ∧
      (∀ fn s1 out e, UnsafeSmooth s width jump fn .nil = .ok (s1, out, e) →
        out.length = s.x.length) ∧
      ∃ s1 out, UnsafeSmooth s width jump .linear .nil = .ok (s1, out, none) ∧
        out.length = s.x.length) := by
  have hne : s.x.length ≠ 0 := by simpa using hx
  have hnil : s.width = width → ∀ fn, UnsafeSmooth s width jump fn .nil
      = smooth false s width jump fn (List.replicate s.x.length 0) := by
    intro hw fn
    simp [UnsafeSmooth, hw]
  have hshared : ∀ b : List ℚ,
      (match retVal with
        | .nil => List.replicate s.x.length 0
        | .buf b => b
        | .inPlace => s.x) = b → decide (retVal = .inPlace) = true → b = s.x := by
    intro b hb hd
    have : retVal = .inPlace := by simpa using hd
    subst this
    exact hb.symm
  refine ⟨fun fn => ⟨?_, ?_⟩, ?_, fun hw => ⟨hnil hw, ?_, ?_⟩⟩
  · rintro ⟨s1, out, e, h⟩
    unfold UnsafeSmooth at h
    split at h
    · rename_i hne'; exact Or.inl hne'
    · simp only at h
      split at h
      · rename_i hshort
        right
        cases retVal with
        | nil => simp at hshort
        | buf b => exact ⟨b, rfl, hshort⟩
        | inPlace => simp at hshort
      · have := (smooth_inv (hshared _ rfl) h).1
        simp at this
  · intro hc
    unfold UnsafeSmooth
    by_cases hw : s.width = width
    · rcases hc with hc | ⟨b, rfl, hb⟩
      · exact absurd hw hc
      · rw [if_neg (by simpa using hw)]
        simp only [hb, if_true]
        exact ⟨_, _, _, rfl⟩
    · rw [if_pos hw]
      exact ⟨_, _, _, rfl⟩
  · intro fn s1 out e h
    unfold UnsafeSmooth at h
    split at h
    · simp at h; exact h.2.1
    · simp only at h
      split at h
      · simp at h; exact h.2.1
      · have := (smooth_inv (hshared _ rfl) h).1
        simp at this
  · intro fn s1 out e h
    rw [hnil hw] at h
    have := (smooth_inv (fun hc => by simp at hc) h).2.1
    simpa using this
  · rw [hnil hw]
    obtain ⟨s1, out, h1, hinv, _⟩ := @smooth_linear_spec false s
      width jump (List.replicate s.x.length (0 : ℚ))
      hlen hne (by simp) (by omega) (fun hc => by simp at hc)
    exact ⟨s1, out, h1, by simpa using hinv.1⟩

/-- C7 witness: a state of width 3 asked to smooth with width 5 returns an error. -/
theorem UnsafeSmooth_error_iff_witness :
    ∃ s1 out e, UnsafeSmooth (New 3 [1, 2, 4, 3]) 5 1 .linear .nil = .ok (s1, out, some e) :=
  ((UnsafeSmooth_error_iff (New 3 [1, 2, 4, 3]) 5 1 .nil (by decide) (by decide)
    (by decide)).1 .linear).mpr (Or.inl (by decide))

/-- C4, at an input where the code fails: the empty series with stride 2.  No sampled index
exists, `last` is `-1` and `(last / jump) * jump` is `0`, so the tail of `smooth` regresses
the "final index" and stores at `retVal[-1]`: a run-time panic instead of an empty result. -/
theorem Smooth_empty_series_panics : loess.Smooth [] 1 2 .linear = .panicked := by
  decide!

/-- With stride 1 the same empty series is smoothed to the empty series. -/
theorem Smooth_empty_series_stride_one :
    loess.Smooth [] 1 1 .linear = .ok (New 1 [], [], none) := by
  decide!

/-- The `Quadratic` kernel enters its loop on five points with width 5 and never leaves
it. -/
theorem Smooth_quadratic_five_points_diverges :
    loess.Smooth [1, 2, 3, 4, 5] 5 1 .quadratic = .diverged := by
  decide!

/-- In the sparse sampling loop of `smooth` with stride `0` on two points, every amount of
fuel is used up: the counter stays at `0`. -/
theorem sparse_stride_zero_diverges (s : State) (retVal : List ℚ) (width : ℤ)
    (hlen : s.w.length = s.x.length) (hn : 2 ≤ s.x.length) (hL : s.x.length ≤ retVal.length)
    (hwd : width < (s.x.length : ℤ)) (fuel : ℕ) :
    strideLoop (sparseStep false .linear (s.x.length : ℤ) width ((width + 1).tdiv 2))
      (fun _ => false) (s.x.length : ℤ) 0 fuel 0 (-1, -1, ⟨s, retVal⟩) = .diverged := by
  have key : ∀ (fuel : ℕ) (st : ℚ × ℚ × Mem), MemInv false s retVal.length st.2.2 →
      strideLoop (sparseStep false .linear (s.x.length : ℤ) width ((width + 1).tdiv 2))
        (fun _ => false) (s.x.length : ℤ) 0 fuel 0 st = .diverged := by
    intro fuel
    induction fuel with
    | zero => intro st _; rfl
    | succ n ih =>
      intro st hst
      obtain ⟨m1, hm1, hinv1, _⟩ := regressInto_linear_spec (i := 0)
        (l := sparseLeft (s.x.length : ℤ) width ((width + 1).tdiv 2) 0)
        (r := sparseLeft (s.x.length : ℤ) width ((width + 1).tdiv 2) 0 + (width - 1))
        hst hlen (by omega) hL (by omega) (sparse_valid hwd)
      have hc : ((sparseLeft (s.x.length : ℤ) width ((width + 1).tdiv 2) 0 : ℤ) : ℚ)
          + ((width - 1 : ℤ) : ℚ)
          = ((sparseLeft (s.x.length : ℤ) width ((width + 1).tdiv 2) 0 + (width - 1) : ℤ) : ℚ) := by
        push_cast; ring
      have hpos : (0 : ℤ) < (s.x.length : ℤ) := by omega
      simp only [strideLoop, hpos, if_true, sparseStep, hc, hm1, Outcome.bind_ok, add_zero]
      exact ih _ hinv1
  exact key fuel _ ⟨rfl, rfl, rfl, rfl, rfl, fun _ => rfl, fun hc => by simp at hc⟩

/-- C3, at an input where the code fails: four points, periodicity 2, width 1 and no option.
The default seasonal stride is `int(0.1 * 1) = 0`.  The first sub-series, `[1, 3]`, has two
points, more than the width, so `smooth` enters its sparse sampling loop with `i += 0`: the
loop uses up every amount of fuel, and `Decompose` never returns. -/
theorem Decompose_default_stride_zero_diverges :
    (stl.DefaultSeasonal 1).Jump = 0 ∧
      (∀ fuel : ℕ,
        strideLoop (sparseStep false .linear 2 1 ((1 + 1 : ℤ).tdiv 2)) (fun _ => false) 2 0 fuel 0
          (-1, -1, ⟨NewWithExternal 1 [1, 3] [0, 0], [0, 0, 0]⟩) = .diverged) ∧
      stl.Decompose [1, 2, 3, 4] 2 1 stl.Additive [] = .diverged := by
  refine ⟨by decide!, fun fuel => ?_, by decide!⟩
  exact sparse_stride_zero_diverges (NewWithExternal 1 [1, 3] [0, 0]) [0, 0, 0] 1
    (by decide) (by decide) (by decide) (by decide) fuel

/-! ## Options and errors of `Decompose` -/


/-- No option touches the two smoothers that `newState` has built. -/
theorem stl.Opt.apply_scstate (o : Opt) (s : state) :
    (o.apply s).scstate = s.scstate ∧ (o.apply s).sstateWidth = s.sstateWidth := by
  cases o <;> exact ⟨rfl, rfl⟩

theorem stl.foldl_apply_scstate (opts : List Opt) (s : state) :
    (opts.foldl (fun s o => o.apply s) s).scstate = s.scstate ∧
      (opts.foldl (fun s o => o.apply s) s).sstateWidth = s.sstateWidth := by
  induction opts generalizing s with
  | nil => exact ⟨rfl, rfl⟩
  | cons o opts ih =>
    simp only [List.foldl_cons]
    exact ⟨(ih _).1.trans (stl.Opt.apply_scstate o s).1,
      (ih _).2.trans (stl.Opt.apply_scstate o s).2⟩

theorem stl.newState_scstate (X : List ℚ) (P W : ℤ) (opts : List Opt) :
    (newState X P W opts).scstate
        = newSubcycleState (DefaultSeasonal W) (X.length : ℤ) P 1 1 ∧
      (newState X P W opts).sstateWidth = (DefaultTrend P W).Width := by
  unfold newState
  exact ⟨(stl.foldl_apply_scstate opts _).1, (stl.foldl_apply_scstate opts _).2⟩

/-- The steps of `Decompose` do not read the field `sConf`: they commute with a change of
that field. -/
theorem stl.doDetrend_sConf (s : state) (c : Config) :
    state.doDetrend { s with sConf := c }
      = (state.doDetrend s).bind fun s1 => .ok { s1 with sConf := c } := by
  unfold state.doDetrend
  dsimp only
  split_ifs <;> rfl

theorem stl.smoothSubcycles_sConf (s : state) (c : Config) (u : Bool) :
    state.smoothSubcycles { s with sConf := c } u
      = (state.smoothSubcycles s u).bind fun r => .ok ({ r.1 with sConf := c }, r.2) := by
  unfold state.smoothSubcycles
  dsimp only
  cases smoothSeasonal s.scstate s.detrend (if u = true then s.weights else []) s.extendedSeasonal <;> rfl

theorem stl.removeSeasonality_sConf (s : state) (c : Config) :
    state.removeSeasonality { s with sConf := c }
      = (state.removeSeasonality s).bind fun r => .ok ({ r.1 with sConf := c }, r.2) := by
  unfold state.removeSeasonality
  dsimp only
  cases ma s.extendedSeasonal s.periodicity <;> try rfl
  rename_i m1
  simp only [Outcome.bind_ok]
  cases ma m1 s.periodicity <;> try rfl
  rename_i m2
  simp only [Outcome.bind_ok]
  cases ma m2 3 <;> try rfl
  rename_i m3
  simp only [Outcome.bind_ok]
  cases loess.Smooth m3 s.lConf.Width s.lConf.Jump s.lConf.Fn <;> rfl

theorem stl.updateSeasonalAndTrend_sConf (s : state) (c : Config) (u : Bool) :
    state.updateSeasonalAndTrend { s with sConf := c } u
      = (state.updateSeasonalAndTrend s u).bind fun r => .ok ({ r.1 with sConf := c }, r.2) := by
  unfold state.updateSeasonalAndTrend
  dsimp only
  split_ifs
  · generalize UnsafeSmooth _ s.tConf.Width s.tConf.Jump s.tConf.Fn RetVal.inPlace = r
    cases r <;> rfl
  · rfl

theorem stl.updateWeights_sConf (s : state) (c : Config) :
    state.updateWeights { s with sConf := c }
      = (state.updateWeights s).bind fun s1 => .ok { s1 with sConf := c } := by
  unfold state.updateWeights
  dsimp only
  split_ifs <;> rfl

theorem forEach_comm {α σ : Type} (g : σ → σ) (f : α → σ → Outcome σ)
    (h : ∀ a s, f a (g s) = (f a s).bind fun s1 => .ok (g s1)) (l : List α) (s : σ) :
    forEach l f (g s) = (forEach l f s).bind fun s1 => .ok (g s1) := by
  induction l generalizing s with
  | nil => rfl
  | cons a l ih =>
    simp only [forEach, h]
    cases f a s <;> simp [ih]

theorem stl.innerPass_sConf (o i : ℤ) (u : Bool) (s : state) (c : Config) :
    innerPass o i u { s with sConf := c }
      = (innerPass o i u s).bind fun s1 => .ok { s1 with sConf := c } := by
  unfold innerPass
  rw [stl.doDetrend_sConf]
  cases state.doDetrend s <;> try rfl
  rename_i s1
  simp only [Outcome.bind_ok]
  rw [stl.smoothSubcycles_sConf]
  cases state.smoothSubcycles s1 u <;> try rfl
  rename_i r1
  simp only [Outcome.bind_ok]
  cases r1.2 with
  | some e => rfl
  | none =>
    simp only
    rw [stl.removeSeasonality_sConf]
    cases state.removeSeasonality r1.1 <;> try rfl
    rename_i r2
    simp only [Outcome.bind_ok]
    cases r2.2 with
    | some e => rfl
    | none =>
      simp only
      rw [stl.updateSeasonalAndTrend_sConf]
      cases state.updateSeasonalAndTrend r2.1 u <;> try rfl
      rename_i r3
      simp only [Outcome.bind_ok]
      cases r3.2 <;> rfl

theorem stl.outerPass_sConf (o : ℤ) (s : state) (c : Config) :
    outerPass o { s with sConf := c }
      = (outerPass o s).bind fun s1 => .ok { s1 with sConf := c } := by
  unfold outerPass
  by_cases he : s.Err.isSome
  · simp only [he, if_true, Outcome.bind_ok]
  · simp only [he, Bool.false_eq_true, if_false]
    rw [forEach_comm (fun s : state => { s with sConf := c })]
    · cases forEach (intRange 0 s.innerIter)
        (fun i s => if s.Err.isSome then .ok s else innerPass o i (decide (o > 0)) s) s <;>
        try rfl
      rename_i s1
      simp only [Outcome.bind_ok]
      by_cases he1 : s1.Err.isSome
      · simp only [he1, if_true, Outcome.bind_ok]
      · simp only [he1, Bool.false_eq_true, if_false]
        exact stl.updateWeights_sConf s1 c
    · intro i s2
      by_cases he2 : s2.Err.isSome
      · simp only [he2, if_true, Outcome.bind_ok]
      · simp only [he2, Bool.false_eq_true, if_false]
        exact stl.innerPass_sConf o i _ s2 c

theorem stl.Opt.apply_sConf (o : Opt) (s : state) (c : Config) :
    ∃ c1, o.apply { s with sConf := c } = { o.apply s with sConf := c1 } := by
  cases o with
  | WithSeasonalConfig c2 => exact ⟨c2, rfl⟩
  | WithTrendConfig c2 => exact ⟨c, rfl⟩
  | WithLowpassConfig c2 => exact ⟨c, rfl⟩
  | WithRobustIter n => exact ⟨c, rfl⟩
  | WithIter n => exact ⟨c, rfl⟩

theorem stl.foldl_apply_sConf (opts : List Opt) (s : state) (c : Config) :
    ∃ c1, opts.foldl (fun s o => o.apply s) { s with sConf := c }
      = { opts.foldl (fun s o => o.apply s) s with sConf := c1 } := by
  induction opts generalizing s c with
  | nil => exact ⟨c, rfl⟩
  | cons o opts ih =>
    simp only [List.foldl_cons]
    obtain ⟨c1, h1⟩ := stl.Opt.apply_sConf o s c
    rw [h1]
    exact ih _ c1

/-- An option `WithSeasonalConfig` changes nothing in what `Decompose` does. -/
theorem stl.Decompose_seasonal_override (X : List ℚ) (periodicity width : ℤ) (m : stl.ModelType)
    (c : stl.Config) (before after : List stl.Opt) :
    stl.Decompose X periodicity width m (before ++ stl.Opt.WithSeasonalConfig c :: after)
      = stl.Decompose X periodicity width m (before ++ after) := by
  unfold stl.Decompose
  split_ifs with h1 h2
  · rfl
  · rfl
  · have hs : ∃ c1, newState (m.Fwd X) periodicity width (before ++ Opt.WithSeasonalConfig c :: after)
        = { newState (m.Fwd X) periodicity width (before ++ after) with sConf := c1 } := by
      unfold newState
      simp only [List.foldl_append, List.foldl_cons]
      exact stl.foldl_apply_sConf after _ c
    obtain ⟨c1, hs⟩ := hs
    simp only []
    rw [hs]
    generalize newState (m.Fwd X) periodicity width (before ++ after) = s
    have hr : (forEach (intRange 0 (s.robustIter + 1)) outerPass { s with sConf := c1 })
        = (forEach (intRange 0 (s.robustIter + 1)) outerPass s).bind
            fun s1 => .ok { s1 with sConf := c1 } :=
      forEach_comm (fun s : state => { s with sConf := c1 }) outerPass
        (fun o s => stl.outerPass_sConf o s c1) _ s
    show (forEach (intRange 0 (s.robustIter + 1)) outerPass { s with sConf := c1 }).bind _ = _
    rw [hr]
    cases forEach (intRange 0 (s.robustIter + 1)) outerPass s <;> rfl

/-- The three smoothing steps: the error each can return, and the fields each keeps. -/
theorem stl.smoothSubcycles_err {s s1 : state} {u : Bool} {e : Option loess.Err}
    (h : s.smoothSubcycles u = .ok (s1, e)) : e = none ∧ s1.Err = s.Err ∧
      s1.tConf = s.tConf ∧ s1.sstateWidth = s.sstateWidth := by
  unfold state.smoothSubcycles smoothSeasonal computeSmoothedSubSeries at h
  simp only [Outcome.bind_eq_ok] at h
  obtain ⟨r, ⟨sc, _, r1, ⟨rows, _, hr1⟩, hr⟩, h⟩ := h
  simp only [Outcome.ok.injEq] at hr1
  subst hr1
  simp only [Outcome.ok.injEq] at hr
  subst hr
  simp only [Outcome.ok.injEq, Prod.mk.injEq] at h
  obtain ⟨rfl, rfl⟩ := h
  exact ⟨rfl, rfl, rfl, rfl⟩

theorem stl.removeSeasonality_err {s s1 : state} {e : Option loess.Err}
    (h : s.removeSeasonality = .ok (s1, e)) : e = none ∧ s1.Err = s.Err ∧
      s1.tConf = s.tConf ∧ s1.sstateWidth = s.sstateWidth := by
  unfold state.removeSeasonality at h
  simp only [Outcome.bind_eq_ok] at h
  obtain ⟨m1, _, m2, _, m3, _, r, hr, h⟩ := h
  simp only [Outcome.ok.injEq, Prod.mk.injEq] at h
  obtain ⟨rfl, rfl⟩ := h
  obtain ⟨r1, r2, r3⟩ := r
  have := (smooth_inv (fun hf => by simp at hf) hr).1
  exact ⟨this, rfl, rfl, rfl⟩

theorem stl.updateSeasonalAndTrend_err {s s1 : state} {u : Bool} {e : Option loess.Err}
    (h : s.updateSeasonalAndTrend u = .ok (s1, e)) :
    (e = if s.sstateWidth = s.tConf.Width then none
          else some (.widthMismatch s.sstateWidth s.tConf.Width)) ∧
      s1.Err = s.Err ∧ s1.tConf = s.tConf ∧ s1.sstateWidth = s.sstateWidth := by
  unfold state.updateSeasonalAndTrend at h
  simp only at h
  split at h
  · simp only [Outcome.bind_eq_ok] at h
    obtain ⟨r, hr, h⟩ := h
    simp only [Outcome.ok.injEq, Prod.mk.injEq] at h
    obtain ⟨rfl, rfl⟩ := h
    refine ⟨?_, rfl, rfl, rfl⟩
    unfold UnsafeSmooth at hr
    simp only at hr
    split at hr
    · rename_i hw
      simp only [Outcome.ok.injEq] at hr
      subst hr
      simp only [if_neg hw]
    · rename_i hw
      simp only [ne_eq, not_not] at hw
      rw [if_pos hw]
      simp only [lt_irrefl, if_false] at hr
      obtain ⟨r1, r2, r3⟩ := r
      exact (smooth_inv (fun _ => rfl) hr).1
  · exact absurd h (by simp)

/-- The only error a run of the passes can leave in `Err`: the trend width mismatch. -/
theorem stl.innerPass_err {o i : ℤ} {u : Bool} {s s1 : state}
    (he : innerPass o i u s = .ok s1) (hs : s.Err = none) :
    (s1.Err = if s.sstateWidth = s.tConf.Width then none
        else some (.updateSeasonalAndTrend o i
          (.widthMismatch s.sstateWidth s.tConf.Width))) ∧
      s1.tConf = s.tConf ∧ s1.sstateWidth = s.sstateWidth := by
  unfold innerPass at he
  simp only [Outcome.bind_eq_ok] at he
  obtain ⟨sa, ha, ⟨sb, eb⟩, hb, he⟩ := he
  have hsa : sa.Err = none ∧ sa.tConf = s.tConf ∧ sa.sstateWidth = s.sstateWidth := by
    unfold state.doDetrend at ha
    simp only at ha
    split at ha
    · simp at ha; subst ha; exact ⟨hs, rfl, rfl⟩
    · simp at ha
  obtain ⟨rfl, hb1, hb2, hb3⟩ := stl.smoothSubcycles_err hb
  simp only [Outcome.bind_eq_ok] at he
  obtain ⟨⟨sc, ec⟩, hc, he⟩ := he
  obtain ⟨rfl, hc1, hc2, hc3⟩ := stl.removeSeasonality_err hc
  simp only [Outcome.bind_eq_ok] at he
  obtain ⟨⟨sd, ed⟩, hd, he⟩ := he
  obtain ⟨hd0, hd1, hd2, hd3⟩ := stl.updateSeasonalAndTrend_err hd
  have htc : sc.tConf = s.tConf := hc2.trans (hb2.trans hsa.2.1)
  have hsw : sc.sstateWidth = s.sstateWidth := hc3.trans (hb3.trans hsa.2.2)
  have hce : sc.Err = none := hc1.trans (hb1.trans hsa.1)
  rw [htc, hsw] at hd0
  by_cases hw : s.sstateWidth = s.tConf.Width
  · rw [if_pos hw] at hd0 ⊢
    subst hd0
    simp only [Outcome.ok.injEq] at he
    subst he
    exact ⟨hd1.trans hce, hd2.trans htc, hd3.trans hsw⟩
  · rw [if_neg hw] at hd0 ⊢
    subst hd0
    simp only [Outcome.ok.injEq] at he
    subst he
    exact ⟨rfl, hd2.trans htc, hd3.trans hsw⟩

theorem stl.outerPass_err {o : ℤ} {s s1 : state} (he : outerPass o s = .ok s1) (tw dw : ℤ)
    (hs : s.tConf.Width = tw ∧ s.sstateWidth = dw ∧
      (s.Err = none ∨ ∃ o i, s.Err = some (.updateSeasonalAndTrend o i (.widthMismatch dw tw))
        ∧ dw ≠ tw)) :
    s1.tConf.Width = tw ∧ s1.sstateWidth = dw ∧
      (s1.Err = none ∨ ∃ o i, s1.Err = some (.updateSeasonalAndTrend o i (.widthMismatch dw tw))
        ∧ dw ≠ tw) := by
  unfold outerPass at he
  split at he
  · simp at he; subst he; exact hs
  · simp only [Outcome.bind_eq_ok] at he
    obtain ⟨sa, ha, he⟩ := he
    have hsa := forEach_inv (fun st : state => st.tConf.Width = tw ∧ st.sstateWidth = dw ∧
        (st.Err = none ∨ ∃ o i, st.Err = some (.updateSeasonalAndTrend o i (.widthMismatch dw tw))
          ∧ dw ≠ tw)) _ (by
      intro i st st1 hst hb
      split at hb
      · simp at hb; subst hb; exact hst
      · rename_i hn
        have hnone : st.Err = none := by
          cases hE : st.Err with
          | none => rfl
          | some e => rw [hE] at hn; simp at hn
        obtain ⟨h1, h2, h3⟩ := stl.innerPass_err hb hnone
        refine ⟨by rw [h2]; exact hst.1, h3.trans hst.2.1, ?_⟩
        rw [hst.1, hst.2.1] at h1
        by_cases hw : dw = tw
        · left; rw [h1, if_pos hw]
        · right; exact ⟨o, i, by rw [h1, if_neg hw], hw⟩) _ _ _ hs ha
    split at he
    · simp at he; subst he; exact hsa
    · rename_i hn
      unfold state.updateWeights at he
      simp only at he
      split at he
      · split at he
        · simp at he; subst he; exact hsa
        · simp at he
      · simp at he

theorem stl.newState_err (X : List ℚ) (P W : ℤ) (opts : List Opt) :
    (newState X P W opts).Err = none := by
  unfold newState
  simp only
  generalize hs : (⟨X, _, _, _, none, _, _, _, _, _, _, _, _, _, _, _, _, _, _, _⟩ : state) = s0
  have h0 : s0.Err = none := by subst hs; rfl
  clear hs
  induction opts generalizing s0 with
  | nil => exact h0
  | cons o opts ih =>
    simp only [List.foldl_cons]
    exact ih _ (by cases o <;> exact h0)

/-- Every error `Decompose` reports is one of the two argument checks or the width mismatch of
the trend smoother; no failing local regression is reported. -/
theorem stl.Decompose_err {X X1 : List ℚ} {P W : ℤ} {m : ModelType} {opts : List Opt}
    {r : Result} (he : Decompose X P W m opts = .ok (r, X1)) :
    r.Err = none ∨ r.Err = some .periodicity ∨ r.Err = some .width ∨
      ∃ o i, r.Err = some (.updateSeasonalAndTrend o i
        (.widthMismatch (DefaultTrend P W).Width (newState (m.Fwd X) P W opts).tConf.Width)) ∧
        (DefaultTrend P W).Width ≠ (newState (m.Fwd X) P W opts).tConf.Width := by
  unfold Decompose at he
  split at he
  · simp at he; right; left; rw [← he.1]
  · split at he
    · simp at he; right; right; left; rw [← he.1]
    · simp only [Outcome.bind_eq_ok] at he
      obtain ⟨s1, h1, he⟩ := he
      have hinit : (newState (m.Fwd X) P W opts).Err = none := stl.newState_err _ P W opts
      have h := forEach_inv (fun st : state =>
          st.tConf.Width = (newState (m.Fwd X) P W opts).tConf.Width ∧
          st.sstateWidth = (DefaultTrend P W).Width ∧
          (st.Err = none ∨ ∃ o i, st.Err = some (.updateSeasonalAndTrend o i
            (.widthMismatch (DefaultTrend P W).Width (newState (m.Fwd X) P W opts).tConf.Width))
            ∧ (DefaultTrend P W).Width ≠ (newState (m.Fwd X) P W opts).tConf.Width)) _
        (fun o st st1 hst hb => stl.outerPass_err hb _ _ hst) _ _ _
        ⟨rfl, (stl.newState_scstate _ P W opts).2, Or.inl hinit⟩ h1
      split at he
      · simp at he
        rw [← he.1]
        rcases h.2.2 with h | h
        · left; exact h
        · right; right; right; exact h
      · rename_i hn
        simp only [Outcome.bind_eq_ok] at he
        obtain ⟨r1, hr1, he⟩ := he
        simp at he
        rw [← he.1]
        left
        unfold updateResiduals at hr1
        simp only at hr1
        split at hr1
        · simp at hr1
          rw [← hr1]
          cases hE : s1.Err with
          | none => simpa [state.Result] using hE
          | some e => rw [hE] at hn; simp at hn
        · simp at hr1

/-- With the single option `WithTrendConfig c` whose width is not the default trend width,
a call of `Decompose` that returns reports the width mismatch of the first inner pass. -/
theorem stl.Decompose_trend_override_fails {X X1 : List ℚ} {P W : ℤ} {m : ModelType}
    {c : Config} {r : Result} (hP : 2 ≤ P) (hW : 1 ≤ W)
    (hc : c.Width ≠ (DefaultTrend P W).Width)
    (he : Decompose X P W m [.WithTrendConfig c] = .ok (r, X1)) :
    r.Err = some (.updateSeasonalAndTrend 0 0
      (.widthMismatch (DefaultTrend P W).Width c.Width)) := by
  unfold Decompose at he
  rw [if_neg (by omega), if_neg (by omega)] at he
  simp only [Outcome.bind_eq_ok] at he
  obtain ⟨s1, h1, he⟩ := he
  have hr : intRange 0 ((newState (m.Fwd X) P W [.WithTrendConfig c]).robustIter + 1) = [0] :=
    show intRange 0 (0 + 1) = [0] by decide
  have hi : intRange 0 (newState (m.Fwd X) P W [.WithTrendConfig c]).innerIter = [0, 1] :=
    show intRange 0 2 = [0, 1] by decide
  rw [hr] at h1
  simp only [forEach, Outcome.bind_eq_ok] at h1
  obtain ⟨s2, h2, h1⟩ := h1
  simp only [Outcome.ok.injEq] at h1
  subst h1
  unfold outerPass at h2
  rw [stl.newState_err, hi] at h2
  simp only [Option.isSome_none, Bool.false_eq_true, if_false, forEach, Outcome.bind_eq_ok,
    stl.newState_err] at h2
  obtain ⟨s3, ⟨s4, h4, s5, h5, h6⟩, h3⟩ := h2
  obtain ⟨h4e, -, -⟩ := stl.innerPass_err h4 (stl.newState_err _ P W _)
  have hw : (newState (m.Fwd X) P W [.WithTrendConfig c]).sstateWidth
      ≠ (newState (m.Fwd X) P W [.WithTrendConfig c]).tConf.Width := by
    rw [(stl.newState_scstate _ P W _).2]
    exact fun h => hc h.symm
  rw [if_neg hw, (stl.newState_scstate _ P W _).2] at h4e
  have htc : (newState (m.Fwd X) P W [.WithTrendConfig c]).tConf.Width = c.Width := rfl
  rw [htc] at h4e
  simp only [h4e, Option.isSome_some, if_true, Outcome.ok.injEq] at h5
  subst h5
  simp only [Outcome.ok.injEq] at h6
  subst h6
  simp only [h4e, Option.isSome_some, if_true, Outcome.ok.injEq] at h3
  subst h3
  simp only [h4e, Option.isSome_some, if_true, Outcome.ok.injEq, Prod.mk.injEq] at he
  rw [← he.1]
  exact h4e

/-! ## Regression weights, the moving average and the robustness weights -/

namespace loess

theorem bandwidth_congr_x (s : State) (x' : List ℚ) (hlen : x'.length = s.x.length)
    (a l r : ℚ) : bandwidth { s with x := x' } a l r = bandwidth s a l r := by
  unfold bandwidth
  simp only [hlen]

theorem localWeights_congr_x (s : State) (x' : List ℚ) (hlen : x'.length = s.x.length)
    (a l r : ℚ) :
    localWeights { s with x := x' } a l r
      = (localWeights s a l r).bind fun r1 => .ok ({ r1.1 with x := x' }, r1.2) := by
  unfold localWeights
  simp only [bandwidth_congr_x s x' hlen]
  split_ifs <;> rfl

theorem Linear_congr_x (s : State) (x' : List ℚ) (hlen : x'.length = s.x.length)
    (a l r : ℚ) :
    Linear { s with x := x' } a l r
      = (Linear s a l r).bind fun r2 => .ok ({ r2.1 with x := x' }, r2.2) := by
  unfold Linear
  simp only [hlen]
  split_ifs <;> rfl

/-- `Linear` leaves a weight that is zero at zero. -/
theorem Linear_keeps_zero {s s2 : State} {a : ℚ} {l r : ℤ} {e : Option Err}
    (h : Linear s a (l : ℚ) (r : ℚ) = .ok (s2, e)) (hb : r < l ∨ (0 ≤ l ∧ r < (s.w.length : ℤ)))
    (z : ℤ) (hz : 0 ≤ z) (h0 : getI s.w z = 0) : getI s2.w z = 0 := by
  unfold Linear at h
  simp only at h
  split at h
  · split at h
    · split at h
      · split at h
        · simp only [Outcome.ok.injEq, Prod.mk.injEq] at h
          rw [← h.1]; exact h0
        · exact absurd h (by simp)
      · simp only [Outcome.ok.injEq, Prod.mk.injEq] at h
        rw [← h.1]
        simp only
        rw [floatRange_intCast, List.foldl_map]
        simp only [truncToInt_intCast]
        generalize (a - _) / _ = beta
        generalize List.foldl (fun mean i => mean + i * getI s.w (truncToInt i)) 0 _ = mean
        rw [foldl_setI_getI (fun z old => old * (1 + beta * ((z : ℚ) - mean))) _
          (intRange_nodup _ _) _ (fun y hy => by rw [mem_intRange] at hy; omega) z hz]
        split
        · rw [h0, zero_mul]
        · exact h0
    · simp only [Outcome.ok.injEq, Prod.mk.injEq] at h
      rw [← h.1]; exact h0
  · exact absurd h (by simp)

end loess

/-- The sum of the `W` values of `data` from position `i` on. -/
theorem stl.windowTotal_succ (data : List ℚ) (W i : ℕ) :
    ((List.range W).map (fun (k : ℕ) => data.getD (i + 1 + k) 0)).sum
      = ((List.range W).map (fun (k : ℕ) => data.getD (i + k) 0)).sum
        + (data.getD (i + W) 0 - data.getD i 0) := by
  have h1 : ((List.range (W + 1)).map (fun (k : ℕ) => data.getD (i + k) 0)).sum
      = ((List.range W).map (fun (k : ℕ) => data.getD (i + k) 0)).sum + data.getD (i + W) 0 := by
    rw [List.range_succ, List.map_append, List.sum_append]
    simp
  have h2 : ((List.range (W + 1)).map (fun (k : ℕ) => data.getD (i + k) 0)).sum
      = data.getD i 0 + ((List.range W).map (fun (k : ℕ) => data.getD (i + 1 + k) 0)).sum := by
    rw [List.range_succ_eq_map, List.map_cons, List.sum_cons, List.map_map]
    simp only [add_zero]
    congr 2
    apply List.map_congr_left
    intro k _
    simp only [Function.comp, Nat.succ_eq_add_one]
    congr 1
    omega
  linarith

theorem stl.take_sum (data : List ℚ) (W : ℕ) (h : W ≤ data.length) :
    (data.take W).foldl (fun sum v => sum + v) 0
      = ((List.range W).map (fun (k : ℕ) => data.getD (0 + k) 0)).sum := by
  have := foldl_add_eq_sum (fun v : ℚ => v) (data.take W) 0
  simp only [List.map_id', zero_add] at this
  rw [this]
  congr 1
  apply List.ext_getElem
  · simp [h]
  · intro k h1 h2
    simp only [List.length_take, List.length_map, List.length_range] at h1 h2
    simp only [List.getElem_take, List.getElem_map, List.getElem_range, zero_add]
    rw [List.getD_eq_getElem?_getD, List.getElem?_eq_getElem (by omega)]
    rfl

/-- The loop of `ma` after `m` passes. -/
theorem stl.ma_loop (data : List ℚ) (W : ℕ) (R : List ℚ) (m : ℕ)
    (hm : m + 1 ≤ R.length) (h0 : getI R 0 = stl.windowedMean data W 0) :
    let acc := ((List.range m).map (fun (k : ℕ) => (1 : ℤ) + (k : ℤ))).foldl
      (fun (acc : ℚ × ℤ × ℤ × List ℚ) i =>
        (acc.1 + (getI data acc.2.2.1 - getI data acc.2.1), acc.2.1 + 1, acc.2.2.1 + 1,
          setI acc.2.2.2 i ((acc.1 + (getI data acc.2.2.1 - getI data acc.2.1)) / (W : ℚ))))
      (((List.range W).map (fun (k : ℕ) => data.getD (0 + k) 0)).sum, 0, (W : ℤ), R)
    acc.1 = ((List.range W).map (fun (k : ℕ) => data.getD (m + k) 0)).sum ∧
      acc.2.1 = (m : ℤ) ∧ acc.2.2.1 = (W : ℤ) + (m : ℤ) ∧ acc.2.2.2.length = R.length ∧
      ∀ i : ℕ, i ≤ m → getI acc.2.2.2 (i : ℤ) = stl.windowedMean data W i := by
  induction m with
  | zero =>
    simp only [List.range_zero, List.map_nil, List.foldl_nil]
    refine ⟨?_, ?_, ?_, ?_, fun i hi => ?_⟩
    · simp
    · simp
    · simp
    · trivial
    · have : i = 0 := by omega
      subst this
      simpa using h0
  | succ m ih =>
    have ih := ih (by omega)
    simp only at ih ⊢
    rw [List.range_succ, List.map_append, List.foldl_append]
    generalize ((List.range m).map (fun (k : ℕ) => (1 : ℤ) + (k : ℤ))).foldl _ _ = acc at ih ⊢
    obtain ⟨a1, a2, a3, a4⟩ := acc
    simp only at ih
    obtain ⟨rfl, rfl, rfl, hlen, hval⟩ := ih
    simp only [List.map_cons, List.map_nil, List.foldl_cons, List.foldl_nil]
    have hg1 : getI data ((W : ℤ) + (m : ℤ)) = data.getD (m + W) 0 := by
      rw [show (W : ℤ) + (m : ℤ) = ((m + W : ℕ) : ℤ) by push_cast; ring, getI_natCast]
    have hg2 : getI data (m : ℤ) = data.getD m 0 := getI_natCast _ _
    have hs := stl.windowTotal_succ data W m
    refine ⟨?_, by push_cast; ring, by push_cast; ring, by simp [hlen], fun i hi => ?_⟩
    · rw [hg1, hg2, hs]
    · rw [getI_setI (by omega) (by omega)]
      by_cases h : i = m + 1
      · subst h
        rw [if_pos ⟨by push_cast; ring, by rw [hlen]; omega⟩, hg1, hg2, ← hs]
        rfl
      · rw [if_neg (by intro hc; apply h; have := hc.1; omega)]
        exact hval i (by omega)


theorem getD_nonneg {l : List ℚ} (h : ∀ v ∈ l, 0 ≤ v) (k : ℕ) : 0 ≤ l.getD k 0 := by
  rw [List.getD_eq_getElem?_getD]
  cases hk : l[k]? with
  | none => simp
  | some v =>
    obtain ⟨hlt, hv⟩ := List.getElem?_eq_some_iff.mp hk
    simpa using h v (hv ▸ List.getElem_mem hlt)

theorem stl.mad6_nonneg (s : state) : 0 ≤ s.mad6 := by
  unfold state.mad6
  simp only
  have hs : ∀ v ∈ s.absResiduals.insertionSort (fun a b => a ≤ b), 0 ≤ v := by
    intro v hv
    have hv1 : v ∈ s.absResiduals := (List.perm_insertionSort _ _).mem_iff.mp hv
    unfold state.absResiduals at hv1
    simp only [List.mem_map] at hv1
    obtain ⟨i, _, rfl⟩ := hv1
    exact abs_nonneg _
  have h1 := getD_nonneg hs (((s.Data.length : ℤ) + 1).tdiv 2 - 1).toNat
  have h2 := getD_nonneg hs
    ((s.Data.length : ℤ) - (((s.Data.length : ℤ) + 1).tdiv 2 - 1) - 1).toNat
  unfold getI
  linarith

theorem stl.bisquare_low {m a : ℚ} (h : a ≤ 0.001 * m) : bisquare m a = 1 := by
  unfold bisquare
  rw [if_pos h]

theorem stl.bisquare_high {m a : ℚ} (hm : 0 ≤ m) (h : 0.999 * m < a) : bisquare m a = 0 := by
  unfold bisquare
  rw [if_neg (by intro hc; nlinarith), if_neg (not_le.mpr h)]

theorem stl.bisquare_mid {m a : ℚ} (h1 : 0.001 * m < a) (h2 : a ≤ 0.999 * m) :
    bisquare m a = (1 - (a / m) ^ 2) ^ 2 ∧ 0 < bisquare m a ∧ bisquare m a < 1 := by
  have hm : 0 < m := by nlinarith
  have hb : bisquare m a = (1 - (a / m) ^ 2) ^ 2 := by
    unfold bisquare
    rw [if_neg (not_le.mpr h1), if_pos h2]
    ring
  have hl : 0.001 < a / m := by
    rw [lt_div_iff₀ hm]; exact h1
  have hu : a / m ≤ 0.999 := by
    rw [div_le_iff₀ hm]; exact h2
  have hw1 : 0 < 1 - (a / m) ^ 2 := by nlinarith
  have hw2 : 1 - (a / m) ^ 2 < 1 := by nlinarith
  rw [hb]
  exact ⟨rfl, by positivity, by nlinarith⟩

theorem stl.bisquare_strictAnti {m a b : ℚ} (h1 : 0.001 * m < a) (hab : a < b)
    (h2 : b ≤ 0.999 * m) : bisquare m b < bisquare m a := by
  have hm : 0 < m := by nlinarith
  rw [(stl.bisquare_mid h1 (by linarith)).1, (stl.bisquare_mid (by linarith) h2).1]
  have hl : 0.001 < a / m := by
    rw [lt_div_iff₀ hm]; exact h1
  have hu : b / m ≤ 0.999 := by
    rw [div_le_iff₀ hm]; exact h2
  have hlt : a / m < b / m := div_lt_div_of_pos_right hab hm
  have hsq : (a / m) ^ 2 < (b / m) ^ 2 := by nlinarith
  have hwb : 0 < 1 - (b / m) ^ 2 := by nlinarith
  nlinarith

/-- `updateWeights` on a state whose buffers have the length of `Data`: it returns, and the
weight of index `i` is `bisquare` of `mad6` and the absolute residual. -/
theorem stl.updateWeights_spec (s : state) (hn : 0 < s.Data.length)
    (hR : s.Resid.length = s.Data.length) (hS : s.Seasonal.length = s.Data.length)
    (hT : s.Trend.length = s.Data.length) (hw : s.weights.length = s.Data.length) :
    ∃ s1, s.updateWeights = .ok s1 ∧ s1.weights.length = s.Data.length ∧
      ∀ i : ℕ, i < s.Data.length →
        s1.Resid.getD i 0 = s.Data.getD i 0 - s.Seasonal.getD i 0 - s.Trend.getD i 0 ∧
        s1.weights.getD i 0 = bisquare s.mad6
          |s.Data.getD i 0 - s.Seasonal.getD i 0 - s.Trend.getD i 0| := by
  have hwts : writePrefix s.Data.length
      (fun i => |(writePrefix s.Data.length
        (fun i => s.Data.getD i 0 - s.Seasonal.getD i 0 - s.Trend.getD i 0) s.Resid).getD i 0|)
      s.weights = s.absResiduals := by
    unfold state.absResiduals
    rw [writePrefix, List.drop_of_length_le (by omega), List.append_nil]
    apply List.map_congr_left
    intro i hi
    rw [List.mem_range] at hi
    rw [writePrefix_getD hi]
  have hlen : (s.absResiduals.insertionSort (fun a b => a ≤ b)).length = s.Data.length := by
    rw [List.length_insertionSort]
    simp [state.absResiduals]
  unfold state.updateWeights
  simp only
  rw [if_pos ⟨by omega, by omega, by omega, by omega⟩, hwts]
  have hb : (inBounds (s.absResiduals.insertionSort (fun a b => a ≤ b)).length
        (((s.Data.length : ℤ) + 1).tdiv 2 - 1) &&
      inBounds (s.absResiduals.insertionSort (fun a b => a ≤ b)).length
        ((s.Data.length : ℤ) - (((s.Data.length : ℤ) + 1).tdiv 2 - 1) - 1)) = true := by
    rw [hlen]
    have hd : ((s.Data.length : ℤ) + 1).tdiv 2 = ((s.Data.length : ℤ) + 1) / 2 :=
      Int.tdiv_eq_ediv (by omega) (by omega)
    simp only [inBounds, Bool.and_eq_true, decide_eq_true_eq, hd]
    omega
  rw [if_pos hb]
  refine ⟨_, rfl, ?_, fun i hi => ⟨?_, ?_⟩⟩
  · simp only
    rw [writePrefix_length (by rw [hlen])]
    exact hlen
  · simp only
    rw [writePrefix_getD hi]
  · simp only
    rw [writePrefix_getD hi, writePrefix_getD hi]
    rfl

namespace loess

theorem getI_all_zero {E : List ℚ} (h0 : ∀ v ∈ E, v = 0) (j : ℤ) : getI E j = 0 := by
  unfold getI
  rw [List.getD_eq_getElem?_getD]
  cases hk : E[j.toNat]? with
  | none => rfl
  | some v =>
    obtain ⟨hlt, hv⟩ := List.getElem?_eq_some_iff.mp hk
    simpa using h0 v (hv ▸ List.getElem_mem hlt)

/-- With external weights that are all zero and reach to the end of the weight buffer, every
local regression that returns reports an error: the total of the weights is zero. -/
theorem Regress_zero_external_weights {s s1 : State} {fn : WeightUpdate} {x left right v : ℚ}
    {e : Option Err} (h0 : ∀ v ∈ s.e, v = 0) (hl : s.w.length ≤ s.e.length)
    (h : Regress s fn x left right = .ok (s1, v, e)) : e ≠ none := by
  unfold Regress at h
  simp only [Outcome.bind_eq_ok] at h
  obtain ⟨⟨sa, ea⟩, ha, h⟩ := h
  have hea : ea ≠ none := by
    unfold localWeights at ha
    simp only at ha
    split at ha
    · simp only [Outcome.ok.injEq, Prod.mk.injEq] at ha
      rw [← ha.2]; simp
    · split at ha
      · rename_i hb
        rw [localWeightsStep_foldl] at ha
        have hsum : ((floatRange left right).map
            (rawWeight x (bandwidth s x left right) s.e)).sum = 0 := by
          apply List.sum_eq_zero
          intro q hq
          rw [List.mem_map] at hq
          obtain ⟨i, hi, rfl⟩ := hq
          have hin := (List.all_eq_true.mp hb) i hi
          simp only [inBounds, Bool.and_eq_true, decide_eq_true_eq] at hin
          unfold rawWeight
          split
          · rw [if_pos (by omega), getI_all_zero h0, mul_zero]
          · rfl
        simp only [hsum, add_zero, le_refl, if_true, Outcome.ok.injEq, Prod.mk.injEq] at ha
        rw [← ha.2]; simp
      · exact absurd ha (by simp)
  cases ea with
  | none => exact absurd rfl hea
  | some err =>
    simp only [Outcome.ok.injEq, Prod.mk.injEq] at h
    rw [← h.2.2]; simp

end loess

/-! ## Zero external weights, robustness weights, the moving average, defaults, options,
transforms -/

/-- C11: points whose external weight is zero have no influence on a local regression with
`Linear`.  Take any regression state (any width, weight buffer and external weights `e`), any
abscissa and any window with integer bounds, and a second series `x'` of the same length that
differs from the series of the state only at indices where `e` holds a zero (an index past
the end of `e` carries no external weight and is not such an index).  Then `Regress` has the
same outcome on both: the same panic or division by zero, or the same returned value and
error. -/
theorem Regress_linear_ignores_zero_weight_points (s : State) (x' : List ℚ) (a : ℚ) (l r : ℤ)
    (hlen : x'.length = s.x.length)
    (hagree : ∀ j : ℕ, j < s.x.length → s.x.getD j 0 ≠ x'.getD j 0 →
      j < s.e.length ∧ s.e.getD j 0 = 0) :
    (Regress { s with x := x' } .linear a (l : ℚ) (r : ℚ)).bind (fun p => .ok (p.2.1, p.2.2))
      = (Regress s .linear a (l : ℚ) (r : ℚ)).bind (fun p => .ok (p.2.1, p.2.2)) := by
  unfold Regress
  rw [localWeights_congr_x s x' hlen]
  cases h1 : localWeights s a (l : ℚ) (r : ℚ) with
  | panicked => rfl
  | diverged => rfl
  | nonFinite => rfl
  | ok r1 =>
    obtain ⟨s1, e1⟩ := r1
    have f1 := localWeights_frame h1
    simp only [Outcome.bind_ok]
    cases e1 with
    | some err => rfl
    | none =>
      simp only [WeightUpdate.call]
      have hlen1 : x'.length = s1.x.length := by rw [f1.1]; exact hlen
      rw [Linear_congr_x s1 x' hlen1]
      cases h2 : Linear s1 a (l : ℚ) (r : ℚ) with
      | panicked => rfl
      | diverged => rfl
      | nonFinite => rfl
      | ok r2 =>
        obtain ⟨s2, e2⟩ := r2
        have f2 := (Linear_frame h2).1
        simp only [Outcome.bind_ok]
        cases e2 with
        | some err => rfl
        | none =>
          simp only [truncToInt_intCast]
          have hx2 : s2.x = s.x := by rw [f2.1, f1.1]
          have hw2 : s2.w.length = s.w.length := by rw [f2.2.2.2, f1.2.2.2]
          rw [hx2, hlen]
          by_cases hb : ((intRange l (r + 1)).all fun i =>
              inBounds s2.w.length i && inBounds s.x.length i) = true
          · rw [if_pos hb, if_pos hb]
            simp only [Outcome.bind_ok, Outcome.ok.injEq, Prod.mk.injEq, and_true]
            rw [foldl_add_eq_sum (fun z : ℤ => getI s2.w z * getI x' z),
              foldl_add_eq_sum (fun z : ℤ => getI s2.w z * getI s.x z)]
            congr 2
            apply List.map_congr_left
            intro z hz
            simp only [List.all_eq_true, inBounds, Bool.and_eq_true, decide_eq_true_eq] at hb
            have hzb := hb z hz
            rw [mem_intRange] at hz
            by_cases hxz : getI s.x z = getI x' z
            · rw [hxz]
            · -- the two series differ at `z`: the weight there is zero
              have hwin : r < l ∨ (0 ≤ l ∧ r < (s.w.length : ℤ)) := by
                right
                have hl := hb l (by rw [mem_intRange]; omega)
                have hr := hb r (by rw [mem_intRange]; omega)
                rw [hw2] at hl hr
                omega
              obtain ⟨j, rfl⟩ : ∃ j : ℕ, z = (j : ℤ) := ⟨z.toNat, by omega⟩
              rw [getI_natCast, getI_natCast] at hxz
              obtain ⟨hje, hj0⟩ := hagree j (by omega) hxz
              obtain ⟨s1', hs1', _, hv⟩ := localWeights_spec s a l r hwin
              rw [h1] at hs1'
              simp only [Outcome.ok.injEq, Prod.mk.injEq] at hs1'
              obtain ⟨rfl, herr⟩ := hs1'
              have hn1 : getI s1.w (j : ℤ) = 0 := by
                rw [hv herr.symm (j : ℤ) hz.1 (by omega)]
                have hrw : rawWeight a (bandwidth s a (l : ℚ) (r : ℚ)) s.e (((j : ℤ) : ℤ) : ℚ)
                    = 0 := by
                  unfold rawWeight
                  rw [truncToInt_intCast]
                  split
                  · rw [if_pos (by exact_mod_cast hje), getI_natCast, hj0, mul_zero]
                  · rfl
                unfold normWeight
                rw [hrw, zero_div]
              have hn2 := Linear_keeps_zero h2 (by rw [f1.2.2.2]; exact hwin) (j : ℤ)
                (by omega) hn1
              rw [hn2, zero_mul, zero_mul]
          · rw [if_neg hb, if_neg hb]

/-- C11 witness: the series `[1, 2, 3]` and `[1, 5, 3]` under the external weights
`[1, 0, 1]`, width 3, abscissa 1 and window `[0, 2]`. -/
theorem Regress_linear_ignores_zero_weight_points_witness :
    (Regress { NewWithExternal 3 [1, 2, 3] [1, 0, 1] with x := [1, 5, 3] } .linear 1
        ((0 : ℤ) : ℚ) ((2 : ℤ) : ℚ)).bind (fun p => .ok (p.2.1, p.2.2))
      = (Regress (NewWithExternal 3 [1, 2, 3] [1, 0, 1]) .linear 1
        ((0 : ℤ) : ℚ) ((2 : ℤ) : ℚ)).bind (fun p => .ok (p.2.1, p.2.2)) :=
  Regress_linear_ignores_zero_weight_points (NewWithExternal 3 [1, 2, 3] [1, 0, 1]) [1, 5, 3]
    1 0 2 rfl (by
      intro j hj hne
      have hj3 : j < 3 := hj
      interval_cases j
      · exact absurd rfl hne
      · exact ⟨by decide, rfl⟩
      · exact absurd rfl hne)

/-- C12: `updateWeights` on a non-empty state whose buffers have the length of `Data`.  It
returns, and for every index `i`, with `a` the absolute value of
`Data[i] - Seasonal[i] - Trend[i]` and `mad6` the value the function computes from the sorted
absolute residuals: the weight is 1 if `a <= 0.001 * mad6`; it is 0 if `a > 0.999 * mad6`;
otherwise it is `(1 - (a / mad6)^2)^2`, lies strictly between 0 and 1, and is strictly smaller
than the weight of every index with a smaller absolute residual in that middle range. -/
theorem updateWeights_bisquare_weights (s : stl.state) (hn : 0 < s.Data.length)
    (hR : s.Resid.length = s.Data.length) (hS : s.Seasonal.length = s.Data.length)
    (hT : s.Trend.length = s.Data.length) (hw : s.weights.length = s.Data.length) :
    ∃ s1, s.updateWeights = .ok s1 ∧
      ∀ i : ℕ, i < s.Data.length → ∀ a : ℚ,
        a = |s.Data.getD i 0 - s.Seasonal.getD i 0 - s.Trend.getD i 0| →
        (a ≤ 0.001 * s.mad6 → s1.weights.getD i 0 = 1) ∧
        (0.999 * s.mad6 < a → s1.weights.getD i 0 = 0) ∧
        (0.001 * s.mad6 < a → a ≤ 0.999 * s.mad6 →
          s1.weights.getD i 0 = (1 - (a / s.mad6) ^ 2) ^ 2 ∧
          0 < s1.weights.getD i 0 ∧ s1.weights.getD i 0 < 1 ∧
          ∀ j : ℕ, j < s.Data.length → ∀ b : ℚ,
            b = |s.Data.getD j 0 - s.Seasonal.getD j 0 - s.Trend.getD j 0| →
            0.001 * s.mad6 < b → b < a → s1.weights.getD i 0 < s1.weights.getD j 0) := by
  obtain ⟨s1, h1, -, hv⟩ := stl.updateWeights_spec s hn hR hS hT hw
  refine ⟨s1, h1, fun i hi a ha => ?_⟩
  have hwi := (hv i hi).2
  rw [← ha] at hwi
  refine ⟨fun h => ?_, fun h => ?_, fun h1 h2 => ?_⟩
  · rw [hwi, stl.bisquare_low h]
  · rw [hwi, stl.bisquare_high (stl.mad6_nonneg s) h]
  · obtain ⟨e1, e2, e3⟩ := stl.bisquare_mid h1 h2
    rw [hwi]
    refine ⟨e1, e2, e3, fun j hj b hb hb1 hba => ?_⟩
    have hwj := (hv j hj).2
    rw [← hb] at hwj
    rw [hwj]
    exact stl.bisquare_strictAnti hb1 hba h2

/-- C12 witness: the state `newState` makes from `[0, 2, 3, 4, 100]` (trend and seasonal are
zero, so the residuals are the data; `mad6 = 6 * (3 + 3) = 36`): the weight of the residual 0
is 1, the weight of the residual 100 is 0, and the weight of the residual 2 lies strictly
between 0 and 1. -/
theorem updateWeights_bisquare_weights_witness :
    ∃ s1, (stl.newState [0, 2, 3, 4, 100] 2 10 []).updateWeights = .ok s1 ∧
      s1.weights.getD 0 0 = 1 ∧ s1.weights.getD 4 0 = 0 ∧
      0 < s1.weights.getD 1 0 ∧ s1.weights.getD 1 0 < 1 := by
  obtain ⟨s1, h1, hv⟩ := updateWeights_bisquare_weights (stl.newState [0, 2, 3, 4, 100] 2 10 [])
    (by decide) (by decide) (by decide) (by decide) (by decide)
  have hm : (stl.newState [0, 2, 3, 4, 100] 2 10 []).mad6 = 36 := by decide!
  rw [hm] at hv
  refine ⟨s1, h1, (hv 0 (by decide) 0 (by decide!)).1 (by norm_num),
    (hv 4 (by decide) 100 (by decide!)).2.1 (by norm_num), ?_, ?_⟩
  · exact ((hv 1 (by decide) 2 (by decide!)).2.2 (by norm_num) (by norm_num)).2.1
  · exact ((hv 1 (by decide) 2 (by decide!)).2.2 (by norm_num) (by norm_num)).2.2.1

/-- C13: for every sequence and every window with `1 <= window <= len(data)`, `ma` returns a
sequence of length `len(data) - window + 1` whose `i`-th element is the direct windowed mean
`(data[i] + ... + data[i + window - 1]) / window`: the running sum of the code computes the
values of the mean written out as a sum. -/
theorem ma_is_windowed_mean (data : List ℚ) (window : ℤ) (h1 : 1 ≤ window)
    (h2 : window ≤ (data.length : ℤ)) :
    ∃ out, stl.ma data window = .ok out ∧
      (out.length : ℤ) = (data.length : ℤ) - window + 1 ∧
      ∀ i : ℕ, (i : ℤ) < (data.length : ℤ) - window + 1 →
        out.getD i 0 = stl.windowedMean data window.toNat i := by
  obtain ⟨W, rfl⟩ : ∃ W : ℕ, window = (W : ℤ) := ⟨window.toNat, by omega⟩
  have hW : 0 < W := by omega
  have hWn : W ≤ data.length := by omega
  unfold stl.ma
  simp only
  rw [if_neg (by omega), if_neg (by omega), if_neg (by omega), if_neg (by omega)]
  rw [stl.take_sum data _ (by simpa using hWn)]
  simp only [Int.toNat_ofNat]
  have hR : ((data.length : ℤ) - (W : ℤ) + 1).toNat = data.length - W + 1 := by omega
  have hrange : intRange 1 ((data.length : ℤ) - (W : ℤ) + 1)
      = (List.range (data.length - W)).map (fun (k : ℕ) => (1 : ℤ) + (k : ℤ)) := by
    unfold intRange
    congr 2
    omega
  rw [hrange, hR]
  simp only [Int.cast_natCast]
  have h0 : getI (setI (List.replicate (data.length - W + 1) 0) 0
      (((List.range W).map (fun (k : ℕ) => data.getD (0 + k) 0)).sum / (W : ℚ))) 0
      = stl.windowedMean data W 0 := by
    rw [getI_setI (le_refl 0) (le_refl 0), if_pos ⟨rfl, by simp⟩]
    simp [stl.windowedMean]
  have key := stl.ma_loop data W _ (data.length - W) (by simp) h0
  simp only at key
  obtain ⟨-, -, -, hlen, hval⟩ := key
  refine ⟨_, rfl, ?_, fun i hi => ?_⟩
  · rw [hlen]
    simp
    omega
  · rw [← getI_natCast]
    exact hval i (by omega)

/-- C13 witness: the window 2 on `[1, 2, 4, 8]`. -/
theorem ma_is_windowed_mean_witness :
    ∃ out, stl.ma [1, 2, 4, 8] 2 = .ok out ∧
      (out.length : ℤ) = (([1, 2, 4, 8] : List ℚ).length : ℤ) - 2 + 1 ∧
      ∀ i : ℕ, (i : ℤ) < (([1, 2, 4, 8] : List ℚ).length : ℤ) - 2 + 1 →
        out.getD i 0 = stl.windowedMean [1, 2, 4, 8] (2 : ℤ).toNat i :=
  ma_is_windowed_mean [1, 2, 4, 8] 2 (by decide) (by decide)

/-- C14, at inputs where the code fails: the stride of every default Config is `int(0.1 * n)`,
which is 0 for every `n` from 1 to 9, and the default trend width for periodicity 2 and
width 1 is `int(1.5 * 2 / (1 - 1.5) + 0.5) = -5`. -/
theorem Default_configs_not_positive :
    (stl.DefaultSeasonal 1).Jump = 0 ∧ (stl.DefaultLowPass 1).Jump = 0 ∧
      (stl.DefaultTrend 1 1).Jump = 0 ∧ (stl.DefaultTrend 2 1).Width = -5 ∧
      ((List.range 9).all fun (k : ℕ) =>
        decide ((stl.DefaultSeasonal ((k : ℤ) + 1)).Jump = 0 ∧
          (stl.DefaultLowPass ((k : ℤ) + 1)).Jump = 0 ∧
          (stl.DefaultTrend 12 ((k : ℤ) + 1)).Jump = 0)) = true := by
  refine ⟨by decide!, by decide!, by decide!, by decide!, by decide!⟩

/-- C15, at an input where the code fails: `newState` builds the trend smoother with the
default trend width before it applies the options, so `WithTrendConfig c` changes the width
the trend refit asks for and not the width of the smoother.  With eight points, periodicity 2
and width 10 the default trend width is 4; with a trend Config of width 7, stride 1 and
`Linear`, the first trend refit reports the mismatch and `Decompose` returns that error with
a `nil` trend, whereas the same call with a trend Config of width 4 returns without error. -/
theorem WithTrendConfig_width_mismatch_fails :
    (∀ (X : List ℚ) (P W : ℤ) (c : stl.Config),
      (stl.newState X P W [.WithTrendConfig c]).tConf = c ∧
        (stl.newState X P W [.WithTrendConfig c]).sstateWidth = (stl.DefaultTrend P W).Width) ∧
      (stl.DefaultTrend 2 10).Width = 4 ∧
      stl.Decompose [1, 2, 3, 4, 5, 6, 7, 8] 2 10 stl.Additive
          [.WithLowpassConfig ⟨2, 1, .linear⟩, .WithTrendConfig ⟨7, 1, .linear⟩]
        = .ok ({ Data := [1, 2, 3, 4, 5, 6, 7, 8], Trend := [],
                 Seasonal := [11 / 6, 1 / 6, -3 / 4, -1 / 6, 7 / 6, 7 / 4, 5 / 6, -5 / 6],
                 Resid := [0, 0, 0, 0, 0, 0, 0, 0],
                 Err := some (.updateSeasonalAndTrend 0 0 (.widthMismatch 4 7)) },
               [1, 2, 3, 4, 5, 6, 7, 8]) ∧
      (stl.Decompose [1, 2, 3, 4, 5, 6, 7, 8] 2 10 stl.Additive
          [.WithLowpassConfig ⟨2, 1, .linear⟩, .WithTrendConfig ⟨4, 1, .linear⟩]).bind
        (fun r => .ok r.1.Err) = .ok none := by
  refine ⟨fun X P W c => ⟨rfl, rfl⟩, by decide!, by decide!, by decide!⟩

/-- C16, at an input where the code fails: `newState` builds the subcycle smoother from the
default seasonal Config before it applies the options, and nothing reads the field that
`WithSeasonalConfig` sets.  So the option changes nothing: wherever it stands in the option
list, `Decompose` does what it does without it.  With four points, periodicity 2 and width 1
the default seasonal stride is 0; a seasonal Config of width 1 and stride 1 is passed, a
stride-1 low-pass Config too, and the subcycle smoothing still runs with stride 0 and never
returns. -/
theorem WithSeasonalConfig_is_ignored :
    (∀ (X : List ℚ) (periodicity width : ℤ) (m : stl.ModelType) (c : stl.Config)
        (before after : List stl.Opt),
      stl.Decompose X periodicity width m (before ++ stl.Opt.WithSeasonalConfig c :: after)
        = stl.Decompose X periodicity width m (before ++ after)) ∧
      (∀ (X : List ℚ) (periodicity width : ℤ) (opts : List stl.Opt),
        (stl.newState X periodicity width opts).scstate.conf = stl.DefaultSeasonal width) ∧
      stl.Decompose [1, 2, 3, 4] 2 1 stl.Additive
          [.WithSeasonalConfig ⟨1, 1, .linear⟩, .WithLowpassConfig ⟨2, 1, .linear⟩]
        = .diverged := by
  refine ⟨fun X P W m c before after => stl.Decompose_seasonal_override X P W m c before after,
    fun X P W opts => ?_, by decide!⟩
  rw [(stl.newState_scstate X P W opts).1]
  rfl

/-- C17 does not hold as stated: with four points, periodicity 2, width 10 and a stride-1
low-pass Config, the first local regression of the subcycle smoothing (sub-series `[1, 3]`,
external weights `[0, 0]`) fails with a zero total weight, the smoothed row holds the raw
values, and `Decompose` returns a `Result` whose `Err` is `nil`. -/
theorem Decompose_regression_failure_not_reported :
    (Regress (NewWithExternal 10 [1, 3] [0, 0]) .linear 0 0 1).bind (fun r => .ok r.2.2)
        = .ok (some .total) ∧
      stl.subcycleDo (stl.newSubcycleState (stl.DefaultSeasonal 10) 4 2 1 1) [0, 0] [1, 3]
          [0, 0, 0, 0] = .ok [1, 1, 3, 3] ∧
      (stl.Decompose [1, 2, 3, 4] 2 10 stl.Additive [.WithLowpassConfig ⟨2, 1, .linear⟩]).bind
        (fun r => .ok r.1.Err) = .ok none := by
  refine ⟨by decide!, by decide!, by decide!⟩

/-- C17 as amended: a failing local regression is never reported by `Decompose`.  Whenever
`Decompose` returns, the `Err` of its `Result` is `nil`, or the error of the periodicity
check, or the error of the width check, or the error of a trend refit whose cause is the
mismatch between the width the trend smoother was built with (the default trend width) and
the width of the trend Config in force, the two being different. -/
theorem Decompose_reports_only_argument_and_width_errors (X X1 : List ℚ) (P W : ℤ)
    (m : stl.ModelType) (opts : List stl.Opt) (r : stl.Result)
    (he : stl.Decompose X P W m opts = .ok (r, X1)) :
    r.Err = none ∨ r.Err = some .periodicity ∨ r.Err = some .width ∨
      ∃ o i, r.Err = some (.updateSeasonalAndTrend o i
        (.widthMismatch (stl.DefaultTrend P W).Width
          (stl.newState (m.Fwd X) P W opts).tConf.Width)) ∧
        (stl.DefaultTrend P W).Width ≠ (stl.newState (m.Fwd X) P W opts).tConf.Width :=
  stl.Decompose_err he

/-- C17 witness: eight points, periodicity 2, width 10, a stride-1 low-pass Config and a trend
Config of width 7, where the default trend width is 4: `Decompose` returns the error of the
first trend refit, whose cause is the width mismatch. -/
theorem Decompose_reports_only_argument_and_width_errors_witness :
    (some (stl.Err.updateSeasonalAndTrend 0 0 (.widthMismatch 4 7)) : Option stl.Err) = none ∨
      (some (stl.Err.updateSeasonalAndTrend 0 0 (.widthMismatch 4 7)) : Option stl.Err)
        = some .periodicity ∨
      (some (stl.Err.updateSeasonalAndTrend 0 0 (.widthMismatch 4 7)) : Option stl.Err)
        = some .width ∨
      ∃ o i, (some (stl.Err.updateSeasonalAndTrend 0 0 (.widthMismatch 4 7)) : Option stl.Err)
          = some (.updateSeasonalAndTrend o i
            (.widthMismatch (stl.DefaultTrend 2 10).Width
              (stl.newState (stl.Additive.Fwd [1, 2, 3, 4, 5, 6, 7, 8]) 2 10
                [.WithLowpassConfig ⟨2, 1, .linear⟩, .WithTrendConfig ⟨7, 1, .linear⟩]).tConf.Width)) ∧
        (stl.DefaultTrend 2 10).Width
          ≠ (stl.newState (stl.Additive.Fwd [1, 2, 3, 4, 5, 6, 7, 8]) 2 10
              [.WithLowpassConfig ⟨2, 1, .linear⟩, .WithTrendConfig ⟨7, 1, .linear⟩]).tConf.Width :=
  Decompose_reports_only_argument_and_width_errors [1, 2, 3, 4, 5, 6, 7, 8]
    [1, 2, 3, 4, 5, 6, 7, 8] 2 10 stl.Additive
    [.WithLowpassConfig ⟨2, 1, .linear⟩, .WithTrendConfig ⟨7, 1, .linear⟩]
    { Data := [1, 2, 3, 4, 5, 6, 7, 8], Trend := [],
      Seasonal := [11 / 6, 1 / 6, -3 / 4, -1 / 6, 7 / 6, 7 / 4, 5 / 6, -5 / 6],
      Resid := [0, 0, 0, 0, 0, 0, 0, 0],
      Err := some (.updateSeasonalAndTrend 0 0 (.widthMismatch 4 7)) }
    (by decide!)

/-- C18: the round trip of the three models, over the real numbers with the exact logarithm,
exponential and power.  For every series `a` of strictly positive values, `Bwd(Fwd(a)) = a`
for `Additive()`, for `Multiplicative()`, and for `UnsafeTransform(lambda)` with
`0 < lambda < 1`, which returns a model. -/
theorem Bwd_Fwd_round_trip (a : List ℝ) (ha : ∀ v ∈ a, 0 < v) :
    stl.reals.Additive.Bwd (stl.reals.Additive.Fwd a) = a ∧
      stl.reals.Multiplicative.Bwd (stl.reals.Multiplicative.Fwd a) = a ∧
      ∀ lambda : ℝ, 0 < lambda → lambda < 1 →
        ∃ m, stl.reals.UnsafeTransform lambda = .ok m ∧ m.Bwd (m.Fwd a) = a := by
  refine ⟨rfl, ?_, ?_⟩
  · simp only [stl.reals.Multiplicative, List.map_map]
    conv_rhs => rw [← List.map_id a]
    exact List.map_congr_left fun v hv => Real.exp_log (ha v hv)
  · intro lambda h0 h1
    have hne : lambda ≠ 0 := ne_of_gt h0
    refine ⟨{ Fwd := fun a => a.map (fun v => (v ^ lambda - 1) / lambda),
              Bwd := fun a => a.map (fun v => (v * lambda + 1) ^ (1 / lambda)) },
      by simp only [stl.reals.UnsafeTransform, if_neg (ne_of_lt h1), if_neg hne,
        if_neg (not_lt.mpr h0.le)], ?_⟩
    simp only [List.map_map]
    conv_rhs => rw [← List.map_id a]
    refine List.map_congr_left fun v hv => ?_
    simp only [Function.comp, id]
    rw [div_mul_cancel₀ _ hne, sub_add_cancel, ← Real.rpow_mul (le_of_lt (ha v hv)),
      mul_one_div_cancel hne, Real.rpow_one]

/-- C18 witness: the series `[1, 2]`. -/
theorem Bwd_Fwd_round_trip_witness :
    stl.reals.Additive.Bwd (stl.reals.Additive.Fwd [1, 2]) = [1, 2] ∧
      stl.reals.Multiplicative.Bwd (stl.reals.Multiplicative.Fwd [1, 2]) = [1, 2] ∧
      ∀ lambda : ℝ, 0 < lambda → lambda < 1 →
        ∃ m, stl.reals.UnsafeTransform lambda = .ok m ∧ m.Bwd (m.Fwd [1, 2]) = [1, 2] :=
  Bwd_Fwd_round_trip [1, 2]
    (by intro v hv; simp at hv; rcases hv with rfl | rfl <;> norm_num)

/-- C19, where the code fails: `UnsafeTransform(0)` is `Additive()`, whose two transforms
return the series unchanged, and it is `UnsafeTransform(1)` that is `Multiplicative()`, the
pair of `math.Log` and `math.Exp`. -/
theorem UnsafeTransform_zero_is_additive (M : stl.MathFns) :
    stl.UnsafeTransform M 0 = .ok stl.Additive ∧
      stl.UnsafeTransform M 1 = .ok (stl.Multiplicative M) ∧
      (∀ a : List ℚ, stl.Additive.Fwd a = a ∧ stl.Additive.Bwd a = a) := by
  refine ⟨by simp [stl.UnsafeTransform], by simp [stl.UnsafeTransform], fun a => ⟨rfl, rfl⟩⟩

/-- C20, at an input where the code fails: six points `[1, 2, 4, 3, 5, 7]`, periodicity 2,
width 10 and a stride-1 low-pass Config, the state as `newState` makes it.  After `doDetrend`
and `smoothSubcycles(false)`, the first two steps of the first inner pass,
the weight plane of the workspace is all zeros and the smoothed rows are the raw sub-series
`[1, 4, 5]` and `[2, 3, 7]`, each extended by a copy of its first and last value; the LOESS
smooth of `[1, 4, 5]` with width 10 and stride 1 is another sequence, and it is what the
subcycle smoother stores when it is given the weights `1`. -/
theorem first_pass_subcycle_smoothing_is_raw :
    ((stl.newState [1, 2, 4, 3, 5, 7] 2 10 [.WithLowpassConfig ⟨2, 1, .linear⟩]).doDetrend.bind
        (fun s => s.smoothSubcycles false)).bind
        (fun r => .ok (r.1.extendedSeasonal, r.1.scstate.data.getD 1 []))
      = .ok ([1, 1, 4, 5, 5, 2, 2, 3, 7, 7], [[0, 0, 0], [0, 0, 0]]) ∧
    (loess.Smooth [1, 4, 5] 10 1 .linear).bind (fun r => .ok r.2.1)
      = .ok [56520728579529772 / 42789314708703925, 3798514122 / 1137031211,
          227677987414345472 / 42789314708703925] ∧
    (stl.smoothSeasonal (stl.newSubcycleState (stl.DefaultSeasonal 10) 6 2 1 1)
        [1, 2, 4, 3, 5, 7] [1, 1, 1, 1, 1, 1] (List.replicate 10 0)).bind
        (fun r => .ok (r.2.1.take 4))
      = .ok [-189434398556628387394 / 251705178707511758443,
          56520728579529772 / 42789314708703925, 3798514122 / 1137031211,
          227677987414345472 / 42789314708703925] := by
  refine ⟨by decide!, by decide!, by decide!⟩

/-! ## Kernel weights, windows in closed form, interpolation, the low-pass chain -/

namespace loess

theorem rawWeight_eq_kernel (x lambda : ℚ) (E : List ℚ) (z : ℤ) (hl : 0 < lambda) :
    rawWeight x lambda E (z : ℚ) = kernelWeight x lambda z * externalWeight E z := by
  unfold rawWeight kernelWeight externalWeight tricubeAt
  simp only [truncToInt_intCast]
  by_cases h1 : |x - (z : ℚ)| ≤ 0.00001 * lambda
  · have h2 : |x - (z : ℚ)| ≤ 0.99999 * lambda := by nlinarith
    rw [if_pos h2, if_pos h1, if_pos h1]
    by_cases h3 : z < (E.length : ℤ)
    · rw [if_pos (by omega), if_pos h3]
    · rw [if_neg (by omega), if_neg h3, mul_one]
  · by_cases h2 : |x - (z : ℚ)| ≤ 0.99999 * lambda
    · rw [if_pos h2, if_neg h1, if_neg h1, if_neg (not_lt.mpr h2)]
      by_cases h3 : z < (E.length : ℤ)
      · rw [if_pos (by omega), if_pos h3]
        ring
      · rw [if_neg (by omega), if_neg h3]
        ring
    · rw [if_neg h2, if_neg h1, if_pos (not_le.mp h2), zero_mul]

end loess

namespace loess

/-- The window of the `jump == 1` loop before it handles index `n`. -/
theorem denseFold_closed {size width : ℤ} (hw : 1 ≤ width) (hs : width < size) (n : ℕ) :
    (List.range n).foldl (denseShift size ((width + 1).tdiv 2)) (0, ((width - 1 : ℤ) : ℚ))
      = (((min (max 0 ((n : ℤ) - (width + 1).tdiv 2)) (size - width) : ℤ) : ℚ),
         ((min (max 0 ((n : ℤ) - (width + 1).tdiv 2)) (size - width) + (width - 1) : ℤ) : ℚ)) := by
  have hh : (width + 1).tdiv 2 = (width + 1) / 2 := Int.tdiv_eq_ediv (by omega) (by omega)
  induction n with
  | zero =>
    simp only [List.range_zero, List.foldl_nil, Nat.cast_zero, Prod.mk.injEq]
    have h1 : min (max 0 (0 - (width + 1).tdiv 2)) (size - width) = 0 := by
      rw [hh]; omega
    rw [h1]
    constructor
    · simp
    · simp
  | succ n ih =>
    rw [List.range_succ, List.foldl_append, ih]
    simp only [List.foldl_cons, List.foldl_nil, denseShift, truncToInt_intCast]
    rw [hh]
    by_cases hc : (n : ℤ) ≥ (width + 1) / 2 ∧
        min (max 0 ((n : ℤ) - (width + 1) / 2)) (size - width) + (width - 1) ≠ size - 1
    · rw [if_pos hc]
      have e1 : min (max 0 (((n + 1 : ℕ) : ℤ) - (width + 1) / 2)) (size - width)
          = min (max 0 ((n : ℤ) - (width + 1) / 2)) (size - width) + 1 := by
        push_cast; omega
      rw [e1]
      simp only [Prod.mk.injEq]
      constructor <;> push_cast <;> ring
    · rw [if_neg hc]
      have e1 : min (max 0 (((n + 1 : ℕ) : ℤ) - (width + 1) / 2)) (size - width)
          = min (max 0 ((n : ℤ) - (width + 1) / 2)) (size - width) := by
        push_cast; omega
      rw [e1]

theorem denseWindow_closed {size width : ℤ} (hw : 1 ≤ width) (hs : width < size) (i : ℕ) :
    denseWindow size width i
      = (((windowLeft size width i : ℤ) : ℚ), ((windowLeft size width i + (width - 1) : ℤ) : ℚ)) := by
  unfold denseWindow windowLeft
  rw [denseFold_closed hw hs (i + 1)]
  have e : ((i + 1 : ℕ) : ℤ) - (width + 1).tdiv 2 = (i : ℤ) - (width + 1).tdiv 2 + 1 := by
    push_cast; ring
  rw [e]

theorem sparseWindow_closed {size width : ℤ} (hw : 1 ≤ width) (hs : width < size) (i : ℤ) :
    sparseWindow size width i
      = (((windowLeft size width i : ℤ) : ℚ), ((windowLeft size width i + (width - 1) : ℤ) : ℚ)) := by
  have hh : (width + 1).tdiv 2 = (width + 1) / 2 := Int.tdiv_eq_ediv (by omega) (by omega)
  have e : sparseLeft size width ((width + 1).tdiv 2) i = windowLeft size width i := by
    unfold sparseLeft windowLeft
    rw [hh]
    split
    · omega
    · split <;> omega
  unfold sparseWindow
  rw [e]
  simp only [Prod.mk.injEq, true_and]
  push_cast
  ring

/-- The window `smooth` regresses over at a sampled index, in closed form. -/
theorem smoothWindow_closed {n : ℕ} {width jump : ℤ} (hw : 1 ≤ width) (i : ℕ)
    (hd : jump ∣ (i : ℤ)) :
    smoothWindow (n : ℤ) width jump i =
      if width ≥ (n : ℤ) then (0, (((n : ℤ) - 1 : ℤ) : ℚ))
      else (((windowLeft (n : ℤ) width i : ℤ) : ℚ),
        ((windowLeft (n : ℤ) width i + (width - 1) : ℤ) : ℚ)) := by
  unfold smoothWindow
  by_cases h1 : width ≥ (n : ℤ)
  · rw [if_pos h1, if_pos h1]
  · rw [if_neg h1, if_neg h1]
    by_cases h2 : jump = 1
    · rw [if_pos h2]
      exact denseWindow_closed hw (by omega) i
    · rw [if_neg h2, if_pos hd]
      exact sparseWindow_closed hw (by omega) i

end loess

namespace loess

/-- The statement `regressInto` stores one value, at its index. -/
theorem regressInto_retVal {shared : Bool} {fn : WeightUpdate} {m m1 : Mem} {i : ℤ}
    {left right : ℚ} (he : regressInto shared fn i left right m = .ok m1) :
    ∃ v, m1.retVal = setI m.retVal i v := by
  unfold regressInto at he
  simp only [Outcome.bind_eq_ok] at he
  obtain ⟨⟨s1, v, e⟩, _, he⟩ := he
  have key : ∀ w, setRet shared { m with s := s1 } i w = .ok m1 →
      ∃ v, m1.retVal = setI m.retVal i v := by
    intro w hw
    unfold setRet at hw
    split at hw
    · simp only [Outcome.ok.injEq] at hw
      subst hw
      exact ⟨w, rfl⟩
    · simp at hw
  cases e with
  | none => exact key _ he
  | some err =>
    simp only at he
    split at he
    · exact key _ he
    · simp at he

/-- The inner interpolation loop: it returns, writes only strictly between `a` and `b`, and
writes there the line through `retVal[a]` with the given slope. -/
theorem fillBetween_full {shared : Bool} {s0 : State} {L : ℕ} {m : Mem} {a b : ℤ} {slope : ℚ}
    (h : MemInv shared s0 L m) (ha : 0 ≤ a) (hb : b ≤ (L : ℤ)) :
    ∃ m1, fillBetween shared a b slope m = .ok m1 ∧ MemInv shared s0 L m1 ∧
      (∀ k : ℤ, 0 ≤ k → (k ≤ a ∨ b ≤ k) → getI m1.retVal k = getI m.retVal k) ∧
      (∀ k : ℤ, a < k → k < b →
        getI m1.retVal k = getI m.retVal a + slope * ((k - a : ℤ) : ℚ)) := by
  unfold fillBetween intRange
  rw [forEach_map]
  have key : ∃ m1, forEach (List.range (b - (a + 1)).toNat)
      (fun (k : ℕ) m =>
        if inBounds m.retVal.length a then
          setRet shared m (a + 1 + (k : ℤ))
            (getI m.retVal a + slope * ((a + 1 + (k : ℤ) - a : ℤ) : ℚ))
        else .panicked) m = .ok m1 ∧ MemInv shared s0 L m1 ∧
      (∀ k : ℤ, 0 ≤ k → (k ≤ a ∨ a + 1 + ((b - (a + 1)).toNat : ℤ) ≤ k) →
        getI m1.retVal k = getI m.retVal k) ∧
      (∀ k : ℤ, a < k → k < a + 1 + ((b - (a + 1)).toNat : ℤ) →
        getI m1.retVal k = getI m.retVal a + slope * ((k - a : ℤ) : ℚ)) := forEach_range_total
    (fun t m1 => MemInv shared s0 L m1 ∧
      (∀ k : ℤ, 0 ≤ k → (k ≤ a ∨ a + 1 + (t : ℤ) ≤ k) → getI m1.retVal k = getI m.retVal k) ∧
      (∀ k : ℤ, a < k → k < a + 1 + (t : ℤ) →
        getI m1.retVal k = getI m.retVal a + slope * ((k - a : ℤ) : ℚ)))
    _ (b - (a + 1)).toNat
    (fun t st ht hst => by
      obtain ⟨hinv, hfr, hval⟩ := hst
      have hlen : st.retVal.length = L := hinv.1
      have hba : inBounds st.retVal.length a = true := by
        simp only [inBounds, Bool.and_eq_true, decide_eq_true_eq]; omega
      obtain ⟨m1, hm1, hv⟩ := @setRet_spec shared st (a + 1 + (t : ℤ))
        (getI st.retVal a + slope * ((a + 1 + (t : ℤ) - a : ℤ) : ℚ)) (by omega)
      refine ⟨m1, ?_, setRet_inv hinv hm1, fun k hk hout => ?_, fun k hk1 hk2 => ?_⟩
      · simp only [hba, if_true]; exact hm1
      · rw [hv, getI_setI (by omega) hk, if_neg (by push_cast at hout ⊢; omega)]
        exact hfr k hk (by push_cast at hout ⊢; omega)
      · rw [hv, getI_setI (by omega) (by omega)]
        by_cases hkt : a + 1 + (t : ℤ) = k
        · rw [if_pos ⟨hkt, by omega⟩, hfr a ha (Or.inl (le_refl a)), hkt]
        · rw [if_neg (fun hc => hkt hc.1)]
          exact hval k hk1 (by push_cast at hk2; omega))
    m ⟨h, fun _ _ _ => rfl, fun k hk1 hk2 => by omega⟩
  obtain ⟨m1, h1, hinv, hfr, hval⟩ := key
  refine ⟨m1, h1, hinv, fun k hk hout => hfr k hk ?_, fun k hk1 hk2 => hval k hk1 ?_⟩
  · rcases hout with h | h
    · exact Or.inl h
    · by_cases hka : k ≤ a
      · exact Or.inl hka
      · right; omega
  · omega

/-- One step of the interpolation loop: between two neighbouring sampled positions it writes
the line through their two values. -/
theorem interpolateStep_full {shared : Bool} {s0 : State} {L : ℕ} {m : Mem} {jump i : ℤ}
    (h : MemInv shared s0 L m) (hj : 0 < jump) (hi : 0 ≤ i) (hb : i + jump < (L : ℤ)) :
    ∃ m1, interpolateStep shared jump i m = .ok m1 ∧ MemInv shared s0 L m1 ∧
      (∀ k : ℤ, 0 ≤ k → (k ≤ i ∨ i + jump ≤ k) → getI m1.retVal k = getI m.retVal k) ∧
      (∀ k : ℤ, i < k → k < i + jump →
        getI m1.retVal k = getI m.retVal i
          + (getI m.retVal (i + jump) - getI m.retVal i) / (jump : ℚ) * ((k - i : ℤ) : ℚ)) := by
  have hlen : m.retVal.length = L := h.1
  have hb1 : (inBounds m.retVal.length (i + jump) && inBounds m.retVal.length i) = true := by
    simp only [inBounds, Bool.and_eq_true, decide_eq_true_eq]; omega
  unfold interpolateStep
  rw [if_pos hb1, if_neg (by omega)]
  exact fillBetween_full h hi (by omega)

end loess

namespace loess

/-- The interpolation loop of `smooth`: it returns, leaves the sampled positions alone, and
below the last position it has reached every other position lies on the line through the
values of its two sampled neighbours. -/
theorem interpolate_full {shared : Bool} {s0 : State} {L : ℕ} {m : Mem} {size jump : ℤ}
    (h : MemInv shared s0 L m) (hj : 0 < jump) (hL : size ≤ (L : ℤ)) :
    ∃ m1 i1, strideLoop (interpolateStep shared jump) (fun _ => false) (size - jump) jump
        (size.toNat + 1) 0 m = .ok m1 ∧ MemInv shared s0 L m1 ∧
      0 ≤ i1 ∧ jump ∣ i1 ∧ size - jump ≤ i1 ∧
      (∀ k : ℤ, 0 ≤ k → (jump ∣ k ∨ i1 ≤ k) → getI m1.retVal k = getI m.retVal k) ∧
      (∀ k : ℤ, 0 ≤ k → k < i1 → ¬ jump ∣ k →
        getI m1.retVal k = getI m.retVal (k.tdiv jump * jump)
          + (getI m.retVal (k.tdiv jump * jump + jump) - getI m.retVal (k.tdiv jump * jump))
            / (jump : ℚ) * ((k - k.tdiv jump * jump : ℤ) : ℚ)) := by
  obtain ⟨m1, i1, h1, ⟨hi0, hid, hinv, hfr, hval⟩, hb, _⟩ :=
    strideLoop_total
      (fun i m1 => 0 ≤ i ∧ jump ∣ i ∧ MemInv shared s0 L m1 ∧
        (∀ k : ℤ, 0 ≤ k → (jump ∣ k ∨ i ≤ k) → getI m1.retVal k = getI m.retVal k) ∧
        (∀ k : ℤ, 0 ≤ k → k < i → ¬ jump ∣ k →
          getI m1.retVal k = getI m.retVal (k.tdiv jump * jump)
            + (getI m.retVal (k.tdiv jump * jump + jump) - getI m.retVal (k.tdiv jump * jump))
              / (jump : ℚ) * ((k - k.tdiv jump * jump : ℤ) : ℚ)))
      (interpolateStep shared jump) (fun _ => false) (size - jump) jump hj
      (fun i hs => by simp at hs)
      (fun i st hlt hst => by
        obtain ⟨hi0, hid, hinv, hfr, hval⟩ := hst
        obtain ⟨m2, hm2, hinv2, hfr2, hval2⟩ := interpolateStep_full hinv hj hi0 (by omega)
        refine ⟨m2, hm2, by omega, Dvd.dvd.add hid (dvd_refl _), hinv2,
          fun k hk hkd => ?_, fun k hk hki hnd => ?_⟩
        · rw [hfr2 k hk ?_, hfr k hk ?_]
          · rcases hkd with hkd | hkd
            · exact Or.inl hkd
            · exact Or.inr (by omega)
          · rcases hkd with hkd | hkd
            · by_cases hle : k ≤ i
              · exact Or.inl hle
              · exact Or.inr (dvd_gap hid hkd (by omega))
            · exact Or.inr hkd
        · by_cases hlt2 : k < i
          · rw [hfr2 k hk (Or.inl (by omega))]
            exact hval k hk hlt2 hnd
          · have hik : i < k := by
              rcases lt_or_eq_of_le (not_lt.mp hlt2) with h | h
              · exact h
              · exact absurd (h ▸ hid) hnd
            have ha : k.tdiv jump * jump = i :=
              lastSmoothedPos_eq hk hj hid (by omega) (by omega)
            rw [ha, hval2 k hik hki, hfr i hi0 (Or.inl hid),
              hfr (i + jump) (by omega) (Or.inl (Dvd.dvd.add hid (dvd_refl _)))])
      (size.toNat + 1) 0 m (by omega)
      ⟨le_refl 0, dvd_zero _, h, fun _ _ _ => rfl, fun k hk hk0 _ => by omega⟩
  exact ⟨m1, i1, h1, hinv, hi0, hid, hb, hfr, hval⟩

/-- The tail of `smooth`, whatever the kernel: a result it returns has the positions up to
the last sampled one unchanged, and the positions between the last sampled one and the final
index on the line through the values of these two. -/
theorem smoothLast_full {shared : Bool} {fn : WeightUpdate} {s0 : State} {L : ℕ} {m m1 : Mem}
    {size jump : ℤ} {left right : ℚ}
    (h : MemInv shared s0 L m) (hs : 1 ≤ size) (hL : size ≤ (L : ℤ)) (hj : 0 < jump)
    (he : smoothLast shared fn size jump left right m = .ok m1) :
    (∀ k : ℤ, 0 ≤ k → k ≤ (size - 1).tdiv jump * jump →
      getI m1.retVal k = getI m.retVal k) ∧
    (∀ k : ℤ, (size - 1).tdiv jump * jump < k → k < size - 1 →
      getI m1.retVal k = getI m1.retVal ((size - 1).tdiv jump * jump)
        + (getI m1.retVal (size - 1) - getI m1.retVal ((size - 1).tdiv jump * jump))
          / (((size - 1) - (size - 1).tdiv jump * jump : ℤ) : ℚ)
          * ((k - (size - 1).tdiv jump * jump : ℤ) : ℚ)) := by
  obtain ⟨d1, d2, d3, d4⟩ := @lastSmoothedPos_spec (size - 1) jump (by omega) hj
  unfold smoothLast at he
  simp only at he
  rw [if_neg (by omega)] at he
  split at he
  · rename_i hp
    simp only [Outcome.bind_eq_ok] at he
    obtain ⟨m2, h2, he⟩ := he
    have hinv2 := regressInto_inv h h2
    obtain ⟨v, hv⟩ := regressInto_retVal h2
    have hlen0 : m.retVal.length = L := h.1
    have hkeep : ∀ k : ℤ, 0 ≤ k → k ≤ (size - 1).tdiv jump * jump →
        getI m2.retVal k = getI m.retVal k := by
      intro k hk hkq
      rw [hv, getI_setI (by omega) hk, if_neg]
      rintro ⟨rfl, _⟩
      omega
    split at he
    · rename_i hp1
      split at he
      · obtain ⟨m3, hm3, _, hfr, hval⟩ := @fillBetween_full shared s0 L m2
          ((size - 1).tdiv jump * jump) (size - 1)
          ((getI m2.retVal (size - 1) - getI m2.retVal ((size - 1).tdiv jump * jump))
            / (((size - 1) - (size - 1).tdiv jump * jump : ℤ) : ℚ)) hinv2 d2 (by omega)
        rw [hm3] at he
        simp only [Outcome.ok.injEq] at he
        subst he
        refine ⟨fun k hk hkq => ?_, fun k hk1 hk2 => ?_⟩
        · rw [hfr k hk (Or.inl hkq)]
          exact hkeep k hk hkq
        · rw [hval k hk1 hk2, hfr _ d2 (Or.inl (le_refl _)),
            hfr (size - 1) (by omega) (Or.inr (le_refl _))]
      · simp at he
    · rename_i hp1
      simp only [Outcome.ok.injEq] at he
      subst he
      refine ⟨hkeep, fun k hk1 hk2 => ?_⟩
      simp only [ne_eq, not_not] at hp1
      omega
  · rename_i hp
    simp only [Outcome.ok.injEq] at he
    subst he
    refine ⟨fun _ _ _ => rfl, fun k hk1 hk2 => ?_⟩
    simp only [ne_eq, not_not] at hp
    omega

end loess

namespace loess

/-- Whatever the kernel, in a result that `smooth` returns for a stride above one, every
position that is neither a multiple of the stride nor the final index lies on the line
through the values at its two exactly computed neighbours. -/
theorem smooth_interpolates {shared : Bool} {s s1 : State} {width jump : ℤ} {fn : WeightUpdate}
    {retVal out : List ℚ} {e : Option Err}
    (hsh : shared = true → retVal = s.x) (hL : s.x.length ≤ retVal.length) (hj : 1 < jump)
    (he : smooth shared s width jump fn retVal = .ok (s1, out, e)) :
    ∀ k : ℤ, 0 ≤ k → k < (s.x.length : ℤ) - 1 → ¬ jump ∣ k →
      getI out k = getI out (k.tdiv jump * jump)
        + (getI out (min (k.tdiv jump * jump + jump) ((s.x.length : ℤ) - 1))
            - getI out (k.tdiv jump * jump))
          * ((k - k.tdiv jump * jump : ℤ) : ℚ)
          / ((min (k.tdiv jump * jump + jump) ((s.x.length : ℤ) - 1)
              - k.tdiv jump * jump : ℤ) : ℚ) := by
  intro k hk hkn hnd
  have hj0 : 0 < jump := by omega
  have h0 : MemInv shared s retVal.length ⟨s, retVal⟩ :=
    ⟨rfl, rfl, rfl, rfl, rfl, fun _ => rfl, hsh⟩
  unfold smooth at he
  simp only at he
  rw [if_neg (by omega)] at he
  simp only [Outcome.bind_eq_ok] at he
  obtain ⟨st, hst, he⟩ := he
  have hs : MemInv shared s retVal.length st.2.2 := by
    split at hst
    · simp only [Outcome.bind_eq_ok] at hst
      obtain ⟨m, hm, hst⟩ := hst
      simp at hst; subst hst
      exact strideLoop_inv (MemInv shared s retVal.length) _ _ _ _
        (fun i st st1 hi hb => regressInto_inv hi hb) _ _ _ _ h0 hm
    · split at hst
      · exact forEach_inv (fun st : ℚ × ℚ × Mem => MemInv shared s retVal.length st.2.2) _
          (fun i st st1 hi hb => denseStep_inv hi hb) _ _ _ h0 hst
      · exact strideLoop_inv (fun st : ℚ × ℚ × Mem => MemInv shared s retVal.length st.2.2)
          _ _ _ _ (fun i st st1 hi hb => sparseStep_inv hi hb) _ _ _ _ h0 hst
  rw [if_pos (by omega)] at he
  simp only [Outcome.bind_eq_ok] at he
  obtain ⟨m, hm, m2, hm2, he⟩ := he
  simp only [Outcome.ok.injEq, Prod.mk.injEq] at he
  obtain ⟨-, rfl, -⟩ := he
  obtain ⟨m', i1, hm', hinv1, hi0, hid, hb, hfr, hval⟩ :=
    @interpolate_full shared s retVal.length st.2.2 (s.x.length : ℤ) jump hs hj0
      (by exact_mod_cast hL)
  rw [hm] at hm'
  simp only [Outcome.ok.injEq] at hm'
  subst hm'
  obtain ⟨hkeep, hlast⟩ := smoothLast_full hinv1 (by omega) (by exact_mod_cast hL) hj0 hm2
  obtain ⟨q1, q2, q3, q4⟩ := @lastSmoothedPos_spec ((s.x.length : ℤ) - 1) jump (by omega) hj0
  obtain ⟨a1, a2, a3, a4⟩ := @lastSmoothedPos_spec k jump hk hj0
  have ha : k.tdiv jump * jump < k := by
    rcases lt_or_eq_of_le a3 with h | h
    · exact h
    · exact absurd (h ▸ a1) hnd
  by_cases hc : k.tdiv jump * jump + jump ≤ (s.x.length : ℤ) - 1
  · -- both neighbours are multiples of the stride
    rw [min_eq_left hc]
    have hq : k.tdiv jump * jump + jump ≤ ((s.x.length : ℤ) - 1).tdiv jump * jump := by
      by_contra hcon
      have := dvd_gap q1 (Dvd.dvd.add a1 (dvd_refl jump)) (by omega)
      omega
    have hki : k < i1 := by
      have := dvd_gap a1 hid (by omega)
      omega
    rw [hkeep k hk (by omega), hkeep _ a2 (by omega), hkeep _ (by omega) hq,
      hval k hk hki hnd, hfr _ a2 (Or.inl a1),
      hfr _ (by omega) (Or.inl (Dvd.dvd.add a1 (dvd_refl jump)))]
    have e1 : ((k.tdiv jump * jump + jump - k.tdiv jump * jump : ℤ) : ℚ) = (jump : ℚ) := by
      push_cast; ring
    rw [e1]
    ring
  · -- the right neighbour is the final index
    rw [min_eq_right (by omega)]
    have hq : ((s.x.length : ℤ) - 1).tdiv jump * jump = k.tdiv jump * jump :=
      lastSmoothedPos_eq (by omega) hj0 a1 (by omega) (by omega)
    have := hlast k (by omega) hkn
    rw [hq] at this
    rw [this]
    ring

end loess

theorem stl.ma_fold_length (data : List ℚ) (w : ℚ) (idx : List ℤ) :
    ∀ acc : ℚ × ℤ × ℤ × List ℚ,
      (idx.foldl
        (fun (acc : ℚ × ℤ × ℤ × List ℚ) i =>
          (acc.1 + (getI data acc.2.2.1 - getI data acc.2.1), acc.2.1 + 1, acc.2.2.1 + 1,
            setI acc.2.2.2 i ((acc.1 + (getI data acc.2.2.1 - getI data acc.2.1)) / w)))
        acc).2.2.2.length = acc.2.2.2.length := by
  induction idx with
  | nil => intro acc; rfl
  | cons i rest ih =>
    intro acc
    rw [List.foldl_cons, ih]
    simp

/-- The moving average returns, with `len(data) - window + 1` elements. -/
theorem stl.ma_length (data : List ℚ) (window : ℤ) (h1 : 1 ≤ window)
    (h2 : window ≤ (data.length : ℤ)) :
    ∃ out, stl.ma data window = .ok out ∧
      (out.length : ℤ) = (data.length : ℤ) - window + 1 := by
  unfold stl.ma
  simp only
  rw [if_neg (by omega), if_neg (by omega), if_neg (by omega), if_neg (by omega)]
  refine ⟨_, rfl, ?_⟩
  rw [stl.ma_fold_length]
  simp
  omega

/-- The scale `mad6` of `updateWeights` is twelve times the median of the absolute
residuals. -/
theorem stl.mad6_eq_twelve_medians (s : state) :
    s.mad6 = 12 * median (s.absResiduals.insertionSort (fun a b => a ≤ b)) := by
  have hlen : (s.absResiduals.insertionSort (fun a b => a ≤ b)).length = s.Data.length := by
    rw [List.length_insertionSort]
    simp [state.absResiduals]
  unfold state.mad6 median
  simp only [hlen, getI]
  rcases Nat.even_or_odd' s.Data.length with ⟨k, hk | hk⟩
  · -- an even number of points
    have h1 : (((s.Data.length : ℤ) + 1).tdiv 2 - 1).toNat = s.Data.length / 2 - 1 := by
      rw [Int.tdiv_eq_ediv (by omega) (by omega)]; omega
    have h2 : ((s.Data.length : ℤ) - (((s.Data.length : ℤ) + 1).tdiv 2 - 1) - 1).toNat
        = s.Data.length / 2 := by
      rw [Int.tdiv_eq_ediv (by omega) (by omega)]; omega
    rw [h1, h2, if_neg (by omega)]
    ring
  · -- an odd number of points
    have h1 : (((s.Data.length : ℤ) + 1).tdiv 2 - 1).toNat = s.Data.length / 2 := by
      rw [Int.tdiv_eq_ediv (by omega) (by omega)]; omega
    have h2 : ((s.Data.length : ℤ) - (((s.Data.length : ℤ) + 1).tdiv 2 - 1) - 1).toNat
        = s.Data.length / 2 := by
      rw [Int.tdiv_eq_ediv (by omega) (by omega)]; omega
    rw [h1, h2, if_pos (by omega)]
    ring

/-! ## The subcycle workspace, the trend refit, the scale of the robustness weights,
interpolation, local weights and windows -/

/-- C21, at an input where the code fails: five points `[1, 2, 3, 4, 5]` and periodicity 2, so
`N mod P = 1` and phase 1 has the two samples `X[1] = 2` and `X[3] = 4`.  `setupWorkspace`
copies these two, but the row of the workspace has the common length 3, and
`computeSmoothedSubSeries` hands the whole row `[2, 4, 0]` to the smoother: the smoothed row
has `3 + 2` entries, the padding zero is smoothed as a third sample (it comes back as `0`
when no weights are passed and as `6` with weights), and it reaches the seasonal buffer. -/
theorem subcycle_rows_keep_padding :
    stl.phaseLength (stl.newSubcycleState (stl.DefaultSeasonal 10) 5 2 1 1) 1 = 2 ∧
    (stl.setupWorkspace (stl.newSubcycleState (stl.DefaultSeasonal 10) 5 2 1 1)
        [1, 2, 3, 4, 5] []).bind (fun s => .ok (s.data.getD 0 []))
      = .ok [[1, 3, 5], [2, 4, 0]] ∧
    (stl.smoothSeasonal (stl.newSubcycleState (stl.DefaultSeasonal 10) 5 2 1 1)
        [1, 2, 3, 4, 5] [] (List.replicate 9 0)).bind (fun r => .ok (r.1.smoothed, r.2.1))
      = .ok ([[1, 1, 3, 5, 5], [2, 2, 4, 0, 0]], [1, 1, 3, 5, 5, 2, 2, 4, 0]) ∧
    (stl.smoothSeasonal (stl.newSubcycleState (stl.DefaultSeasonal 10) 5 2 1 1)
        [1, 2, 3, 4, 5] [1, 1, 1, 1, 1] (List.replicate 9 0)).bind
        (fun r => .ok (r.1.data.getD 1 [], r.1.smoothed))
      = .ok ([[1, 1, 1], [1, 1, 0]], [[-1, 1, 3, 5, 7], [0, 2, 4, 6, 8]]) := by
  refine ⟨by decide, by decide!, by decide!, by decide!⟩

/-- C22, at an input where the code fails: six points `[1, 2, 4, 3, 5, 7]`, periodicity 2.  The
padded smoothed rows are `[1, 1, 4, 5, 5]` for phase 0 and `[2, 2, 3, 7, 7]` for phase 1, and
the buffer `smoothSeasonal` fills is the first row followed by the second, not the two rows
interleaved: position `1 * 2 + 0 = 2` holds `4`, the entry `k = 2` of phase 0, and not
its entry `k = 1`, which is `1`. -/
theorem smoothSeasonal_output_is_phase_major :
    (stl.smoothSeasonal (stl.newSubcycleState (stl.DefaultSeasonal 10) 6 2 1 1)
        [1, 2, 4, 3, 5, 7] [] (List.replicate 10 0)).bind (fun r => .ok (r.1.smoothed, r.2.1))
      = .ok ([[1, 1, 4, 5, 5], [2, 2, 3, 7, 7]], [1, 1, 4, 5, 5, 2, 2, 3, 7, 7]) := by
  decide!

/-- C23, at an input where the code fails: the first inner pass on `[1, 2, 4, 3, 5]` with
periodicity 2, width 10 and a stride-1 low-pass Config (trend Config: width 4, stride 1,
`Linear`; weights all 1).  After `updateSeasonalAndTrend` the trend is the first list below;
smoothing a copy of `Data - Seasonal` with the same width, stride, kernel and weights gives
the second list.  They agree at index 0 only: in place, every later regression reads the
values already smoothed. -/
theorem trend_refit_in_place_differs_from_copy :
    ((((stl.newState [1, 2, 4, 3, 5] 2 10 [.WithLowpassConfig ⟨2, 1, .linear⟩]).doDetrend.bind
        (fun s => s.smoothSubcycles false)).bind (fun r => r.1.removeSeasonality)).bind
        (fun r => r.1.updateSeasonalAndTrend false)).bind
        (fun r => .ok (r.1.tConf, r.1.weights, r.1.Seasonal, r.1.Trend))
      = .ok (⟨4, 1, .linear⟩, [1, 1, 1, 1, 1], [5 / 3, 5 / 6, 13 / 12, 23 / 12, 8 / 3],
          [-991455757 / 1509787470, 4144387211083 / 3617450778120,
           8167769060363759 / 4333706032187760, 8673716461319184137 / 5191779826560936480,
           90972437427206353439586041 / 40825438172606641088384925]) ∧
    (UnsafeSmooth (NewWithExternal 4 [1 - 5 / 3, 2 - 5 / 6, 4 - 13 / 12, 3 - 23 / 12, 5 - 8 / 3]
        [1, 1, 1, 1, 1]) 4 1 .linear .nil).bind (fun r => .ok r.2.1)
      = .ok [-991455757 / 1509787470, 16429 / 14376, 27181 / 14376, 28265 / 14376,
          988425393 / 503262490] := by
  refine ⟨by decide!, by decide!⟩

/-- C24: the seasonal update of an inner pass, on a state with `N >= 1` points whose buffers
have the lengths `Decompose` gives them, with periodicity at least 1 and a low-pass Config with
`Linear` and a stride of at least one.  The three moving averages and the low-pass smooth
return; the result `d` of that smooth has exactly `N` elements and is what `removeSeasonality`
stores as `deseasonalized`.  `updateSeasonalAndTrend` then sets
`Seasonal[i] = extendedSeasonal[P + 1] - d[i]` for every `i < N` and hands the series
`Data[i] - Seasonal[i]` to the trend refit: it is that call of `UnsafeSmooth`, in place, with
the trend Config and the weights. -/
theorem seasonal_update_uses_fixed_index (s : stl.state) (N : ℕ) (hN : 1 ≤ N)
    (hP : 1 ≤ s.periodicity) (hD : s.Data.length = N) (hS : s.Seasonal.length = N)
    (hT : s.Trend.length = N)
    (hE : (s.extendedSeasonal.length : ℤ) = (N : ℤ) + 2 * s.periodicity)
    (hF : s.lConf.Fn = .linear) (hJ : 1 ≤ s.lConf.Jump) :
    ∃ m1 m2 passes sl d,
      stl.ma s.extendedSeasonal s.periodicity = .ok m1 ∧
      stl.ma m1 s.periodicity = .ok m2 ∧ stl.ma m2 3 = .ok passes ∧
      loess.Smooth passes s.lConf.Width s.lConf.Jump s.lConf.Fn = .ok (sl, d, none) ∧
      d.length = N ∧
      s.removeSeasonality = .ok ({ s with deseasonalized := d }, none) ∧
      ∀ u : Bool, ∃ S T : List ℚ, S.length = N ∧ T.length = N ∧
        (∀ i : ℕ, i < N →
          S.getD i 0 = getI s.extendedSeasonal (s.periodicity + 1) - d.getD i 0) ∧
        (∀ i : ℕ, i < N → T.getD i 0 = s.Data.getD i 0 - S.getD i 0) ∧
        stl.state.updateSeasonalAndTrend { s with deseasonalized := d } u
          = (UnsafeSmooth { width := s.sstateWidth, w := s.sstateW, x := T, e := s.weights }
              s.tConf.Width s.tConf.Jump s.tConf.Fn .inPlace).bind fun r =>
              .ok ({ s with deseasonalized := d, Seasonal := S, Trend := r.2.1,
                            sstateW := r.1.w }, r.2.2) := by
  obtain ⟨m1, h1, l1⟩ := stl.ma_length s.extendedSeasonal s.periodicity hP (by omega)
  obtain ⟨m2, h2, l2⟩ := stl.ma_length m1 s.periodicity hP (by omega)
  obtain ⟨passes, h3, l3⟩ := stl.ma_length m2 3 (by omega) (by omega)
  have hpl : passes.length = N := by omega
  have hpne : passes ≠ [] := by
    intro hc; rw [hc] at hpl; simp at hpl; omega
  obtain ⟨sl, d, h4, l4, _⟩ := Smooth_linear_spec passes s.lConf.Width s.lConf.Jump hpne hJ
  rw [← hF] at h4
  have hdl : d.length = N := by rw [l4, hpl]
  refine ⟨m1, m2, passes, sl, d, h1, h2, h3, h4, hdl, ?_, fun u => ?_⟩
  · unfold stl.state.removeSeasonality
    rw [h1, Outcome.bind_ok, h2, Outcome.bind_ok, h3, Outcome.bind_ok, h4, Outcome.bind_ok]
  · refine ⟨writePrefix N
        (fun i => getI s.extendedSeasonal (s.periodicity + 1) - d.getD i 0) s.Seasonal,
      writePrefix N (fun i => s.Data.getD i 0 - (writePrefix N
        (fun i => getI s.extendedSeasonal (s.periodicity + 1) - d.getD i 0) s.Seasonal).getD i 0)
        s.Trend, ?_, ?_, fun i hi => writePrefix_getD hi, fun i hi => writePrefix_getD hi, ?_⟩
    · rw [writePrefix_length (by omega), hS]
    · rw [writePrefix_length (by omega), hT]
    · unfold stl.state.updateSeasonalAndTrend
      simp only [hS]
      have hb : inBounds s.extendedSeasonal.length (s.periodicity + 1) = true := by
        simp only [inBounds, Bool.and_eq_true, decide_eq_true_eq]; omega
      rw [if_pos (Or.inr (by simp [hb, hdl, hT, hD]))]

/-- C24 witness: the state `newState` makes from `[1, 2, 4, 3, 5]`, periodicity 2, width 10 and
a stride-1 low-pass Config. -/
theorem seasonal_update_uses_fixed_index_witness :
    ∃ d : List ℚ, d.length = 5 ∧
      (stl.newState [1, 2, 4, 3, 5] 2 10 [.WithLowpassConfig ⟨2, 1, .linear⟩]).removeSeasonality
        = .ok ({ stl.newState [1, 2, 4, 3, 5] 2 10 [.WithLowpassConfig ⟨2, 1, .linear⟩] with
                 deseasonalized := d }, none) := by
  obtain ⟨_, _, _, _, d, _, _, _, _, hd, h, _⟩ := seasonal_update_uses_fixed_index
    (stl.newState [1, 2, 4, 3, 5] 2 10 [.WithLowpassConfig ⟨2, 1, .linear⟩]) 5
    (by decide) (by decide) (by decide) (by decide) (by decide) (by decide) (by decide)
    (by decide)
  exact ⟨d, hd, h⟩

/-- C25, where the code fails: `mad6` is `6 * (sorted[med0] + sorted[med1])`, the sum of the two
middle order statistics times six, which is twelve times the median for every state.  On
the residuals `[0, 2, 3, 4, 20]` the median is 3 and `mad6` is 36, not 18; the residual 20
gets the weight `(1 - (20/36)^2)^2 = 3136/6561`, where a scale of six medians gives 0. -/
theorem mad6_is_twelve_times_the_median :
    (∀ s : stl.state,
      s.mad6 = 12 * stl.median (s.absResiduals.insertionSort (fun a b => a ≤ b))) ∧
    (stl.newState [0, 2, 3, 4, 20] 2 10 []).absResiduals = [0, 2, 3, 4, 20] ∧
    stl.median [0, 2, 3, 4, 20] = 3 ∧
    (stl.newState [0, 2, 3, 4, 20] 2 10 []).mad6 = 36 ∧
    (stl.newState [0, 2, 3, 4, 20] 2 10 []).updateWeights.bind (fun s => .ok s.weights)
      = .ok [1, 104329 / 104976, 20449 / 20736, 6400 / 6561, 3136 / 6561] ∧
    stl.bisquare (6 * 3) 20 = 0 := by
  refine ⟨stl.mad6_eq_twelve_medians, by decide!, by decide!, by decide!, by decide!, by decide!⟩

/-- C26: on a non-empty series with a stride above one.  Whatever the kernel and the width, in
a result that `Smooth` returns every index `j` that is neither a multiple of the stride nor the
final index lies strictly between `a`, the multiple of the stride below it, and `b`, the next
multiple or the final index if that comes first, and
`out[j] = out[a] + (out[b] - out[a]) * (j - a) / (b - a)`.  With `Linear`, `Smooth` returns
such a result, and the final index holds the value of a regression at that index (or the raw
value if the regression fails): it is not interpolated. -/
theorem Smooth_interpolates_between_samples (x : List ℚ) (width jump : ℤ) (hx : x ≠ [])
    (hj : 1 < jump) :
    (∀ fn s1 out e, loess.Smooth x width jump fn = .ok (s1, out, e) →
      ∀ j : ℕ, j + 1 < x.length → ¬ jump ∣ (j : ℤ) →
        ∀ a b : ℤ, a = (j : ℤ).tdiv jump * jump → b = min (a + jump) ((x.length : ℤ) - 1) →
          a < j ∧ (j : ℤ) < b ∧
          out.getD j 0 = getI out a
            + (getI out b - getI out a) * (((j : ℤ) - a : ℤ) : ℚ) / ((b - a : ℤ) : ℚ)) ∧
    ∃ s1 out, loess.Smooth x width jump .linear = .ok (s1, out, none) ∧
      out.length = x.length ∧
      out.getD (x.length - 1) 0 =
        if x.length = 1 then x.getD (x.length - 1) 0
        else pointOrRaw (New width x) .linear ((x.length - 1 : ℕ) : ℤ)
          (smoothWindow (x.length : ℤ) width jump (x.length - 1)).1
          (smoothWindow (x.length : ℤ) width jump (x.length - 1)).2 := by
  have hne : x.length ≠ 0 := by simpa using hx
  refine ⟨fun fn s1 out e h j hjn hnd a b ha hb => ?_, ?_⟩
  · have hv := @smooth_interpolates false (New width x) s1 width jump fn
      (List.replicate x.length 0) out e (fun hc => by simp at hc) (by simp [New]) hj h
      (j : ℤ) (by omega) (by simp only [New]; omega) hnd
    simp only [New] at hv
    obtain ⟨a1, a2, a3, a4⟩ := @lastSmoothedPos_spec (j : ℤ) jump (by omega) (by omega)
    have haj : a < j := by
      rcases lt_or_eq_of_le a3 with h | h
      · rw [ha]; exact h
      · exact absurd (h ▸ a1) hnd
    refine ⟨haj, ?_, ?_⟩
    · rw [hb, ha]
      exact lt_min (by omega) (by omega)
    · rw [← getI_natCast, hb, ha]
      exact hv
  · obtain ⟨s1, out, h1, h2, hval⟩ := Smooth_linear_spec x width jump hx (by omega)
    exact ⟨s1, out, h1, h2, hval (x.length - 1) (by omega) (Or.inr (by omega))⟩

/-- C26 witness: eight points, width 3, stride 3: index 1 lies between the sampled indices 0
and 3. -/
theorem Smooth_interpolates_between_samples_witness :
    ∃ s1 out, loess.Smooth [1, 2, 4, 3, 5, 7, 6, 8] 3 3 .linear = .ok (s1, out, none) ∧
      out.getD 1 0 = getI out 0 + (getI out 3 - getI out 0) * (((1 : ℤ) - 0 : ℤ) : ℚ)
        / ((3 - 0 : ℤ) : ℚ) ∧
      out.getD 6 0 = getI out 6 := by
  obtain ⟨hint, s1, out, h1, _, _⟩ :=
    Smooth_interpolates_between_samples [1, 2, 4, 3, 5, 7, 6, 8] 3 3 (by decide) (by decide)
  refine ⟨s1, out, h1, ?_, ?_⟩
  · exact (hint .linear s1 out none h1 1 (by decide) (by decide) 0 3 (by decide) (by decide)).2.2
  · rw [← getI_natCast]; rfl

/-- C27: `localWeights` on a state whose weight buffer has the length of the series, for any
abscissa and a window `[left, right]` with `0 <= left` and `right < N` (empty or not), with
`lambda` the larger of `x - left` and `right - x`, widened by `(width - N) / 2` when
`width > N`.  The call returns; it reports an error exactly when `lambda <= 0` or the sum of `k(j) * e(j)` over the
window is `<= 0`; otherwise `W[i] = k(i) * e(i) / sum_j k(j) * e(j)` on the window, with
`k = kernelWeight` (1, 0 or the tricube) and `e = externalWeight` (1 where none is
supplied). -/
theorem localWeights_fails_iff_and_weights (s : State) (x : ℚ) (left right : ℤ)
    (hlen : s.w.length = s.x.length) (h0 : 0 ≤ left)
    (hr : right < (s.x.length : ℤ)) (lambda : ℚ)
    (hlam : lambda = if s.width > (s.x.length : ℤ)
      then max (x - (left : ℚ)) ((right : ℚ) - x)
        + (((s.width - (s.x.length : ℤ) : ℤ) : ℚ)) / 2
      else max (x - (left : ℚ)) ((right : ℚ) - x)) :
    ∃ s1 err, localWeights s x (left : ℚ) (right : ℚ) = .ok (s1, err) ∧
      (err ≠ none ↔
        (lambda ≤ 0 ∨ windowSum left right
          (fun j => kernelWeight x lambda j * externalWeight s.e j) ≤ 0)) ∧
      (err = none → ∀ i : ℤ, left ≤ i → i ≤ right →
        getI s1.w i = kernelWeight x lambda i * externalWeight s.e i
          / windowSum left right (fun j => kernelWeight x lambda j * externalWeight s.e j)) := by
  have hb : bandwidth s x (left : ℚ) (right : ℚ) = lambda := by
    rw [hlam]; rfl
  obtain ⟨s1, h1, _, hv⟩ := localWeights_spec s x left right (Or.inr ⟨h0, by rw [hlen]; exact hr⟩)
  refine ⟨s1, _, h1, ?_, ?_⟩
  · unfold localErr
    rw [hb]
    by_cases hl : lambda ≤ 0
    · simp [hl]
    · have hsum : rawTotal s x left right = windowSum left right
          (fun j => kernelWeight x lambda j * externalWeight s.e j) := by
        unfold rawTotal
        rw [hb]
        exact windowSum_congr fun z _ _ => rawWeight_eq_kernel x lambda s.e z (not_le.mp hl)
      rw [if_neg hl, hsum]
      by_cases ht : windowSum left right
          (fun j => kernelWeight x lambda j * externalWeight s.e j) ≤ 0
      · simp [ht]
      · simp [ht, hl]
  · intro he i hi1 hi2
    have hl : 0 < lambda := by
      by_contra hc
      unfold localErr at he
      rw [hb, if_pos (not_lt.mp hc)] at he
      simp at he
    rw [hv he i hi1 hi2]
    unfold normWeight rawTotal
    rw [hb, rawWeight_eq_kernel x lambda s.e i hl]
    congr 1
    exact windowSum_congr fun z _ _ => rawWeight_eq_kernel x lambda s.e z hl

/-- C27 witness: three points with external weights `[1, 0, 1]`, abscissa 1, window `[0, 2]`,
`lambda = 1`. -/
theorem localWeights_fails_iff_and_weights_witness :
    ∃ s1 err, localWeights (NewWithExternal 3 [1, 2, 3] [1, 0, 1]) 1 ((0 : ℤ) : ℚ) ((2 : ℤ) : ℚ)
      = .ok (s1, err) := by
  obtain ⟨s1, err, h, -, -⟩ := localWeights_fails_iff_and_weights
    (NewWithExternal 3 [1, 2, 3] [1, 0, 1]) 1 0 2 rfl (by decide) (by decide) 1
    (by norm_num [NewWithExternal])
  exact ⟨s1, err, h⟩

/-- C28, at an input where the code fails: five points, window `[0, 4]`, abscissa 2, the weights
as `localWeights` has normalised them.  The guard `variance > thresh*thresh` of the loop of
`Quadratic` holds and the loop body assigns neither variable, so the loop is never left:
`Quadratic`, `Regress` and `Smooth` with `Quadratic` do not return. -/
theorem Quadratic_never_leaves_its_loop :
    (localWeights (New 5 [1, 2, 4, 3, 5]) 2 0 4).bind (fun r => .ok (r.1.w, r.2))
      = .ok ([0, 343 / 1198, 256 / 599, 343 / 1198, 0], none) ∧
    Quadratic { New 5 [1, 2, 4, 3, 5] with w := [0, 343 / 1198, 256 / 599, 343 / 1198, 0] }
      2 0 4 = .diverged ∧
    Regress (New 5 [1, 2, 4, 3, 5]) .quadratic 2 0 4 = .diverged ∧
    loess.Smooth [1, 2, 4, 3, 5] 5 1 .quadratic = .diverged := by
  refine ⟨by decide!, by decide!, by decide!, by decide!⟩

/-- C29: on a non-empty series, with a width of at least one and a stride of at least one,
`Smooth` with `Linear` returns for the given stride and for stride 1, and at every index that
is a multiple of the stride the two results agree: both regress over the same window, the
whole series when `width >= len(x)` and `[l, l + width - 1]` with
`l = min(max(0, i - (width+1)/2 + 1), len(x) - width)` otherwise. -/
theorem Smooth_sparse_agrees_with_dense (x : List ℚ) (width jump : ℤ) (hx : x ≠ [])
    (hw : 1 ≤ width) (hj : 1 ≤ jump) :
    ∃ s1 out s2 out1, loess.Smooth x width jump .linear = .ok (s1, out, none) ∧
      loess.Smooth x width 1 .linear = .ok (s2, out1, none) ∧
      ∀ i : ℕ, i < x.length → jump ∣ (i : ℤ) →
        out.getD i 0 = out1.getD i 0 ∧
        smoothWindow (x.length : ℤ) width jump i = smoothWindow (x.length : ℤ) width 1 i ∧
        smoothWindow (x.length : ℤ) width jump i =
          if width ≥ (x.length : ℤ) then (0, (((x.length : ℤ) - 1 : ℤ) : ℚ))
          else (((windowLeft (x.length : ℤ) width i : ℤ) : ℚ),
            ((windowLeft (x.length : ℤ) width i + (width - 1) : ℤ) : ℚ)) := by
  obtain ⟨s1, out, h1, _, hv1⟩ := Smooth_linear_spec x width jump hx hj
  obtain ⟨s2, out1, h2, _, hv2⟩ := Smooth_linear_spec x width 1 hx (le_refl 1)
  refine ⟨s1, out, s2, out1, h1, h2, fun i hi hd => ?_⟩
  have e1 := @smoothWindow_closed x.length width jump hw i hd
  have e2 := @smoothWindow_closed x.length width 1 hw i (one_dvd _)
  refine ⟨?_, e1.trans e2.symm, e1⟩
  rw [hv1 i hi (Or.inl hd), hv2 i hi (Or.inl (one_dvd _)), e1, e2]

/-- C29 witness: five points, width 3: stride 2 and stride 1 agree at index 2. -/
theorem Smooth_sparse_agrees_with_dense_witness :
    ∃ s1 out s2 out1, loess.Smooth [1, 2, 4, 3, 5] 3 2 .linear = .ok (s1, out, none) ∧
      loess.Smooth [1, 2, 4, 3, 5] 3 1 .linear = .ok (s2, out1, none) ∧
      out.getD 2 0 = out1.getD 2 0 := by
  obtain ⟨s1, out, s2, out1, h1, h2, hv⟩ :=
    Smooth_sparse_agrees_with_dense [1, 2, 4, 3, 5] 3 2 (by decide) (by decide) (by decide)
  exact ⟨s1, out, s2, out1, h1, h2, (hv 2 (by decide) (by decide)).1⟩
